import Mathlib

/-!
# key-db: a log plus index key-value store

A verification development for `db.go` (package `keydb`).

The store is two files and one cached integer.  `DB.f` is the log, `DB.indexf`
the index file, `DB.byteSize` the cached length of the log.

The functions of `db.go` are `NewDB`, `DB.Close`, `DB.getIndexes`, `DB.index`,
`DB.Write`, `DB.Read` and `DB.FlushDB` below.  What they call in the Go library
is modelled as follows.

* A Go `string` and a `[]byte` are both a list of bytes (`Bytes`); `len` is
  `List.length`.
* A file is its content.  `f.Write` on the log puts the bytes at the end of
  the file (the log handle appends, as with the flag `os.O_APPEND` in the
  comment of `NewDB`).  `f.Write` is the one file operation whose error
  `db.go` looks at, so it is the one that takes its outcome from the
  environment (`AppendOutcome`); a failed write may have put the first bytes
  of the record in the log.  `f.ReadAt` fills a zeroed buffer with the bytes
  the file has at the offset.  Reading the index file and `Stat` succeed on
  the files of a `DB`; the branches of `db.go` for their errors are in
  `getIndexesOf` and `NewDBOf`.  `DB.Close` takes what the two calls of
  `Close` on the files return from the environment.
* Go's `int` is given twice.  `DB.index`, `DB.Write`, `DB.Read` and
  `jsonUnmarshal` take it as an integer without bound (`Int`): they are used
  where the integers are offsets and lengths of a log that was written,
  which are below `2^63`, and they take `make` to have the memory for a
  buffer of up to `maxAlloc` bytes.  `DB.index64`, `DB.Write64`, `DB.Read64`
  and `jsonUnmarshal64` take `int` with its 64 bits: a sum or a difference
  wraps around (`wrapInt`), `json.Unmarshal` stores no integer outside the
  range, and the memory for `Read` comes from the environment
  (`AllocOutcome`).  They are used where a statement is about every cached
  length, every byte count or every index file.  Where no integer leaves the
  range the two are the same (`jsonUnmarshal64_eq`, `Write64_eq`, `Read64_eq`,
  `writeAll64_eq`).  In both, `make` panics on a size that is negative or
  above `maxAlloc`, as `runtime.makeslice` does.
* `encoding/json` is modelled for the one type it is used at,
  `map[string]HashIndexValue`: `jsonMarshal` and `jsonUnmarshal`.  The decoder
  reads the whole JSON grammar (with no limit on the depth of nesting) and
  stores what it reads as `json.Unmarshal` does for this type.  Both functions
  coerce strings to valid UTF-8, as the library documents: a byte that is not
  part of a UTF-8 sequence is written by `json.Marshal` as the escape of
  U+FFFD and read by `json.Unmarshal` as U+FFFD (`runeLen` is the check of
  `utf8.DecodeRune`).
* A Go map (`HashTable`) is the nil map or a map with entries.  The entries
  are a list in ascending key order (`Entries`); `Entries.set` keeps the
  order, and the order is the one `json.Marshal` writes the keys in.  JSON
  `null` unmarshals to the nil map, on which an assignment panics.
-/

namespace keydb

/-! ## Bytes -/

/-- A byte string: a Go `string` or `[]byte`. -/
abbrev Bytes := List UInt8

/-- The bytes of a string literal, `[]byte(s)`: its UTF-8 encoding. -/
def bytesOf (s : String) : Bytes := s.data.flatMap String.utf8EncodeChar

/-- The delimiter `":"` of a record. -/
def delim : UInt8 := 0x3A

/-! ## The index mapping -/

/-- The struct `HashIndexValue` of `db.go`. -/
structure HashIndexValue where
  Location : Int
  Max : Int
deriving DecidableEq, Repr

/-- The entries of a map, in ascending key order. -/
abbrev Entries := List (Bytes × HashIndexValue)

/-- Lexicographic order on byte strings, the order of `strings.Compare`. -/
def bytesLt : Bytes → Bytes → Bool
  | [], [] => false
  | [], _ :: _ => true
  | _ :: _, [] => false
  | a :: as, b :: bs =>
    if a.toNat < b.toNat then true
    else if a = b then bytesLt as bs
    else false

/-- The entry of a key among the entries, when there is one. -/
def Entries.find? (t : Entries) (key : Bytes) : Option HashIndexValue :=
  match t with
  | [] => none
  | (k, v) :: rest => if key = k then some v else Entries.find? rest key

/-- The entries after the assignment `m[key] = v`. -/
def Entries.set (t : Entries) (key : Bytes) (v : HashIndexValue) : Entries :=
  match t with
  | [] => [(key, v)]
  | (k, w) :: rest =>
    if key = k then (key, v) :: rest
    else if bytesLt key k then (key, v) :: (k, w) :: rest
    else (k, w) :: Entries.set rest key v

/-- The keys of the entries are strictly ascending: the list stands for a map. -/
def Entries.Sorted (t : Entries) : Prop :=
  List.Pairwise (fun a b => bytesLt a.1 b.1 = true) t

/-- The map type `HashTable` of `db.go`: the nil map, or a map with its
entries. -/
inductive HashTable where
  | nil
  | map (entries : Entries)
deriving DecidableEq, Repr

/-- The entry of a key, when the map has one (`v, ok := m[key]`); a nil map has
no entry. -/
def HashTable.find? : HashTable → Bytes → Option HashIndexValue
  | HashTable.nil, _ => none
  | HashTable.map t, key => t.find? key

/-- The value of `m[key]`: the entry, or the zero value when there is none. -/
def HashTable.get (m : HashTable) (key : Bytes) : HashIndexValue :=
  (m.find? key).getD ⟨0, 0⟩

/-- The assignment `m[key] = v`: the map afterwards, or `none` for the panic
of an assignment to an entry of a nil map. -/
def HashTable.assign : HashTable → Bytes → HashIndexValue → Option HashTable
  | HashTable.nil, _, _ => none
  | HashTable.map t, key, v => some (HashTable.map (t.set key v))

/-! ## encoding/json: Marshal -/

/-- The lower-case hexadecimal digit of a number below 16. -/
def hexDigit (n : Nat) : UInt8 :=
  if n < 10 then (48 + n).toUInt8 else (87 + n).toUInt8

/-- What `json.Marshal` writes for one byte below `0x80` of a string (HTML
escaping is on by default). -/
def quoteByte (b : UInt8) : Bytes :=
  if b = 0x5C ∨ b = 0x22 then [0x5C, b]
  else if b = 0x08 then [0x5C, 0x62]
  else if b = 0x0C then [0x5C, 0x66]
  else if b = 0x0A then [0x5C, 0x6E]
  else if b = 0x0D then [0x5C, 0x72]
  else if b = 0x09 then [0x5C, 0x74]
  else if b.toNat < 0x20 ∨ b = 0x3C ∨ b = 0x3E ∨ b = 0x26 then
    [0x5C, 0x75, 0x30, 0x30, hexDigit (b.toNat / 16), hexDigit (b.toNat % 16)]
  else [b]

/-- The number of bytes of the UTF-8 sequence that a first byte announces (the
table `first` of package `utf8`); 0 for a byte that starts no sequence of more
than one byte. -/
def runeSize (p0 : UInt8) : Nat :=
  if 0xC2 ≤ p0.toNat ∧ p0.toNat ≤ 0xDF then 2
  else if 0xE0 ≤ p0.toNat ∧ p0.toNat ≤ 0xEF then 3
  else if 0xF0 ≤ p0.toNat ∧ p0.toNat ≤ 0xF4 then 4
  else 0

/-- The least second byte after a first byte (`acceptRanges`). -/
def acceptLo (p0 : UInt8) : Nat :=
  if p0.toNat = 0xE0 then 0xA0 else if p0.toNat = 0xF0 then 0x90 else 0x80

/-- The greatest second byte after a first byte (`acceptRanges`). -/
def acceptHi (p0 : UInt8) : Nat :=
  if p0.toNat = 0xED then 0x9F else if p0.toNat = 0xF4 then 0x8F else 0xBF

/-- A continuation byte of UTF-8. -/
def isCont (b : UInt8) : Bool := 0x80 ≤ b.toNat && b.toNat ≤ 0xBF

/-- The size `utf8.DecodeRune` gives for a text that starts with a UTF-8
sequence of more than one byte; 0 when the text starts with no such sequence
(for a first byte from `0x80` that is `RuneError` with size 1). -/
def runeLen : Bytes → Nat
  | [] => 0
  | [_] => 0
  | p0 :: b1 :: rest =>
    if runeSize p0 = 0 then 0
    else if rest.length + 2 < runeSize p0 then 0
    else if b1.toNat < acceptLo p0 ∨ acceptHi p0 < b1.toNat then 0
    else if (rest.take (runeSize p0 - 2)).all isCont then runeSize p0
    else 0

/-- The function `utf8.Valid`, leaving out the first `skip` bytes. -/
def validUTF8Aux : Nat → Bytes → Bool
  | _, [] => true
  | skip + 1, _ :: rest => validUTF8Aux skip rest
  | 0, b :: rest =>
    if b.toNat < 0x80 then validUTF8Aux 0 rest
    else
      match runeLen (b :: rest) with
      | 0 => false
      | n + 1 => validUTF8Aux n rest

/-- The function `utf8.Valid`: the bytes are valid UTF-8. -/
def validUTF8 (s : Bytes) : Bool := validUTF8Aux 0 s

/-- The last digit of the escape of U+2028 or U+2029 (`E2 80 A8`, `E2 80 A9`),
when the byte `b` and the text after it start with one of the two. -/
def lineSepDigit (b : UInt8) (rest : Bytes) : Option UInt8 :=
  match rest with
  | c :: d :: _ =>
    if b = 0xE2 ∧ c = 0x80 ∧ d = 0xA8 then some 0x38
    else if b = 0xE2 ∧ c = 0x80 ∧ d = 0xA9 then some 0x39
    else none
  | _ => none

/-- The inside of a JSON string literal for a Go string (`appendString`).  The
first `n` bytes are the rest of a UTF-8 sequence that was looked at already:
they are copied when `keep` is set and left out when it is not.  A byte below
`0x80` is written by `quoteByte`, a byte that is not valid UTF-8 as the escape
of U+FFFD, U+2028 and U+2029 as their escapes, and a valid UTF-8 sequence is
copied. -/
def quoteAux : Bool → Nat → Bytes → Bytes
  | _, _, [] => []
  | keep, n + 1, b :: rest =>
    if keep then b :: quoteAux keep n rest else quoteAux keep n rest
  | _, 0, b :: rest =>
    if b.toNat < 0x80 then quoteByte b ++ quoteAux true 0 rest
    else
      match runeLen (b :: rest) with
      | 0 => [0x5C, 0x75, 0x66, 0x66, 0x66, 0x64] ++ quoteAux true 0 rest
      | n + 1 =>
        match lineSepDigit b rest with
        | some d => [0x5C, 0x75, 0x32, 0x30, 0x32, d] ++ quoteAux false n rest
        | none => b :: quoteAux true n rest

/-- The inside of a JSON string literal for a Go string. -/
def quoteBody (s : Bytes) : Bytes := quoteAux true 0 s

/-- A Go string as a JSON string literal. -/
def quote (s : Bytes) : Bytes := 0x22 :: (quoteBody s ++ [0x22])

/-- The decimal digits of a natural number, most significant first, pushed
in front of `acc`. -/
def natDigitsAux : Nat → Nat → Bytes → Bytes
  | 0, _, acc => acc
  | fuel + 1, n, acc =>
    if n < 10 then (48 + n).toUInt8 :: acc
    else natDigitsAux fuel (n / 10) ((48 + n % 10).toUInt8 :: acc)

/-- The function `strconv.Itoa` on a natural number. -/
def natDigits (n : Nat) : Bytes := natDigitsAux (n + 1) n []

/-- The decimal text of an integer, as `json.Marshal` writes an `int`. -/
def itoa : Int → Bytes
  | Int.ofNat n => natDigits n
  | Int.negSucc n => 0x2D :: natDigits (n + 1)

/-- The text `"Location"`. -/
def nameLocation : Bytes := [0x4C, 0x6F, 0x63, 0x61, 0x74, 0x69, 0x6F, 0x6E]

/-- The text `"Max"`. -/
def nameMax : Bytes := [0x4D, 0x61, 0x78]

/-- One `HashIndexValue` as JSON: `{"Location":l,"Max":m}`. -/
def marshalValue (v : HashIndexValue) : Bytes :=
  [0x7B] ++ quote nameLocation ++ [0x3A] ++ itoa v.Location ++ [0x2C] ++
    quote nameMax ++ [0x3A] ++ itoa v.Max ++ [0x7D]

/-- The members of the JSON object, separated by commas. -/
def marshalEntries : Entries → Bytes
  | [] => []
  | (k, v) :: rest =>
    match rest with
    | [] => quote k ++ [0x3A] ++ marshalValue v
    | _ :: _ => quote k ++ [0x3A] ++ marshalValue v ++ [0x2C] ++ marshalEntries rest

/-- The JSON object of the entries of a map. -/
def marshalObject (t : Entries) : Bytes := [0x7B] ++ marshalEntries t ++ [0x7D]

/-- The function `json.Marshal` on a `HashTable`: `null` for the nil map. -/
def jsonMarshal : HashTable → Bytes
  | HashTable.nil => [0x6E, 0x75, 0x6C, 0x6C]
  | HashTable.map t => marshalObject t

/-! ## encoding/json: Unmarshal

The text is cut into tokens (`lexTokens`), the tokens are read as a JSON value
(`parseValue`), and the value is stored into a `HashTable` the way
`json.Unmarshal` stores into a `map[string]HashIndexValue` (`decodeTable`). -/

/-- The value of a hexadecimal digit. -/
def hexVal (c : UInt8) : Option Nat :=
  if 48 ≤ c.toNat ∧ c.toNat ≤ 57 then some (c.toNat - 48)
  else if 97 ≤ c.toNat ∧ c.toNat ≤ 102 then some (c.toNat - 87)
  else if 65 ≤ c.toNat ∧ c.toNat ≤ 70 then some (c.toNat - 55)
  else none

/-- The number written by four hexadecimal digits. -/
def hex4 (a b c d : UInt8) : Option Nat :=
  match hexVal a, hexVal b, hexVal c, hexVal d with
  | some x, some y, some z, some w => some (((x * 16 + y) * 16 + z) * 16 + w)
  | _, _, _, _ => none

/-- The function `utf8.EncodeRune`. -/
def encodeRune (r : Nat) : Bytes :=
  if r < 0x80 then [r.toUInt8]
  else if r < 0x800 then [(0xC0 + r / 64).toUInt8, (0x80 + r % 64).toUInt8]
  else if (0xD800 ≤ r ∧ r < 0xE000) ∨ 0x10FFFF < r then [0xEF, 0xBF, 0xBD]
  else if r < 0x10000 then
    [(0xE0 + r / 4096).toUInt8, (0x80 + r / 64 % 64).toUInt8, (0x80 + r % 64).toUInt8]
  else
    [(0xF0 + r / 262144).toUInt8, (0x80 + r / 4096 % 64).toUInt8,
      (0x80 + r / 64 % 64).toUInt8, (0x80 + r % 64).toUInt8]

/-- The byte a one-letter escape stands for. -/
def unescape (e : UInt8) : Option UInt8 :=
  if e = 0x22 ∨ e = 0x5C ∨ e = 0x2F then some e
  else if e = 0x62 then some 0x08
  else if e = 0x66 then some 0x0C
  else if e = 0x6E then some 0x0A
  else if e = 0x72 then some 0x0D
  else if e = 0x74 then some 0x09
  else none

/-- Puts bytes in front of the string of a result. -/
def prepend (p : Bytes) : Option (Bytes × Bytes) → Option (Bytes × Bytes)
  | none => none
  | some (s, rest) => some (p ++ s, rest)

/-- The escape `\uXXXX` that a text starts with, if it starts with one
(`getu4`). -/
def getu4 : Bytes → Option Nat
  | b :: u :: g1 :: g2 :: g3 :: g4 :: _ =>
    if b = 0x5C ∧ u = 0x75 then hex4 g1 g2 g3 g4 else none
  | _ => none

/-- Reads the item of a string literal that starts with the byte `c`, which
is not the closing quote, and goes on in `rest`: the bytes it stands for and
how many bytes of `rest` belong to it.  An escape `\uXXXX` of a surrogate is
read together with the escape of a low surrogate that follows it; alone it
stands for U+FFFD.  A UTF-8 sequence stands for itself, and a byte from `0x80`
that starts no UTF-8 sequence stands for U+FFFD. -/
def strItem (c : UInt8) (rest : Bytes) : Option (Bytes × Nat) :=
  if c = 0x5C then
    match rest with
    | [] => none
    | e :: rest1 =>
      if e = 0x75 then
        match rest1 with
        | h1 :: h2 :: h3 :: h4 :: rest2 =>
          match hex4 h1 h2 h3 h4 with
          | none => none
          | some r =>
            if 0xD800 ≤ r ∧ r < 0xE000 then
              match getu4 rest2 with
              | some r1 =>
                if r < 0xDC00 ∧ 0xDC00 ≤ r1 ∧ r1 < 0xE000 then
                  some (encodeRune ((r - 0xD800) * 1024 + (r1 - 0xDC00) + 0x10000), 11)
                else some ([0xEF, 0xBF, 0xBD], 5)
              | none => some ([0xEF, 0xBF, 0xBD], 5)
            else some (encodeRune r, 5)
        | _ => none
      else
        match unescape e with
        | some b => some ([b], 1)
        | none => none
  else if c.toNat < 0x20 then none
  else if c.toNat < 0x80 then some ([c], 0)
  else
    match runeLen (c :: rest) with
    | 0 => some ([0xEF, 0xBF, 0xBD], 0)
    | n + 1 => some (c :: rest.take n, n)

/-- Reads a string literal after its opening quote, leaving out the first
`skip` bytes: the string it denotes and the text after the closing quote. -/
def lexStringAux : Nat → Bytes → Option (Bytes × Bytes)
  | _, [] => none
  | skip + 1, _ :: rest => lexStringAux skip rest
  | 0, c :: rest =>
    if c = 0x22 then some ([], rest)
    else
      match strItem c rest with
      | none => none
      | some (out, n) => prepend out (lexStringAux n rest)

/-- Reads a string literal after its opening quote. -/
def lexString (s : Bytes) : Option (Bytes × Bytes) := lexStringAux 0 s

/-- A decimal digit. -/
def isDigit (c : UInt8) : Bool := 48 ≤ c.toNat && c.toNat ≤ 57

/-- The leading digits of a text and what follows them. -/
def spanDigits : Bytes → Bytes × Bytes
  | [] => ([], [])
  | c :: rest =>
    if isDigit c then (c :: (spanDigits rest).1, (spanDigits rest).2)
    else ([], c :: rest)

/-- The number written by a list of digits, after the digits read so far. -/
def digitsValue (acc : Nat) : Bytes → Nat
  | [] => acc
  | c :: rest => digitsValue (acc * 10 + (c.toNat - 48)) rest

/-- The fraction part of a number, if there is one: `none` when it is
malformed, else whether there was one and the text after it. -/
def lexFrac : Bytes → Option (Bool × Bytes)
  | [] => some (false, [])
  | c :: rest =>
    if c = 0x2E then
      match spanDigits rest with
      | ([], _) => none
      | (_ :: _, rest1) => some (true, rest1)
    else some (false, c :: rest)

/-- The exponent part of a number, read like the fraction part. -/
def lexExp : Bytes → Option (Bool × Bytes)
  | [] => some (false, [])
  | c :: rest =>
    if c = 0x65 ∨ c = 0x45 then
      match rest with
      | [] => none
      | s :: rest1 =>
        match spanDigits (if s = 0x2B ∨ s = 0x2D then rest1 else s :: rest1) with
        | ([], _) => none
        | (_ :: _, rest2) => some (true, rest2)
    else some (false, c :: rest)

/-- Reads a number without its sign.  The value is kept when the literal is
an integer literal; a literal with a fraction or an exponent is a number that
`json.Unmarshal` cannot store into an `int`. -/
def lexUnsigned (s : Bytes) : Option (Option Nat × Bytes) :=
  match spanDigits s with
  | ([], _) => none
  | (d :: ds, rest) =>
    if d = 0x30 ∧ ds ≠ [] then none
    else
      match lexFrac rest with
      | none => none
      | some (hasFrac, rest1) =>
        match lexExp rest1 with
        | none => none
        | some (hasExp, rest2) =>
          some (if hasFrac ∨ hasExp then none else some (digitsValue 0 (d :: ds)), rest2)

/-- Reads a number. -/
def lexNumber : Bytes → Option (Option Int × Bytes)
  | [] => none
  | c :: rest =>
    if c = 0x2D then
      match lexUnsigned rest with
      | none => none
      | some (v, rest1) => some (v.map (fun n => - (n : Int)), rest1)
    else
      match lexUnsigned (c :: rest) with
      | none => none
      | some (v, rest1) => some (v.map (fun n => (n : Int)), rest1)

/-- The tokens of a JSON text. -/
inductive Tok where
  | lbrace | rbrace | lbrack | rbrack | colon | comma
  | str (s : Bytes)
  | num (v : Option Int)
  | litTrue | litFalse | litNull
deriving DecidableEq, Repr

/-- Puts a token in front of a result. -/
def consTok (t : Tok) : Option (List Tok) → Option (List Tok)
  | none => none
  | some ts => some (t :: ts)

/-- JSON white space. -/
def isSpace (c : UInt8) : Bool := c = 0x20 || c = 0x09 || c = 0x0D || c = 0x0A

/-- Reads what a text starts with, the byte `c` and then `rest`: white space
(no token) or one token, and the text after it. -/
def lexOne (c : UInt8) (rest : Bytes) : Option (Option Tok × Bytes) :=
  if isSpace c then some (none, rest)
  else if c = 0x7B then some (some Tok.lbrace, rest)
  else if c = 0x7D then some (some Tok.rbrace, rest)
  else if c = 0x5B then some (some Tok.lbrack, rest)
  else if c = 0x5D then some (some Tok.rbrack, rest)
  else if c = 0x3A then some (some Tok.colon, rest)
  else if c = 0x2C then some (some Tok.comma, rest)
  else if c = 0x22 then
    match lexString rest with
    | none => none
    | some (s, rest1) => some (some (Tok.str s), rest1)
  else if c = 0x74 then
    match rest with
    | r :: u :: e :: rest1 =>
      if r = 0x72 ∧ u = 0x75 ∧ e = 0x65 then some (some Tok.litTrue, rest1) else none
    | _ => none
  else if c = 0x66 then
    match rest with
    | a :: l :: s :: e :: rest1 =>
      if a = 0x61 ∧ l = 0x6C ∧ s = 0x73 ∧ e = 0x65 then some (some Tok.litFalse, rest1)
      else none
    | _ => none
  else if c = 0x6E then
    match rest with
    | u :: l :: l2 :: rest1 =>
      if u = 0x75 ∧ l = 0x6C ∧ l2 = 0x6C then some (some Tok.litNull, rest1) else none
    | _ => none
  else
    match lexNumber (c :: rest) with
    | none => none
    | some (v, rest1) => some (some (Tok.num v), rest1)

/-- Cuts a text into tokens; `none` when some part of it is no token.  Every
step takes at least one byte, so a fuel above the length of the text is
enough. -/
def lexAux : Nat → Bytes → Option (List Tok)
  | 0, _ => none
  | _ + 1, [] => some []
  | n + 1, c :: rest =>
    match lexOne c rest with
    | none => none
    | some (none, rest1) => lexAux n rest1
    | some (some t, rest1) => consTok t (lexAux n rest1)

/-- The tokens of a JSON text. -/
def lexTokens (s : Bytes) : Option (List Tok) := lexAux (s.length + 1) s

/-- A JSON value.  A number keeps its value when its literal is an integer
literal. -/
inductive JVal where
  | null
  | bool (b : Bool)
  | num (v : Option Int)
  | str (s : Bytes)
  | arr (xs : List JVal)
  | obj (kvs : List (Bytes × JVal))

/-- What is being read: a value, the elements of an array after `[`, or the
members of an object after the opening brace. -/
inductive ParseMode where
  | value | elems | members
deriving DecidableEq

/-- What was read. -/
inductive Parsed where
  | value (v : JVal)
  | elems (vs : List JVal)
  | members (kvs : List (Bytes × JVal))

/-- Recursive descent over the tokens: what was read and the tokens left. -/
def parseAux : Nat → ParseMode → List Tok → Option (Parsed × List Tok)
  | 0, _, _ => none
  | n + 1, ParseMode.value, toks =>
    match toks with
    | Tok.str s :: r => some (Parsed.value (JVal.str s), r)
    | Tok.num v :: r => some (Parsed.value (JVal.num v), r)
    | Tok.litTrue :: r => some (Parsed.value (JVal.bool true), r)
    | Tok.litFalse :: r => some (Parsed.value (JVal.bool false), r)
    | Tok.litNull :: r => some (Parsed.value JVal.null, r)
    | Tok.lbrack :: Tok.rbrack :: r => some (Parsed.value (JVal.arr []), r)
    | Tok.lbrack :: r =>
      match parseAux n ParseMode.elems r with
      | some (Parsed.elems vs, r1) => some (Parsed.value (JVal.arr vs), r1)
      | _ => none
    | Tok.lbrace :: Tok.rbrace :: r => some (Parsed.value (JVal.obj []), r)
    | Tok.lbrace :: r =>
      match parseAux n ParseMode.members r with
      | some (Parsed.members kvs, r1) => some (Parsed.value (JVal.obj kvs), r1)
      | _ => none
    | _ => none
  | n + 1, ParseMode.elems, toks =>
    match parseAux n ParseMode.value toks with
    | some (Parsed.value v, Tok.comma :: r) =>
      match parseAux n ParseMode.elems r with
      | some (Parsed.elems vs, r1) => some (Parsed.elems (v :: vs), r1)
      | _ => none
    | some (Parsed.value v, Tok.rbrack :: r) => some (Parsed.elems [v], r)
    | _ => none
  | n + 1, ParseMode.members, toks =>
    match toks with
    | Tok.str k :: Tok.colon :: r =>
      match parseAux n ParseMode.value r with
      | some (Parsed.value v, Tok.comma :: r1) =>
        match parseAux n ParseMode.members r1 with
        | some (Parsed.members kvs, r2) => some (Parsed.members ((k, v) :: kvs), r2)
        | _ => none
      | some (Parsed.value v, Tok.rbrace :: r1) => some (Parsed.members [(k, v)], r1)
      | _ => none
    | _ => none

/-- The JSON value written by a list of tokens, when they write exactly one.
A call of `parseAux` hands on at least one token for every two units of
fuel. -/
def parseValue (toks : List Tok) : Option JVal :=
  match parseAux (2 * toks.length + 2) ParseMode.value toks with
  | some (Parsed.value v, []) => some v
  | _ => none

/-- An ASCII letter in upper case. -/
def toUpper (c : UInt8) : UInt8 :=
  if 97 ≤ c.toNat ∧ c.toNat ≤ 122 then (c.toNat - 32).toUInt8 else c

/-- The match of a member name with a field name, which ignores the case of
letters (an exact match is one such match, and no member name matches both
`Location` and `Max`). -/
def foldEq (a b : Bytes) : Bool := a.map toUpper = b.map toUpper

/-- Stores a JSON value into an `int` field.  An integer literal is stored;
`null` leaves the field as it is, and so does a value of another kind (a
type error that `Unmarshal` records and goes past). -/
def decodeInt (old : Int) : JVal → Int
  | JVal.num (some n) => n
  | _ => old

/-- Stores one member of a JSON object into a `HashIndexValue`. -/
def decodeField (hiv : HashIndexValue) (m : Bytes × JVal) : HashIndexValue :=
  if foldEq m.1 nameLocation then { hiv with Location := decodeInt hiv.Location m.2 }
  else if foldEq m.1 nameMax then { hiv with Max := decodeInt hiv.Max m.2 }
  else hiv

/-- Stores a JSON value into a zero `HashIndexValue`: an object fills the
fields, anything else leaves the zero value. -/
def decodeValue : JVal → HashIndexValue
  | JVal.obj kvs => kvs.foldl decodeField ⟨0, 0⟩
  | _ => ⟨0, 0⟩

/-- Stores a JSON value into an empty `HashTable`: an object gives one entry
per member, a later member with the same name replacing an earlier one;
`null` sets the map to nil; anything else is a type error that leaves the
map empty. -/
def decodeTable : JVal → HashTable
  | JVal.obj kvs =>
    HashTable.map (kvs.foldl (fun t m => Entries.set t m.1 (decodeValue m.2)) [])
  | JVal.null => HashTable.nil
  | _ => HashTable.map []

/-- The call `json.Unmarshal(data, &indexes)` on an empty map `indexes`, as
`getIndexes` makes it: the map afterwards.  On a text that is not JSON
`Unmarshal` returns an error and stores nothing; `getIndexes` drops the
error. -/
def jsonUnmarshal (data : Bytes) : HashTable :=
  match lexTokens data with
  | none => HashTable.map []
  | some toks =>
    match parseValue toks with
    | none => HashTable.map []
    | some v => decodeTable v

/-! ## The store: `db.go` -/

/-- How a call fails to return: `log.Fatalf` ends the process, a run-time
panic unwinds it. -/
inductive Fault where
  | fatal
  | panic
deriving DecidableEq, Repr

/-- Equality of results is decidable. -/
instance instDecidableEqExcept {ε α : Type} [DecidableEq ε] [DecidableEq α] :
    DecidableEq (Except ε α)
  | Except.ok a, Except.ok b =>
    if h : a = b then isTrue (by rw [h]) else isFalse (fun h1 => h (Except.ok.inj h1))
  | Except.error a, Except.error b =>
    if h : a = b then isTrue (by rw [h]) else isFalse (fun h1 => h (Except.error.inj h1))
  | Except.ok _, Except.error _ => isFalse (fun h => Except.noConfusion h)
  | Except.error _, Except.ok _ => isFalse (fun h => Except.noConfusion h)

/-- The struct `DB` of `db.go`, with each file handle standing for the content
of its file. -/
structure DB where
  f : Bytes
  indexf : Bytes
  byteSize : Int
deriving DecidableEq, Repr

/-- What the environment does with one `f.Write`: all the bytes are written
and the error is `nil`, or the error is not `nil` after the first `n` bytes
got into the file. -/
inductive AppendOutcome where
  | written
  | failed (n : Nat)
deriving DecidableEq, Repr

/-- The function `NewDB`, given the result of `f.Stat()`: the size of the
file, or `none` for an error. -/
def NewDBOf (size : Option Nat) (f indexf : Bytes) : Except Fault DB :=
  match size with
  | none => Except.error Fault.fatal
  | some n => Except.ok { f := f, indexf := indexf, byteSize := (n : Int) }

/-- The function `NewDB` on two open files: `Stat` gives the size of the log. -/
def NewDB (f indexf : Bytes) : Except Fault DB := NewDBOf (some f.length) f indexf

/-- The method `getIndexes`, given the result of `ioutil.ReadFile`: the
content, or `none` for an error.  The error of `json.Unmarshal` is dropped. -/
def getIndexesOf (data : Option Bytes) : Except Fault HashTable :=
  match data with
  | none => Except.error Fault.fatal
  | some d => Except.ok (jsonUnmarshal d)

/-- The method `getIndexes`: the index file of a `DB` is read whole. -/
def DB.getIndexes (hf : DB) : Except Fault HashTable := getIndexesOf (some hf.indexf)

/-- The method `index`: the entry of `key` becomes the range of `endOff` bytes
from the cached length, and the whole map is written back.  The assignment
panics on a nil map.  `json.Marshal` has no error on a `HashTable`; the
result of `os.WriteFile` is not looked at. -/
def DB.index (hf : DB) (key : Bytes) (endOff : Int) : Except Fault DB :=
  match hf.getIndexes with
  | Except.error e => Except.error e
  | Except.ok indexes =>
    let hiv : HashIndexValue := { Location := hf.byteSize, Max := hf.byteSize + endOff }
    match indexes.assign key hiv with
    | none => Except.error Fault.panic
    | some indexes1 =>
      let fbyte := jsonMarshal indexes1
      Except.ok { hf with indexf := fbyte }

/-- The call `f.Write(b)` on the log: the log afterwards, the count of bytes
written, and whether the error is not `nil`. -/
def fileWrite (f b : Bytes) : AppendOutcome → Bytes × Nat × Bool
  | AppendOutcome.written => (f ++ b, b.length, false)
  | AppendOutcome.failed n => (f ++ b.take n, min n b.length, true)

/-- The method `Write`. -/
def DB.Write (hf : DB) (out : AppendOutcome) (key value : Bytes) : Except Fault (Bool × DB) :=
  let formattedStr := key ++ [delim] ++ value
  match fileWrite hf.f formattedStr out with
  | (f1, nb, err) =>
    if err then Except.ok (false, { hf with f := f1 })
    else
      match DB.index { hf with f := f1 } key (nb : Int) with
      | Except.error e => Except.error e
      | Except.ok hf1 => Except.ok (true, { hf1 with byteSize := hf1.byteSize + (nb : Int) })

/-- The call `f.ReadAt(data, off)` on a fresh buffer of `size` zero bytes:
the buffer afterwards.  The bytes the file has from `off` are copied, the
others stay zero; a negative offset is an error that copies nothing. -/
def readAt (f : Bytes) (size : Nat) (off : Int) : Bytes :=
  if off < 0 then List.replicate size 0
  else
    let got := (f.drop off.toNat).take size
    got ++ List.replicate (size - got.length) 0

/-- The function `strings.Split` with a separator of one byte. -/
def split (sep : UInt8) : Bytes → List Bytes
  | [] => [[]]
  | c :: rest =>
    if c = sep then [] :: split sep rest
    else
      match split sep rest with
      | [] => [[c]]
      | s :: ss => (c :: s) :: ss

/-- The greatest size of a buffer that `make` allocates: `maxAlloc` of the Go
runtime, `1 << 48` where addresses have 48 bits, as on 64-bit Linux. -/
def maxAlloc : Nat := 281474976710656

/-- The method `Read`.  `make` panics on a negative size and on a size above
`maxAlloc` (`runtime.makeslice`), and the index `len(splitdata)-1` panics on
an empty slice. -/
def DB.Read (hf : DB) (key : Bytes) : Except Fault (Bytes × DB) :=
  match hf.getIndexes with
  | Except.error e => Except.error e
  | Except.ok indexes =>
    let hiv := indexes.get key
    let size := hiv.Max - hiv.Location
    if size < 0 ∨ (maxAlloc : Int) < size then Except.error Fault.panic
    else
      let data := readAt hf.f size.toNat hiv.Location
      let splitdata := split delim data
      match splitdata.getLast? with
      | none => Except.error Fault.panic
      | some s => Except.ok (s, hf)

/-- The method `FlushDB`: both files are cut to length zero. -/
def DB.FlushDB (hf : DB) : DB := { hf with f := [], indexf := [] }

/-- A Go `error` that is not `nil`, by its message. -/
structure GoError where
  msg : String
deriving DecidableEq, Repr

/-- One of the two files of a `DB`. -/
inductive Handle where
  | indexf
  | f
deriving DecidableEq, Repr

/-- The method `Close`, given what `hf.indexf.Close()` returns and what
`hf.f.Close()` returns (`none` is `nil`): the error that `Close` returns, and
the files on which `Close` was called, in the order of the calls. -/
def DB.Close (_hf : DB) (indexErr fErr : Option GoError) : Option GoError × List Handle :=
  match indexErr with
  | some err => (some err, [Handle.indexf])
  | none => (fErr, [Handle.indexf, Handle.f])

/-! ## The store with Go's `int` of 64 bits

The functions above take the integers of `db.go` without bound.  The functions
of this section are the same functions of `db.go` with `int` as it is on a
64-bit platform: a sum or a difference wraps around, `json.Unmarshal` stores
no integer outside the range, and `make` needs memory from the runtime. -/

/-- The value of an integer expression in Go's `int` of 64 bits: the result
wraps around (two's complement). -/
def wrapInt (n : Int) : Int :=
  (n + 9223372036854775808) % 18446744073709551616 - 9223372036854775808

/-- Stores a JSON value into an `int` field of 64 bits.  An integer literal in
the range of `int` is stored; a literal outside the range is a type error
that `Unmarshal` records and goes past, leaving the field as it is, like
`null` and a value of another kind. -/
def decodeInt64 (old : Int) : JVal → Int
  | JVal.num (some n) =>
    if -9223372036854775808 ≤ n ∧ n ≤ 9223372036854775807 then n else old
  | _ => old

/-- Stores one member of a JSON object into a `HashIndexValue`. -/
def decodeField64 (hiv : HashIndexValue) (m : Bytes × JVal) : HashIndexValue :=
  if foldEq m.1 nameLocation then { hiv with Location := decodeInt64 hiv.Location m.2 }
  else if foldEq m.1 nameMax then { hiv with Max := decodeInt64 hiv.Max m.2 }
  else hiv

/-- Stores a JSON value into a zero `HashIndexValue`. -/
def decodeValue64 : JVal → HashIndexValue
  | JVal.obj kvs => kvs.foldl decodeField64 ⟨0, 0⟩
  | _ => ⟨0, 0⟩

/-- Stores a JSON value into an empty `HashTable`. -/
def decodeTable64 : JVal → HashTable
  | JVal.obj kvs =>
    HashTable.map (kvs.foldl (fun t m => Entries.set t m.1 (decodeValue64 m.2)) [])
  | JVal.null => HashTable.nil
  | _ => HashTable.map []

/-- The call `json.Unmarshal(data, &indexes)` on an empty map `indexes`, with
fields of 64 bits. -/
def jsonUnmarshal64 (data : Bytes) : HashTable :=
  match lexTokens data with
  | none => HashTable.map []
  | some toks =>
    match parseValue toks with
    | none => HashTable.map []
    | some v => decodeTable64 v

/-- The method `getIndexes`, given the result of `ioutil.ReadFile`. -/
def getIndexesOf64 (data : Option Bytes) : Except Fault HashTable :=
  match data with
  | none => Except.error Fault.fatal
  | some d => Except.ok (jsonUnmarshal64 d)

/-- The method `getIndexes`. -/
def DB.getIndexes64 (hf : DB) : Except Fault HashTable := getIndexesOf64 (some hf.indexf)

/-- The method `index`: the sum `hf.byteSize + end` is a sum of `int`. -/
def DB.index64 (hf : DB) (key : Bytes) (endOff : Int) : Except Fault DB :=
  match hf.getIndexes64 with
  | Except.error e => Except.error e
  | Except.ok indexes =>
    let hiv : HashIndexValue :=
      { Location := hf.byteSize, Max := wrapInt (hf.byteSize + endOff) }
    match indexes.assign key hiv with
    | none => Except.error Fault.panic
    | some indexes1 =>
      let fbyte := jsonMarshal indexes1
      Except.ok { hf with indexf := fbyte }

/-- The method `Write`: the sum `hf.byteSize + nb` is a sum of `int`. -/
def DB.Write64 (hf : DB) (out : AppendOutcome) (key value : Bytes) :
    Except Fault (Bool × DB) :=
  let formattedStr := key ++ [delim] ++ value
  match fileWrite hf.f formattedStr out with
  | (f1, nb, err) =>
    if err then Except.ok (false, { hf with f := f1 })
    else
      match DB.index64 { hf with f := f1 } key (nb : Int) with
      | Except.error e => Except.error e
      | Except.ok hf1 =>
        Except.ok (true, { hf1 with byteSize := wrapInt (hf1.byteSize + (nb : Int)) })

/-- What the runtime does with the allocations of one call of `Read` (the
buffer of `make`, its copy as a string, the slice of `strings.Split`): it has
the memory for them, or it ends the process (`fatal error: out of memory`). -/
inductive AllocOutcome where
  | granted
  | outOfMemory
deriving DecidableEq, Repr

/-- The method `Read`: the difference `hiv.Max - hiv.Location` is a difference
of `int`.  `make` panics on a negative size and on a size above `maxAlloc`
before it asks for memory; the process ends when the runtime has not got the
memory. -/
def DB.Read64 (hf : DB) (alloc : AllocOutcome) (key : Bytes) : Except Fault (Bytes × DB) :=
  match hf.getIndexes64 with
  | Except.error e => Except.error e
  | Except.ok indexes =>
    let hiv := indexes.get key
    let size := wrapInt (hiv.Max - hiv.Location)
    if size < 0 ∨ (maxAlloc : Int) < size then Except.error Fault.panic
    else
      match alloc with
      | AllocOutcome.outOfMemory => Except.error Fault.fatal
      | AllocOutcome.granted =>
        let data := readAt hf.f size.toNat hiv.Location
        let splitdata := split delim data
        match splitdata.getLast? with
        | none => Except.error Fault.panic
        | some s => Except.ok (s, hf)

/-! ## Notions of the specification -/

/-- The encoded record of a key and a value: `key + ":" + value`. -/
def record (key value : Bytes) : Bytes := key ++ [delim] ++ value

/-- The empty store: empty log, empty index file, cached length 0. -/
def emptyDB : DB := { f := [], indexf := [], byteSize := 0 }

/-- A sequence of writes whose appends all succeed, from a given store. -/
def writeAll : DB → List (Bytes × Bytes) → Except Fault DB
  | hf, [] => Except.ok hf
  | hf, (k, v) :: rest =>
    match hf.Write AppendOutcome.written k v with
    | Except.error e => Except.error e
    | Except.ok (_, hf1) => writeAll hf1 rest

/-- The value of the last write to a key in a sequence of writes. -/
def lastValue (key : Bytes) : List (Bytes × Bytes) → Option Bytes
  | [] => none
  | (k, v) :: rest =>
    match lastValue key rest with
    | some w => some w
    | none => if k = key then some v else none

/-- The total length of the records of a sequence of writes. -/
def recordsLength : List (Bytes × Bytes) → Nat
  | [] => 0
  | (k, v) :: rest => k.length + 1 + v.length + recordsLength rest

/-- The bytes of a log in the half-open range from `lo` to `hi`. -/
def slice (f : Bytes) (lo hi : Int) : Bytes := (f.drop lo.toNat).take (hi.toNat - lo.toNat)

/-- The records of a sequence of writes, one after the other with nothing
between them. -/
def recordsOf : List (Bytes × Bytes) → Bytes
  | [] => []
  | (k, v) :: rest => record k v ++ recordsOf rest

/-- The JSON value that a text writes, when it writes one. -/
def jsonOf (data : Bytes) : Option JVal :=
  match lexTokens data with
  | none => none
  | some toks => parseValue toks

/-- The property names of a JSON object, in the order of the text. -/
def JVal.names : JVal → List Bytes
  | JVal.obj kvs => kvs.map Prod.fst
  | _ => []

/-- The text of one entry of the index file, as the specification gives it:
the key as a JSON string, a colon, and an object with the two integer fields
`Location` and `Max` in that order, with no white space. -/
def formatEntry (x : Bytes × HashIndexValue) : Bytes :=
  quote x.1 ++ bytesOf ":\x7b\"Location\":" ++ itoa x.2.Location ++ bytesOf ",\"Max\":" ++
    itoa x.2.Max ++ bytesOf "\x7d"

/-- The text of the index file, as the specification gives it: one JSON object
with the entries in the order of the keys, separated by commas, with no white
space. -/
def formatIndex (t : Entries) : Bytes :=
  bytesOf "\x7b" ++ List.intercalate (bytesOf ",") (t.map formatEntry) ++ bytesOf "\x7d"

/-- The entry that a write of `(key, value)` records on a store with the
cached length `b`: the range of the length of the record from `b`. -/
def entryAt (b : Int) (key value : Bytes) : HashIndexValue :=
  { Location := b, Max := b + ((key.length + 1 + value.length : Nat) : Int) }

/-- A value of Go's `int` where it has 64 bits. -/
def inInt64 (n : Int) : Prop := -9223372036854775808 ≤ n ∧ n ≤ 9223372036854775807

/-- One call on a store. -/
inductive Op where
  | write (out : AppendOutcome) (key value : Bytes)
  | read (key : Bytes)
  | flush
deriving DecidableEq, Repr

/-- Runs one call: the store afterwards. -/
def step (hf : DB) : Op → Except Fault DB
  | Op.write out k v =>
    match hf.Write out k v with
    | Except.error e => Except.error e
    | Except.ok (_, hf1) => Except.ok hf1
  | Op.read k =>
    match hf.Read k with
    | Except.error e => Except.error e
    | Except.ok (_, hf1) => Except.ok hf1
  | Op.flush => Except.ok hf.FlushDB

/-- Runs a sequence of calls: the store at the end. -/
def run : DB → List Op → Except Fault DB
  | hf, [] => Except.ok hf
  | hf, op :: rest =>
    match step hf op with
    | Except.error e => Except.error e
    | Except.ok hf1 => run hf1 rest

/-- A call that is no `FlushDB` and no `Write` whose failed append left bytes
in the log. -/
def Op.plain : Op → Bool
  | Op.write AppendOutcome.written _ _ => true
  | Op.write (AppendOutcome.failed n) _ _ => n == 0
  | Op.read _ => true
  | Op.flush => false

/-- The state of a store after the writes `ws` from the empty store: the
cached length is the length of the log, which is the total length of the
records, the index file loads as a map, and every entry of it is the range of
the record last written for its key. -/
def Inv (ws : List (Bytes × Bytes)) (hf : DB) : Prop :=
  hf.byteSize = (hf.f.length : Int) ∧
  hf.f.length = recordsLength ws ∧
  ∃ t, jsonUnmarshal hf.indexf = HashTable.map t ∧
    ∀ k e, t.find? k = some e →
      ∃ pre v post, lastValue k ws = some v ∧ hf.f = pre ++ record k v ++ post ∧
        e.Location = (pre.length : Int) ∧
        e.Max = (pre.length : Int) + ((record k v).length : Int)

/-- The state of a store after writes under any keys from the empty store:
the cached length is the length of the log, which is the total length of the
records, the index file loads as a map, and the range of every entry of it
lies in the log. -/
def Within (ws : List (Bytes × Bytes)) (hf : DB) : Prop :=
  hf.byteSize = (hf.f.length : Int) ∧
  hf.f.length = recordsLength ws ∧
  ∃ t, jsonUnmarshal hf.indexf = HashTable.map t ∧
    ∀ x ∈ t, 0 ≤ x.2.Location ∧ x.2.Location ≤ x.2.Max ∧ x.2.Max ≤ (hf.f.length : Int)

/-- A sequence of writes whose appends all succeed, from a given store, with
`int` of 64 bits. -/
def writeAll64 : DB → List (Bytes × Bytes) → Except Fault DB
  | hf, [] => Except.ok hf
  | hf, (k, v) :: rest =>
    match hf.Write64 AppendOutcome.written k v with
    | Except.error e => Except.error e
    | Except.ok (_, hf1) => writeAll64 hf1 rest

/-! ## The stores of `db_test.go` -/

/-- The key `"name"` of `TestWriteAndRead`. -/
def testKey : Bytes := bytesOf "name"

/-- The value `"phirmware"` of `TestWriteAndRead`. -/
def testValue : Bytes := bytesOf "phirmware"

/-- The store of `TestWriteAndRead` after `Write("name", "phirmware")`. -/
def storeAfterName : DB :=
  { f := bytesOf "name:phirmware",
    indexf := bytesOf "\x7b\"name\":\x7b\"Location\":0,\"Max\":14\x7d\x7d",
    byteSize := 14 }

/-- The store of `TestWriteAndRead` after `Write("new-key", "value")` too. -/
def storeAfterNewKey : DB :=
  { f := bytesOf "name:phirmwarenew-key:value",
    indexf := bytesOf
      "\x7b\"name\":\x7b\"Location\":0,\"Max\":14\x7d,\"new-key\":\x7b\"Location\":14,\"Max\":27\x7d\x7d",
    byteSize := 27 }

/-- The store of the first row of `TestIndex`. -/
def storeUsername : DB :=
  { f := bytesOf "username:phirmware",
    indexf := bytesOf "\x7b\"username\":\x7b\"Location\":0,\"Max\":18\x7d\x7d",
    byteSize := 18 }

/-- The store of the first row of `TestGetIndexes`: an empty log, and an index
file with white space in it. -/
def storeUnixTemp : DB :=
  { f := [],
    indexf := bytesOf "\x7b\"/unix/temp\": \x7b \"Location\": 45, \"Max\": 67 \x7d\x7d",
    byteSize := 0 }

/-- A store after one write and a `FlushDB`: both files are empty and the
cached length is 3. -/
def storeFlushed : DB := { f := [], indexf := [], byteSize := 3 }

/-! ## Notions used in the proofs about `encoding/json` -/

/-- A string with every byte that is not part of a UTF-8 sequence replaced by
U+FFFD (`EF BF BD`), leaving out the check for the first `n` bytes: what
`json.Marshal` and `json.Unmarshal` make of a string. -/
def coerceAux : Nat → Bytes → Bytes
  | _, [] => []
  | n + 1, b :: rest => b :: coerceAux n rest
  | 0, b :: rest =>
    if b.toNat < 0x80 then b :: coerceAux 0 rest
    else
      match runeLen (b :: rest) with
      | 0 => [0xEF, 0xBF, 0xBD] ++ coerceAux 0 rest
      | n + 1 => b :: coerceAux n rest

/-- A string coerced to valid UTF-8. -/
def coerceUTF8 (s : Bytes) : Bytes := coerceAux 0 s

/-- The entries with their keys coerced to valid UTF-8. -/
def coerceKeys (t : Entries) : Entries := t.map (fun e => (coerceUTF8 e.1, e.2))

/-- Every key of the entries is valid UTF-8. -/
def Entries.ValidKeys (t : Entries) : Prop := ∀ e ∈ t, validUTF8 e.1 = true

/-- The bytes `c` after the first byte `b` make a UTF-8 sequence with it. -/
def IsSeq (b : UInt8) (c : Bytes) : Prop :=
  ∃ b1 cs, c = b1 :: cs ∧ runeSize b = cs.length + 2 ∧
    acceptLo b ≤ b1.toNat ∧ b1.toNat ≤ acceptHi b ∧ cs.all isCont = true

/-- The keys of the members that were read, for an object or its members. -/
def Parsed.topKeys : Parsed → List Bytes
  | Parsed.value (JVal.obj kvs) => kvs.map Prod.fst
  | Parsed.members kvs => kvs.map Prod.fst
  | _ => []

/-- The string of a token, when it is a string token, is valid UTF-8. -/
def tokValid : Tok → Bool
  | Tok.str s => validUTF8 s
  | _ => true

/-- The bytes that follow a number in the text `json.Marshal` writes: a comma
or a closing brace. -/
def isSep (c : UInt8) : Prop := c = 0x2C ∨ c = 0x7D

/-- The tokens of the JSON text of one `HashIndexValue`. -/
def valueToks (v : HashIndexValue) : List Tok :=
  [Tok.lbrace, Tok.str nameLocation, Tok.colon, Tok.num (some v.Location), Tok.comma,
    Tok.str nameMax, Tok.colon, Tok.num (some v.Max), Tok.rbrace]

/-- The tokens of the members of the JSON text of a table. -/
def entriesToks : Entries → List Tok
  | [] => []
  | (k, v) :: rest =>
    match rest with
    | [] => Tok.str k :: Tok.colon :: valueToks v
    | _ :: _ => Tok.str k :: Tok.colon :: valueToks v ++ Tok.comma :: entriesToks rest

/-- Puts tokens in front of a result. -/
def consToks (ts : List Tok) : Option (List Tok) → Option (List Tok)
  | none => none
  | some r => some (ts ++ r)

/-- The JSON value of one `HashIndexValue`. -/
def valueJson (v : HashIndexValue) : JVal :=
  JVal.obj [(nameLocation, JVal.num (some v.Location)), (nameMax, JVal.num (some v.Max))]

/-- The store after a `Write` of `(k, v)` that returns `true`, on a store whose
index file loads as the map with entries `t`. -/
def stateAfterWrite (hf : DB) (t : Entries) (k v : Bytes) : DB :=
  { f := hf.f ++ record k v,
    indexf := marshalObject (t.set k
      { Location := hf.byteSize, Max := hf.byteSize + ((record k v).length : Int) }),
    byteSize := hf.byteSize + ((record k v).length : Int) }

/-- Every field of the entries is a value of `int` of 64 bits. -/
def Entries.InRange (t : Entries) : Prop :=
  ∀ e ∈ t, inInt64 e.2.Location ∧ inInt64 e.2.Max

/-- The store after a `Write64` of `(k, v)` that returns `true`, on a store
whose index file loads as the map with entries `t`. -/
def stateAfterWrite64 (hf : DB) (t : Entries) (k v : Bytes) : DB :=
  { f := hf.f ++ record k v,
    indexf := marshalObject (t.set k
      { Location := hf.byteSize,
        Max := wrapInt (hf.byteSize + ((record k v).length : Int)) }),
    byteSize := wrapInt (hf.byteSize + ((record k v).length : Int)) }

/-- A value as the decoder with `int` of 64 bits stores it, next to the value
as the decoder without bound stores it: a field that is within the range of
`int` in the second is the same in the first. -/
def Agree (a a64 : HashIndexValue) : Prop :=
  (inInt64 a.Location → a64.Location = a.Location) ∧ (inInt64 a.Max → a64.Max = a.Max)

/-- Entries with the same keys and values that agree. -/
def Entries.Agree (t t64 : Entries) : Prop :=
  List.Forall₂ (fun x y => x.1 = y.1 ∧ keydb.Agree x.2 y.2) t t64

/-! ## Lemmas: UTF-8 -/

theorem runeSize_high (b : UInt8) (h : runeSize b ≠ 0) : 0xC2 ≤ b.toNat := by
  unfold runeSize at h
  split_ifs at h <;> omega

theorem runeSize_ne_one (b : UInt8) : runeSize b ≠ 1 := by
  unfold runeSize
  split_ifs <;> omega

theorem runeLen_cons_cons (p0 b1 : UInt8) (rest : Bytes) :
    runeLen (p0 :: b1 :: rest) =
      if runeSize p0 = 0 then 0
      else if rest.length + 2 < runeSize p0 then 0
      else if b1.toNat < acceptLo p0 ∨ acceptHi p0 < b1.toNat then 0
      else if (rest.take (runeSize p0 - 2)).all isCont then runeSize p0
      else 0 := rfl

theorem IsSeq_high (b : UInt8) (c : Bytes) (h : IsSeq b c) : 0xC2 ≤ b.toNat := by
  obtain ⟨b1, cs, _, hsz, _⟩ := h
  exact runeSize_high b (by omega)

theorem runeLen_split (b : UInt8) (rest : Bytes) (n : Nat) (h : runeLen (b :: rest) = n + 1) :
    ∃ c r, rest = c ++ r ∧ c.length = n ∧ IsSeq b c := by
  cases rest with
  | nil => cases h
  | cons b1 rest1 =>
    rw [runeLen_cons_cons] at h
    split_ifs at h with h1 h2 h3 h4
    have h5 := runeSize_ne_one b
    have hlen : (rest1.take (runeSize b - 2)).length = runeSize b - 2 :=
      List.length_take_of_le (by omega)
    refine ⟨b1 :: rest1.take (runeSize b - 2), rest1.drop (runeSize b - 2), ?_, ?_, ?_⟩
    · simp
    · rw [List.length_cons, hlen]
      omega
    · refine ⟨b1, rest1.take (runeSize b - 2), rfl, ?_, ?_, ?_, h4⟩
      · rw [hlen]
        omega
      · omega
      · omega

theorem runeLen_seq (b : UInt8) (c t : Bytes) (h : IsSeq b c) :
    runeLen (b :: (c ++ t)) = c.length + 1 := by
  obtain ⟨b1, cs, rfl, hsz, hlo, hhi, hall⟩ := h
  show runeLen (b :: b1 :: (cs ++ t)) = _
  rw [runeLen_cons_cons, if_neg (by omega), if_neg (by simp only [List.length_append]; omega),
    if_neg (by omega)]
  have ht : (cs ++ t).take (runeSize b - 2) = cs := by
    rw [hsz]
    simp
  rw [ht, if_pos hall, hsz]
  simp

/-! ## Lemmas: string literals -/

theorem toUInt8_toNat (b : UInt8) : b.toNat.toUInt8 = b :=
  UInt8.ext (UInt8.toNat_ofNat_of_lt b.toNat_lt)

theorem toNat_toUInt8 (n : Nat) (h : n < 256) : n.toUInt8.toNat = n :=
  UInt8.toNat_ofNat_of_lt h

set_option maxRecDepth 100000 in
theorem hex4_byte : ∀ n, n < 256 →
    hex4 0x30 0x30 (hexDigit (n / 16)) (hexDigit (n % 16)) = some n := by
  decide

theorem quoteAux_nil (keep : Bool) (n : Nat) : quoteAux keep n [] = [] := by
  cases n <;> rfl

theorem quoteAux_succ_cons (keep : Bool) (n : Nat) (b : UInt8) (rest : Bytes) :
    quoteAux keep (n + 1) (b :: rest) =
      if keep then b :: quoteAux keep n rest else quoteAux keep n rest := rfl

theorem quoteAux_zero_cons (keep : Bool) (b : UInt8) (rest : Bytes) :
    quoteAux keep 0 (b :: rest) =
      if b.toNat < 0x80 then quoteByte b ++ quoteAux true 0 rest
      else
        match runeLen (b :: rest) with
        | 0 => [0x5C, 0x75, 0x66, 0x66, 0x66, 0x64] ++ quoteAux true 0 rest
        | n + 1 =>
          match lineSepDigit b rest with
          | some d => [0x5C, 0x75, 0x32, 0x30, 0x32, d] ++ quoteAux false n rest
          | none => b :: quoteAux true n rest := rfl

theorem quoteAux_flag (keep : Bool) (s : Bytes) : quoteAux keep 0 s = quoteAux true 0 s := by
  cases s <;> rfl

theorem quoteAux_keep (c k : Bytes) :
    quoteAux true c.length (c ++ k) = c ++ quoteAux true 0 k := by
  induction c with
  | nil => rfl
  | cons x c ih =>
    show quoteAux true (c.length + 1) (x :: (c ++ k)) = _
    rw [quoteAux_succ_cons, if_pos rfl, ih]
    rfl

theorem quoteAux_drop (c k : Bytes) :
    quoteAux false c.length (c ++ k) = quoteAux true 0 k := by
  induction c with
  | nil => exact quoteAux_flag false k
  | cons x c ih =>
    show quoteAux false (c.length + 1) (x :: (c ++ k)) = _
    rw [quoteAux_succ_cons, if_neg (by simp), ih]

theorem lexStringAux_cons (c : UInt8) (rest : Bytes) :
    lexStringAux 0 (c :: rest) =
      if c = 0x22 then some ([], rest)
      else
        match strItem c rest with
        | none => none
        | some (out, n) => prepend out (lexStringAux n rest) := by
  rw [lexStringAux]

theorem lexStringAux_skip (n : Nat) (c : UInt8) (rest : Bytes) :
    lexStringAux (n + 1) (c :: rest) = lexStringAux n rest := by
  rw [lexStringAux]

theorem lexStringAux_skipN (c x : Bytes) :
    lexStringAux c.length (c ++ x) = lexStringAux 0 x := by
  induction c with
  | nil => rfl
  | cons y c ih =>
    show lexStringAux (c.length + 1) (y :: (c ++ x)) = _
    rw [lexStringAux_skip, ih]

theorem strItem_high (c : UInt8) (rest : Bytes) (h : 0x80 ≤ c.toNat) :
    strItem c rest =
      match runeLen (c :: rest) with
      | 0 => some ([0xEF, 0xBF, 0xBD], 0)
      | n + 1 => some (c :: rest.take n, n) := by
  have h1 : c ≠ 0x5C := by
    rintro rfl
    revert h
    decide
  unfold strItem
  rw [if_neg h1, if_neg (by omega), if_neg (by omega)]

theorem lex_seq (b : UInt8) (c x : Bytes) (h : IsSeq b c) :
    lexStringAux 0 (b :: (c ++ x)) = prepend (b :: c) (lexStringAux 0 x) := by
  have hb := IsSeq_high b c h
  have h1 : b ≠ 0x22 := by
    rintro rfl
    revert hb
    decide
  rw [lexStringAux_cons, if_neg h1, strItem_high b _ (by omega), runeLen_seq b c x h]
  simp only [List.take_left']
  rw [lexStringAux_skipN]

theorem lex_quoteByte (b : UInt8) (hb : b.toNat < 0x80) (tail : Bytes) :
    lexStringAux 0 (quoteByte b ++ tail) = prepend [b] (lexStringAux 0 tail) := by
  unfold quoteByte
  split
  · rename_i h
    rcases h with h | h <;> subst h <;>
      simp [lexStringAux_cons, strItem, unescape, lexStringAux_skip]
  split
  · rename_i h; subst h; simp [lexStringAux_cons, strItem, unescape, lexStringAux_skip]
  split
  · rename_i h; subst h; simp [lexStringAux_cons, strItem, unescape, lexStringAux_skip]
  split
  · rename_i h; subst h; simp [lexStringAux_cons, strItem, unescape, lexStringAux_skip]
  split
  · rename_i h; subst h; simp [lexStringAux_cons, strItem, unescape, lexStringAux_skip]
  split
  · rename_i h; subst h; simp [lexStringAux_cons, strItem, unescape, lexStringAux_skip]
  split
  · rename_i h
    have h256 : b.toNat < 256 := by omega
    have hs : ¬ (55296 ≤ b.toNat ∧ b.toNat < 57344) := by omega
    simp [lexStringAux_cons, strItem, lexStringAux_skip, hex4_byte _ h256, encodeRune, hb,
      toUInt8_toNat, hs]
  · rename_i h1 h2 h3 h4 h5 h6 h7
    simp only [not_or] at h1 h7
    simp [lexStringAux_cons, strItem, h1.1, h1.2, h7.1, hb]

theorem lex_lineSep8 (tail : Bytes) :
    lexStringAux 0 ([0x5C, 0x75, 0x32, 0x30, 0x32, 0x38] ++ tail) =
      prepend [0xE2, 0x80, 0xA8] (lexStringAux 0 tail) := by
  have h8 : hex4 0x32 0x30 0x32 0x38 = some 0x2028 := by decide
  have r8 : encodeRune 0x2028 = [0xE2, 0x80, 0xA8] := by decide
  simp only [List.cons_append, List.nil_append, lexStringAux_cons, strItem, h8]
  simp [r8, lexStringAux_skip]

theorem lex_lineSep9 (tail : Bytes) :
    lexStringAux 0 ([0x5C, 0x75, 0x32, 0x30, 0x32, 0x39] ++ tail) =
      prepend [0xE2, 0x80, 0xA9] (lexStringAux 0 tail) := by
  have h9 : hex4 0x32 0x30 0x32 0x39 = some 0x2029 := by decide
  have r9 : encodeRune 0x2029 = [0xE2, 0x80, 0xA9] := by decide
  simp only [List.cons_append, List.nil_append, lexStringAux_cons, strItem, h9]
  simp [r9, lexStringAux_skip]

theorem lineSepDigit_some (b d : UInt8) (rest : Bytes) (h : lineSepDigit b rest = some d) :
    ∃ x r, b = 0xE2 ∧ rest = 0x80 :: x :: r ∧
      ((x = 0xA8 ∧ d = 0x38) ∨ (x = 0xA9 ∧ d = 0x39)) := by
  unfold lineSepDigit at h
  split at h
  · rename_i c x r
    split_ifs at h with h1 h2
    · obtain ⟨hb, hc, hx⟩ := h1
      injection h with h
      exact ⟨x, r, hb, by rw [hc], Or.inl ⟨hx, h.symm⟩⟩
    · obtain ⟨hb, hc, hx⟩ := h2
      injection h with h
      exact ⟨x, r, hb, by rw [hc], Or.inr ⟨hx, h.symm⟩⟩
  · cases h

theorem validUTF8Aux_zero_cons (b : UInt8) (rest : Bytes) :
    validUTF8Aux 0 (b :: rest) =
      if b.toNat < 0x80 then validUTF8Aux 0 rest
      else
        match runeLen (b :: rest) with
        | 0 => false
        | n + 1 => validUTF8Aux n rest := rfl

theorem validUTF8Aux_skipN (c x : Bytes) :
    validUTF8Aux c.length (c ++ x) = validUTF8Aux 0 x := by
  induction c with
  | nil => cases x <;> rfl
  | cons y c ih =>
    show validUTF8Aux (c.length + 1) (y :: (c ++ x)) = _
    rw [← ih]
    rfl

theorem lex_replacement (tail : Bytes) :
    lexStringAux 0 ([0x5C, 0x75, 0x66, 0x66, 0x66, 0x64] ++ tail) =
      prepend [0xEF, 0xBF, 0xBD] (lexStringAux 0 tail) := by
  have h : hex4 0x66 0x66 0x66 0x64 = some 0xFFFD := by decide
  have r : encodeRune 0xFFFD = [0xEF, 0xBF, 0xBD] := by decide
  simp only [List.cons_append, List.nil_append, lexStringAux_cons, strItem, h]
  simp [r, lexStringAux_skip]

theorem coerceAux_nil (n : Nat) : coerceAux n [] = [] := by
  cases n <;> rfl

theorem coerceAux_zero_cons (b : UInt8) (rest : Bytes) :
    coerceAux 0 (b :: rest) =
      if b.toNat < 0x80 then b :: coerceAux 0 rest
      else
        match runeLen (b :: rest) with
        | 0 => [0xEF, 0xBF, 0xBD] ++ coerceAux 0 rest
        | n + 1 => b :: coerceAux n rest := rfl

theorem coerceAux_copy (c x : Bytes) : coerceAux c.length (c ++ x) = c ++ coerceAux 0 x := by
  induction c with
  | nil => rfl
  | cons y c ih =>
    show coerceAux (c.length + 1) (y :: (c ++ x)) = _
    rw [List.cons_append, ← ih]
    rfl

/-- Reading the literal that `json.Marshal` writes for a string gives the
string with every byte that is not valid UTF-8 replaced by U+FFFD. -/
theorem lex_quoteAux (n : Nat) :
    ∀ (k tail : Bytes), k.length ≤ n →
      lexStringAux 0 (quoteAux true 0 k ++ 0x22 :: tail) = some (coerceAux 0 k, tail) := by
  induction n with
  | zero =>
    intro k tail hn
    cases k with
    | nil => rw [quoteAux_nil, List.nil_append, lexStringAux_cons, if_pos rfl, coerceAux_nil]
    | cons b rest => simp at hn
  | succ n ih =>
    intro k tail hn
    cases k with
    | nil => rw [quoteAux_nil, List.nil_append, lexStringAux_cons, if_pos rfl, coerceAux_nil]
    | cons b rest =>
      rw [quoteAux_zero_cons, coerceAux_zero_cons]
      simp only [List.length_cons] at hn
      by_cases hb : b.toNat < 0x80
      · rw [if_pos hb, if_pos hb]
        rw [List.append_assoc, lex_quoteByte b hb, ih rest tail (by omega)]
        rfl
      · rw [if_neg hb, if_neg hb]
        cases hr : runeLen (b :: rest) with
        | zero =>
          show lexStringAux 0 (([0x5C, 0x75, 0x66, 0x66, 0x66, 0x64] ++ quoteAux true 0 rest) ++
            0x22 :: tail) = _
          rw [List.append_assoc, lex_replacement, ih rest tail (by omega)]
          rfl
        | succ m =>
          obtain ⟨c, r, hrest, hc, hseq⟩ := runeLen_split b rest m hr
          subst hrest
          subst hc
          have hlen : r.length ≤ n := by
            simp only [List.length_append] at hn
            omega
          have ihr := ih r tail hlen
          show lexStringAux 0 ((match lineSepDigit b (c ++ r) with
            | some d => [0x5C, 0x75, 0x32, 0x30, 0x32, d] ++ quoteAux false c.length (c ++ r)
            | none => b :: quoteAux true c.length (c ++ r)) ++ 0x22 :: tail) =
            some (b :: coerceAux c.length (c ++ r), tail)
          rw [coerceAux_copy]
          cases hd : lineSepDigit b (c ++ r) with
          | none =>
            show lexStringAux 0 ((b :: quoteAux true c.length (c ++ r)) ++ 0x22 :: tail) = _
            rw [quoteAux_keep, List.cons_append, List.append_assoc, lex_seq b c _ hseq, ihr]
            rfl
          | some d =>
            show lexStringAux 0 (([0x5C, 0x75, 0x32, 0x30, 0x32, d] ++
              quoteAux false c.length (c ++ r)) ++ 0x22 :: tail) = _
            rw [quoteAux_drop, List.append_assoc]
            obtain ⟨x, r0, hbe, hcr, hx⟩ := lineSepDigit_some b d (c ++ r) hd
            obtain ⟨b1, cs, hc1, hsz, -⟩ := hseq
            subst hbe
            have h3 : runeSize 0xE2 = 3 := by decide
            rw [h3] at hsz
            have hcs : ∃ y, cs = [y] := by
              match cs, hsz with
              | [y], _ => exact ⟨y, rfl⟩
            obtain ⟨y, hy⟩ := hcs
            subst hy
            subst hc1
            simp only [List.cons_append, List.nil_append] at hcr
            injection hcr with hb1 hcr
            injection hcr with hy hr0
            subst hb1 hy
            rcases hx with ⟨hx, hd8⟩ | ⟨hx, hd9⟩
            · subst hx hd8
              rw [lex_lineSep8, ihr]
              rfl
            · subst hx hd9
              rw [lex_lineSep9, ihr]
              rfl

theorem coerceAux_valid (n : Nat) :
    ∀ (k : Bytes), k.length ≤ n → validUTF8Aux 0 k = true → coerceAux 0 k = k := by
  induction n with
  | zero =>
    intro k hn _
    cases k with
    | nil => rfl
    | cons b rest => simp at hn
  | succ n ih =>
    intro k hn hv
    cases k with
    | nil => rfl
    | cons b rest =>
      rw [validUTF8Aux_zero_cons] at hv
      rw [coerceAux_zero_cons]
      simp only [List.length_cons] at hn
      by_cases hb : b.toNat < 0x80
      · rw [if_pos hb] at hv ⊢
        rw [ih rest (by omega) hv]
      · rw [if_neg hb] at hv ⊢
        cases hr : runeLen (b :: rest) with
        | zero =>
          rw [hr] at hv
          cases hv
        | succ m =>
          rw [hr] at hv
          obtain ⟨c, r, hrest, hc, hseq⟩ := runeLen_split b rest m hr
          subst hrest
          subst hc
          have hv1 : validUTF8Aux 0 r = true := by
            rw [← validUTF8Aux_skipN c r]
            exact hv
          have hlen : r.length ≤ n := by
            simp only [List.length_append] at hn
            omega
          show b :: coerceAux c.length (c ++ r) = _
          rw [coerceAux_copy, ih r hlen hv1]

theorem coerceUTF8_valid (k : Bytes) (h : validUTF8 k = true) : coerceUTF8 k = k :=
  coerceAux_valid k.length k (Nat.le_refl _) h

theorem lexString_quote (k tail : Bytes) :
    lexString (quoteBody k ++ 0x22 :: tail) = some (coerceUTF8 k, tail) :=
  lex_quoteAux k.length k tail (Nat.le_refl _)

/-! ## Lemmas: what the decoder reads is valid UTF-8 -/

theorem valid_ascii_cons (b : UInt8) (hb : b.toNat < 0x80) (x : Bytes) :
    validUTF8Aux 0 (b :: x) = validUTF8Aux 0 x := by
  rw [validUTF8Aux_zero_cons, if_pos hb]

theorem valid_seq (b : UInt8) (c x : Bytes) (h : IsSeq b c) :
    validUTF8Aux 0 (b :: (c ++ x)) = validUTF8Aux 0 x := by
  have hb := IsSeq_high b c h
  rw [validUTF8Aux_zero_cons, if_neg (by omega), runeLen_seq b c x h]
  exact validUTF8Aux_skipN c x

theorem runeSize_two (n : Nat) (h0 : 0xC2 ≤ n) (h1 : n ≤ 0xDF) : runeSize n.toUInt8 = 2 := by
  unfold runeSize
  rw [toNat_toUInt8 n (by omega), if_pos ⟨h0, h1⟩]

theorem runeSize_three (n : Nat) (h0 : 0xE0 ≤ n) (h1 : n ≤ 0xEF) : runeSize n.toUInt8 = 3 := by
  unfold runeSize
  rw [toNat_toUInt8 n (by omega), if_neg (by omega), if_pos ⟨h0, h1⟩]

theorem runeSize_four (n : Nat) (h0 : 0xF0 ≤ n) (h1 : n ≤ 0xF4) : runeSize n.toUInt8 = 4 := by
  unfold runeSize
  rw [toNat_toUInt8 n (by omega), if_neg (by omega), if_neg (by omega), if_pos ⟨h0, h1⟩]

theorem acceptLo_le (n m : Nat) (hn : n < 256) (hm : 0x80 ≤ m)
    (hE0 : n = 0xE0 → 0xA0 ≤ m) (hF0 : n = 0xF0 → 0x90 ≤ m) : acceptLo n.toUInt8 ≤ m := by
  unfold acceptLo
  rw [toNat_toUInt8 n hn]
  split_ifs with h1 h2
  · exact hE0 h1
  · exact hF0 h2
  · exact hm

theorem le_acceptHi (n m : Nat) (hn : n < 256) (hm : m ≤ 0xBF)
    (hED : n = 0xED → m ≤ 0x9F) (hF4 : n = 0xF4 → m ≤ 0x8F) : m ≤ acceptHi n.toUInt8 := by
  unfold acceptHi
  rw [toNat_toUInt8 n hn]
  split_ifs with h1 h2
  · exact hED h1
  · exact hF4 h2
  · exact hm

theorem isCont_byte (n : Nat) (h0 : 0x80 ≤ n) (h1 : n ≤ 0xBF) : isCont n.toUInt8 = true := by
  unfold isCont
  rw [toNat_toUInt8 n (by omega)]
  simp only [Bool.and_eq_true, decide_eq_true_eq]
  exact ⟨h0, h1⟩

/-- What `utf8.EncodeRune` writes is valid UTF-8. -/
theorem valid_encodeRune (r : Nat) (x : Bytes) :
    validUTF8Aux 0 (encodeRune r ++ x) = validUTF8Aux 0 x := by
  unfold encodeRune
  split_ifs with h1 h2 h3 h4
  · exact valid_ascii_cons _ (by rw [toNat_toUInt8 r (by omega)]; exact h1) x
  · refine valid_seq _ [(0x80 + r % 64).toUInt8] x
      ⟨_, [], rfl, runeSize_two _ (by omega) (by omega), ?_, ?_, rfl⟩
    · rw [toNat_toUInt8 (0x80 + r % 64) (by omega)]
      exact acceptLo_le _ _ (by omega) (by omega) (by omega) (by omega)
    · rw [toNat_toUInt8 (0x80 + r % 64) (by omega)]
      exact le_acceptHi _ _ (by omega) (by omega) (by omega) (by omega)
  · exact valid_seq 0xEF [0xBF, 0xBD] x
      ⟨0xBF, [0xBD], rfl, by decide, by decide, by decide, by decide⟩
  · refine valid_seq _ [(0x80 + r / 64 % 64).toUInt8, (0x80 + r % 64).toUInt8] x
      ⟨_, [_], rfl, runeSize_three _ (by omega) (by omega), ?_, ?_, ?_⟩
    · rw [toNat_toUInt8 (0x80 + r / 64 % 64) (by omega)]
      exact acceptLo_le _ _ (by omega) (by omega) (by omega) (by omega)
    · rw [toNat_toUInt8 (0x80 + r / 64 % 64) (by omega)]
      exact le_acceptHi _ _ (by omega) (by omega) (by omega) (by omega)
    · simp only [List.all_cons, List.all_nil, Bool.and_true]
      exact isCont_byte _ (by omega) (by omega)
  · refine valid_seq _ [(0x80 + r / 4096 % 64).toUInt8, (0x80 + r / 64 % 64).toUInt8,
        (0x80 + r % 64).toUInt8] x
      ⟨_, [_, _], rfl, runeSize_four _ (by omega) (by omega), ?_, ?_, ?_⟩
    · rw [toNat_toUInt8 (0x80 + r / 4096 % 64) (by omega)]
      exact acceptLo_le _ _ (by omega) (by omega) (by omega) (by omega)
    · rw [toNat_toUInt8 (0x80 + r / 4096 % 64) (by omega)]
      exact le_acceptHi _ _ (by omega) (by omega) (by omega) (by omega)
    · simp only [List.all_cons, List.all_nil, Bool.and_true, Bool.and_eq_true]
      exact ⟨isCont_byte _ (by omega) (by omega), isCont_byte _ (by omega) (by omega)⟩

theorem valid_replacement (x : Bytes) :
    validUTF8Aux 0 ([0xEF, 0xBF, 0xBD] ++ x) = validUTF8Aux 0 x :=
  valid_seq 0xEF [0xBF, 0xBD] x ⟨0xBF, [0xBD], rfl, by decide, by decide, by decide, by decide⟩

theorem unescape_ascii (e b : UInt8) (h : unescape e = some b) : b.toNat < 0x80 := by
  unfold unescape at h
  split_ifs at h with h1 <;> injection h with h <;> subst h
  · rcases h1 with h1 | h1 | h1 <;> subst h1 <;> decide
  all_goals decide

/-- The bytes that one item of a string literal stands for are valid UTF-8 in
front of any text. -/
theorem strItem_valid (c : UInt8) (rest o : Bytes) (n : Nat)
    (h : strItem c rest = some (o, n)) (x : Bytes) :
    validUTF8Aux 0 (o ++ x) = validUTF8Aux 0 x := by
  have hid : ∀ (o1 : Bytes) (n1 : Nat), some (o1, n1) = some (o, n) → o1 = o := by
    intro o1 n1 e
    injection e with e
    injection e
  by_cases hc : c = 0x5C
  · unfold strItem at h
    rw [if_pos hc] at h
    cases rest with
    | nil => cases h
    | cons e rest1 =>
      simp only at h
      by_cases he : e = 0x75
      · rw [if_pos he] at h
        match rest1, h with
        | h1 :: h2 :: h3 :: h4 :: rest2, h =>
          simp only at h
          cases hx : hex4 h1 h2 h3 h4 with
          | none => rw [hx] at h; cases h
          | some r =>
            rw [hx] at h
            simp only at h
            by_cases hs : 0xD800 ≤ r ∧ r < 0xE000
            · rw [if_pos hs] at h
              cases hg : getu4 rest2 with
              | none =>
                rw [hg] at h
                rw [← hid _ _ h]
                exact valid_replacement x
              | some r1 =>
                rw [hg] at h
                simp only at h
                split_ifs at h
                · rw [← hid _ _ h]
                  exact valid_encodeRune _ x
                · rw [← hid _ _ h]
                  exact valid_replacement x
            · rw [if_neg hs] at h
              rw [← hid _ _ h]
              exact valid_encodeRune _ x
      · rw [if_neg he] at h
        cases hu : unescape e with
        | none => rw [hu] at h; cases h
        | some b =>
          rw [hu] at h
          rw [← hid _ _ h]
          exact valid_ascii_cons b (unescape_ascii e b hu) x
  · by_cases h20 : c.toNat < 0x20
    · unfold strItem at h
      rw [if_neg hc, if_pos h20] at h
      cases h
    · by_cases h80 : c.toNat < 0x80
      · unfold strItem at h
        rw [if_neg hc, if_neg h20, if_pos h80] at h
        rw [← hid _ _ h]
        exact valid_ascii_cons c h80 x
      · rw [strItem_high c rest (by omega)] at h
        cases hr : runeLen (c :: rest) with
        | zero =>
          rw [hr] at h
          rw [← hid _ _ h]
          exact valid_replacement x
        | succ m =>
          rw [hr] at h
          obtain ⟨cs, r, hrest, hlen, hseq⟩ := runeLen_split c rest m hr
          subst hrest
          subst hlen
          simp only [List.take_left'] at h
          rw [← hid _ _ h]
          exact valid_seq c cs x hseq

theorem prepend_eq_some (p : Bytes) (r : Option (Bytes × Bytes)) (out rest : Bytes)
    (h : prepend p r = some (out, rest)) : ∃ s, r = some (s, rest) ∧ out = p ++ s := by
  cases r with
  | none => cases h
  | some x =>
    obtain ⟨s, r1⟩ := x
    simp only [prepend] at h
    injection h with h
    injection h with h0 h
    exact ⟨s, by rw [h], h0.symm⟩

/-- The string that a string literal denotes is valid UTF-8. -/
theorem lexStringAux_valid (s : Bytes) :
    ∀ (skip : Nat) (out rest : Bytes), lexStringAux skip s = some (out, rest) →
      validUTF8 out = true := by
  induction s with
  | nil => intro skip out rest h; simp [lexStringAux] at h
  | cons c tl ih =>
    intro skip out rest h
    cases skip with
    | succ k =>
      rw [lexStringAux_skip] at h
      exact ih k out rest h
    | zero =>
      rw [lexStringAux_cons] at h
      split at h
      · injection h with h
        injection h with h _
        subst h
        rfl
      · split at h
        · cases h
        · rename_i o n hitem
          obtain ⟨s1, hs1, hout⟩ := prepend_eq_some _ _ _ _ h
          subst hout
          show validUTF8Aux 0 (o ++ s1) = true
          rw [strItem_valid c tl o n hitem s1]
          exact ih n s1 rest hs1

/-! ## Lemmas: numbers -/

theorem natDigitsAux_acc (fuel n : Nat) (acc : Bytes) :
    natDigitsAux fuel n acc = natDigitsAux fuel n [] ++ acc := by
  induction fuel generalizing n acc with
  | zero => simp [natDigitsAux]
  | succ f ih =>
    simp only [natDigitsAux]
    split
    · simp
    · rw [ih (n / 10) (_ :: acc), ih (n / 10) [_]]
      simp

theorem natDigitsAux_fuel (f g n : Nat) (acc : Bytes) (hf : n < f) (hg : n < g) :
    natDigitsAux f n acc = natDigitsAux g n acc := by
  induction f generalizing g n acc with
  | zero => omega
  | succ f ih =>
    cases g with
    | zero => omega
    | succ g =>
      simp only [natDigitsAux]
      split
      · rfl
      · apply ih <;> omega

theorem natDigits_lt (n : Nat) (h : n < 10) : natDigits n = [(48 + n).toUInt8] := by
  simp [natDigits, natDigitsAux, h]

theorem natDigits_ge (n : Nat) (h : 10 ≤ n) :
    natDigits n = natDigits (n / 10) ++ [(48 + n % 10).toUInt8] := by
  have h1 : ¬ n < 10 := by omega
  unfold natDigits
  rw [natDigitsAux, if_neg h1, natDigitsAux_acc]
  rw [natDigitsAux_fuel n (n / 10 + 1) (n / 10) [] (by omega) (by omega)]

theorem digit_toNat (d : Nat) (h : d < 10) : ((48 + d).toUInt8).toNat = 48 + d :=
  toNat_toUInt8 _ (by omega)

theorem isDigit_digit (d : Nat) (h : d < 10) : isDigit (48 + d).toUInt8 = true := by
  simp [isDigit, digit_toNat d h]
  omega

theorem natDigits_all (n : Nat) : ∀ c ∈ natDigits n, isDigit c = true := by
  induction n using Nat.strong_induction_on with
  | _ n ih =>
    by_cases h : n < 10
    · rw [natDigits_lt n h]
      simpa using isDigit_digit n h
    · rw [natDigits_ge n (by omega)]
      intro c hc
      rcases List.mem_append.mp hc with hc | hc
      · exact ih (n / 10) (by omega) c hc
      · simp at hc
        subst hc
        exact isDigit_digit _ (Nat.mod_lt _ (by omega))

theorem digitsValue_append (acc : Nat) (xs : Bytes) (d : UInt8) :
    digitsValue acc (xs ++ [d]) = digitsValue acc xs * 10 + (d.toNat - 48) := by
  induction xs generalizing acc with
  | nil => rfl
  | cons x xs ih => exact ih _

theorem digitsValue_natDigits (n : Nat) : digitsValue 0 (natDigits n) = n := by
  induction n using Nat.strong_induction_on with
  | _ n ih =>
    by_cases h : n < 10
    · rw [natDigits_lt n h]
      show 0 * 10 + ((48 + n).toUInt8.toNat - 48) = n
      rw [digit_toNat n h]
      omega
    · have h10 : n % 10 < 10 := Nat.mod_lt _ (by decide)
      rw [natDigits_ge n (by omega), digitsValue_append, ih (n / 10) (by omega),
        digit_toNat (n % 10) h10]
      omega

theorem natDigits_head (n : Nat) :
    ∃ d ds, natDigits n = d :: ds ∧ isDigit d = true ∧ (d = 0x30 → ds = []) := by
  induction n using Nat.strong_induction_on with
  | _ n ih =>
    by_cases h : n < 10
    · exact ⟨_, [], natDigits_lt n h, isDigit_digit n h, fun _ => rfl⟩
    · obtain ⟨d, ds, hd, hdig, hz⟩ := ih (n / 10) (by omega)
      refine ⟨d, ds ++ [(48 + n % 10).toUInt8], ?_, hdig, ?_⟩
      · rw [natDigits_ge n (by omega), hd]; rfl
      · intro h0
        exfalso
        have hds := hz h0
        subst h0 hds
        have hv := digitsValue_natDigits (n / 10)
        rw [hd] at hv
        have h00 : digitsValue 0 [0x30] = 0 := by decide
        omega

theorem spanDigits_append (ds rest : Bytes) (hds : ∀ c ∈ ds, isDigit c = true)
    (hrest : ∀ c r, rest = c :: r → isDigit c = false) :
    spanDigits (ds ++ rest) = (ds, rest) := by
  induction ds with
  | nil =>
    cases rest with
    | nil => rfl
    | cons c r => simp [spanDigits, hrest c r rfl]
  | cons d ds ih =>
    have hd : isDigit d = true := hds d (List.mem_cons_self _ _)
    have := ih (fun c hc => hds c (List.mem_cons_of_mem _ hc))
    simp [spanDigits, hd, this]

theorem lexUnsigned_natDigits (n : Nat) (c : UInt8) (rest : Bytes) (hc : isSep c) :
    lexUnsigned (natDigits n ++ c :: rest) = some (some n, c :: rest) := by
  have hnd : isDigit c = false := by rcases hc with h | h <;> subst h <;> decide
  have hspan := spanDigits_append (natDigits n) (c :: rest) (natDigits_all n)
    (fun c' r h => by cases h; exact hnd)
  obtain ⟨d, ds, hd, _, hz⟩ := natDigits_head n
  have hval := digitsValue_natDigits n
  unfold lexUnsigned
  rw [hspan, hd]
  rw [hd] at hval
  have h0 : ¬ (d = 0x30 ∧ ds ≠ []) := fun h => h.2 (hz h.1)
  have hf : lexFrac (c :: rest) = some (false, c :: rest) := by
    rcases hc with h | h <;> subst h <;> simp [lexFrac]
  have he : lexExp (c :: rest) = some (false, c :: rest) := by
    rcases hc with h | h <;> subst h <;> simp [lexExp]
  simp [h0, hf, he, hval]

theorem itoa_head (i : Int) : ∃ d ds, itoa i = d :: ds ∧ (d = 0x2D ∨ isDigit d = true) := by
  cases i with
  | ofNat n =>
    obtain ⟨d, ds, hd, hdig, _⟩ := natDigits_head n
    exact ⟨d, ds, hd, Or.inr hdig⟩
  | negSucc n => exact ⟨0x2D, _, rfl, Or.inl rfl⟩

theorem lexNumber_itoa (i : Int) (c : UInt8) (rest : Bytes) (hc : isSep c) :
    lexNumber (itoa i ++ c :: rest) = some (some i, c :: rest) := by
  cases i with
  | ofNat n =>
    obtain ⟨d, ds, hd, hdig, _⟩ := natDigits_head n
    have hne : d ≠ 0x2D := by
      intro h; subst h; revert hdig; decide
    have h := lexUnsigned_natDigits n c rest hc
    simp only [itoa]
    rw [hd] at h ⊢
    simp only [List.cons_append] at h ⊢
    simp [lexNumber, hne, h]
  | negSucc n =>
    have h := lexUnsigned_natDigits (n + 1) c rest hc
    simp only [itoa, List.cons_append]
    simp [lexNumber, h, Int.negSucc_eq]

theorem lexOne_number (d : UInt8) (rest : Bytes) (hd : d = 0x2D ∨ isDigit d = true) :
    lexOne d rest =
      match lexNumber (d :: rest) with
      | none => none
      | some (v, rest1) => some (some (Tok.num v), rest1) := by
  have hn : ∀ x : UInt8, (x = 0x2D ∨ isDigit x = true) →
      isSpace x = false ∧ x ≠ 0x7B ∧ x ≠ 0x7D ∧ x ≠ 0x5B ∧ x ≠ 0x5D ∧ x ≠ 0x3A ∧ x ≠ 0x2C ∧
        x ≠ 0x22 ∧ x ≠ 0x74 ∧ x ≠ 0x66 ∧ x ≠ 0x6E := by
    intro x hx
    rcases hx with hx | hx
    · subst hx; decide
    · simp only [isDigit, Bool.and_eq_true, decide_eq_true_eq] at hx
      refine ⟨?_, ?_, ?_, ?_, ?_, ?_, ?_, ?_, ?_, ?_, ?_⟩
      · simp only [isSpace, Bool.or_eq_false_iff, decide_eq_false_iff_not]
        refine ⟨⟨⟨?_, ?_⟩, ?_⟩, ?_⟩ <;> (intro h; subst h; revert hx; decide)
      all_goals (intro h; subst h; revert hx; decide)
  obtain ⟨h1, h2, h3, h4, h5, h6, h7, h8, h9, h10, h11⟩ := hn d hd
  simp [lexOne, h1, h2, h3, h4, h5, h6, h7, h8, h9, h10, h11]

/-! ## Lemmas: the tokens of a marshalled table -/

theorem lexAux_succ_cons (n : Nat) (c : UInt8) (rest : Bytes) :
    lexAux (n + 1) (c :: rest) =
      match lexOne c rest with
      | none => none
      | some (none, rest1) => lexAux n rest1
      | some (some t, rest1) => consTok t (lexAux n rest1) := by
  rw [lexAux]

theorem lexAux_lbrace (n : Nat) (rest : Bytes) :
    lexAux (n + 1) (0x7B :: rest) = consTok Tok.lbrace (lexAux n rest) := by
  simp [lexAux_succ_cons, lexOne, isSpace]

theorem lexAux_rbrace (n : Nat) (rest : Bytes) :
    lexAux (n + 1) (0x7D :: rest) = consTok Tok.rbrace (lexAux n rest) := by
  simp [lexAux_succ_cons, lexOne, isSpace]

theorem lexAux_colon (n : Nat) (rest : Bytes) :
    lexAux (n + 1) (0x3A :: rest) = consTok Tok.colon (lexAux n rest) := by
  simp [lexAux_succ_cons, lexOne, isSpace]

theorem lexAux_comma (n : Nat) (rest : Bytes) :
    lexAux (n + 1) (0x2C :: rest) = consTok Tok.comma (lexAux n rest) := by
  simp [lexAux_succ_cons, lexOne, isSpace]

theorem lexAux_quote (n : Nat) (k rest : Bytes) :
    lexAux (n + 1) (quote k ++ rest) = consTok (Tok.str (coerceUTF8 k)) (lexAux n rest) := by
  simp [quote, lexAux_succ_cons, lexOne, isSpace, lexString_quote]

theorem coerceUTF8_nameLocation : coerceUTF8 nameLocation = nameLocation := by decide

theorem coerceUTF8_nameMax : coerceUTF8 nameMax = nameMax := by decide

theorem lexAux_itoa (n : Nat) (i : Int) (c : UInt8) (rest : Bytes) (hc : isSep c) :
    lexAux (n + 1) (itoa i ++ c :: rest) = consTok (Tok.num (some i)) (lexAux n (c :: rest)) := by
  obtain ⟨d, ds, hd, hdig⟩ := itoa_head i
  have h := lexNumber_itoa i c rest hc
  rw [hd] at h ⊢
  simp only [List.cons_append] at h ⊢
  rw [lexAux_succ_cons, lexOne_number d _ hdig, h]

theorem consTok_consToks (t : Tok) (ts : List Tok) (r : Option (List Tok)) :
    consTok t (consToks ts r) = consToks (t :: ts) r := by
  cases r <;> rfl

theorem consTok_eq (t : Tok) (r : Option (List Tok)) : consTok t r = consToks [t] r := by
  cases r <;> rfl

theorem consToks_consToks (ts us : List Tok) (r : Option (List Tok)) :
    consToks ts (consToks us r) = consToks (ts ++ us) r := by
  cases r <;> simp [consToks]

theorem lexAux_value (n : Nat) (v : HashIndexValue) (rest : Bytes) :
    lexAux (n + 9) (marshalValue v ++ rest) = consToks (valueToks v) (lexAux n rest) := by
  simp only [marshalValue, List.append_assoc, List.cons_append, List.nil_append]
  rw [lexAux_lbrace, lexAux_quote, lexAux_colon, lexAux_itoa _ _ _ _ (Or.inl rfl), lexAux_comma,
    lexAux_quote, lexAux_colon, lexAux_itoa _ _ _ _ (Or.inr rfl), lexAux_rbrace,
    coerceUTF8_nameLocation, coerceUTF8_nameMax]
  cases lexAux n rest <;> rfl

theorem entriesToks_single (k : Bytes) (v : HashIndexValue) :
    entriesToks [(k, v)] = Tok.str k :: Tok.colon :: valueToks v := rfl

theorem entriesToks_cons (k : Bytes) (v : HashIndexValue) (e : Bytes × HashIndexValue)
    (t : Entries) :
    entriesToks ((k, v) :: e :: t) =
      Tok.str k :: Tok.colon :: valueToks v ++ Tok.comma :: entriesToks (e :: t) := rfl

theorem marshalEntries_single (k : Bytes) (v : HashIndexValue) :
    marshalEntries [(k, v)] = quote k ++ [0x3A] ++ marshalValue v := rfl

theorem marshalEntries_cons (k : Bytes) (v : HashIndexValue) (e : Bytes × HashIndexValue)
    (t : Entries) :
    marshalEntries ((k, v) :: e :: t) =
      quote k ++ [0x3A] ++ marshalValue v ++ [0x2C] ++ marshalEntries (e :: t) := rfl

theorem valueToks_length (v : HashIndexValue) : (valueToks v).length = 9 := rfl

theorem coerceKeys_cons (k : Bytes) (v : HashIndexValue) (t : Entries) :
    coerceKeys ((k, v) :: t) = (coerceUTF8 k, v) :: coerceKeys t := rfl

theorem entriesToks_length_coerce (t : Entries) :
    (entriesToks (coerceKeys t)).length = (entriesToks t).length := by
  induction t with
  | nil => rfl
  | cons e t ih =>
    obtain ⟨k, v⟩ := e
    cases t with
    | nil => rfl
    | cons e2 t2 =>
      obtain ⟨k2, v2⟩ := e2
      simp only [coerceKeys_cons] at ih ⊢
      rw [entriesToks_cons, entriesToks_cons]
      simp only [List.length_cons, List.length_append, valueToks_length]
      rw [ih]

theorem lexAux_entries (n : Nat) (t : Entries) (rest : Bytes) :
    lexAux (n + (entriesToks t).length) (marshalEntries t ++ rest) =
      consToks (entriesToks (coerceKeys t)) (lexAux n rest) := by
  induction t with
  | nil =>
    simp only [entriesToks, marshalEntries, List.length_nil, List.nil_append, Nat.add_zero,
      coerceKeys, List.map_nil]
    cases lexAux n rest <;> rfl
  | cons e t ih =>
    obtain ⟨k, v⟩ := e
    cases t with
    | nil =>
      rw [coerceKeys_cons]
      show lexAux (n + (entriesToks [(k, v)]).length) (marshalEntries [(k, v)] ++ rest) =
        consToks (entriesToks [(coerceUTF8 k, v)]) (lexAux n rest)
      rw [entriesToks_single, entriesToks_single, marshalEntries_single]
      simp only [List.append_assoc, List.cons_append, List.nil_append, List.length_cons,
        valueToks_length]
      rw [lexAux_quote, lexAux_colon, lexAux_value]
      cases lexAux n rest <;> rfl
    | cons e2 t2 =>
      obtain ⟨k2, v2⟩ := e2
      simp only [coerceKeys_cons] at ih ⊢
      rw [entriesToks_cons, entriesToks_cons, marshalEntries_cons]
      simp only [List.append_assoc, List.cons_append, List.nil_append, List.length_cons,
        List.length_append, valueToks_length]
      have hlen : n + (9 + ((entriesToks ((k2, v2) :: t2)).length + 1) + 1 + 1) =
          (n + (entriesToks ((k2, v2) :: t2)).length + 1 + 9) + 1 + 1 := by omega
      rw [hlen, lexAux_quote, lexAux_colon, lexAux_value, lexAux_comma, ih]
      cases lexAux n rest <;> simp [consToks, consTok]

theorem quote_length (k : Bytes) : (quote k).length = (quoteBody k).length + 2 := by
  simp [quote]

theorem marshalValue_length (v : HashIndexValue) : 9 ≤ (marshalValue v).length := by
  simp [marshalValue, quote_length]
  omega

theorem entriesToks_length_le (t : Entries) :
    (entriesToks t).length ≤ (marshalEntries t).length := by
  induction t with
  | nil => simp [entriesToks]
  | cons e t ih =>
    obtain ⟨k, v⟩ := e
    cases t with
    | nil =>
      rw [entriesToks_single, marshalEntries_single]
      have := marshalValue_length v
      simp [quote_length, valueToks_length]
      omega
    | cons e2 t2 =>
      rw [entriesToks_cons, marshalEntries_cons]
      have := marshalValue_length v
      simp [quote_length, valueToks_length] at ih ⊢
      omega

theorem lexTokens_marshalObject (t : Entries) :
    lexTokens (marshalObject t) =
      some (Tok.lbrace :: (entriesToks (coerceKeys t) ++ [Tok.rbrace])) := by
  have hle := entriesToks_length_le t
  obtain ⟨m, hm⟩ : ∃ m,
      (marshalObject t).length + 1 = (m + 1 + 1 + (entriesToks t).length) + 1 := by
    refine ⟨(marshalEntries t).length - (entriesToks t).length, ?_⟩
    simp [marshalObject]
    omega
  unfold lexTokens
  rw [hm]
  simp only [marshalObject, List.append_assoc, List.cons_append, List.nil_append]
  rw [lexAux_lbrace, lexAux_entries, lexAux_rbrace]
  cases m <;> simp [lexAux, consTok, consToks]

/-! ## Lemmas: reading the tokens of a marshalled table -/

theorem parseAux_value (n : Nat) (v : HashIndexValue) (rest : List Tok) :
    parseAux (n + 4) ParseMode.value (valueToks v ++ rest) =
      some (Parsed.value (valueJson v), rest) := by
  simp [valueToks, valueJson, parseAux]

theorem parseAux_members (n : Nat) (t : Entries) (e : Bytes × HashIndexValue)
    (rest : List Tok) :
    parseAux (n + 5 + t.length) ParseMode.members
        (entriesToks (e :: t) ++ Tok.rbrace :: rest) =
      some (Parsed.members ((e :: t).map (fun x => (x.1, valueJson x.2))), rest) := by
  induction t generalizing e with
  | nil =>
    obtain ⟨k, v⟩ := e
    rw [entriesToks_single]
    simp only [List.cons_append, List.length_nil, Nat.add_zero]
    rw [parseAux, parseAux_value]
    simp
  | cons e2 t ih =>
    obtain ⟨k, v⟩ := e
    rw [entriesToks_cons]
    simp only [List.cons_append, List.append_assoc, List.length_cons]
    rw [show n + 5 + (t.length + 1) = (n + 1 + t.length) + 4 + 1 by omega]
    rw [parseAux, parseAux_value]
    simp only
    rw [show n + 1 + t.length + 4 = n + 5 + t.length by omega, ih]
    simp

theorem entriesToks_length_ge (t : Entries) : t.length ≤ (entriesToks t).length := by
  induction t with
  | nil => simp
  | cons e t ih =>
    obtain ⟨k, v⟩ := e
    cases t with
    | nil => rw [entriesToks_single]; simp
    | cons e2 t2 =>
      rw [entriesToks_cons]
      simp at ih ⊢
      omega

theorem parseValue_tokens (t : Entries) :
    parseValue (Tok.lbrace :: (entriesToks t ++ [Tok.rbrace])) =
      some (JVal.obj (t.map (fun x => (x.1, valueJson x.2)))) := by
  cases t with
  | nil => simp [parseValue, entriesToks, parseAux]
  | cons e t =>
    have hge := entriesToks_length_ge (e :: t)
    obtain ⟨m, hm⟩ : ∃ m, 2 * (Tok.lbrace :: (entriesToks (e :: t) ++ [Tok.rbrace])).length + 2 =
        (m + 5 + t.length) + 1 := by
      refine ⟨2 * (entriesToks (e :: t)).length - t.length, ?_⟩
      simp at hge ⊢
      omega
    have hne : ∃ k r, entriesToks (e :: t) ++ [Tok.rbrace] = Tok.str k :: r := by
      obtain ⟨k, v⟩ := e
      cases t with
      | nil => exact ⟨k, _, rfl⟩
      | cons e2 t2 => exact ⟨k, _, rfl⟩
    unfold parseValue
    rw [hm]
    have hp := parseAux_members m t e []
    obtain ⟨k, r, hkr⟩ := hne
    rw [hkr] at hp ⊢
    simp [parseAux, hp]

/-! ## Lemmas: the order of keys and the table -/

theorem bytesLt_irrefl (a : Bytes) : bytesLt a a = false := by
  induction a with
  | nil => rfl
  | cons x xs ih => simp [bytesLt, ih]

theorem bytesLt_asymm (a b : Bytes) (h : bytesLt a b = true) : bytesLt b a = false := by
  induction a generalizing b with
  | nil => cases b <;> simp [bytesLt] at h ⊢
  | cons x xs ih =>
    cases b with
    | nil => simp [bytesLt] at h
    | cons y ys =>
      simp only [bytesLt] at h ⊢
      by_cases hxy : x.toNat < y.toNat
      · have h1 : ¬ y.toNat < x.toNat := by omega
        have h2 : y ≠ x := by intro e; subst e; omega
        simp [h1, h2]
      · simp only [hxy, if_false] at h
        by_cases he : x = y
        · subst he
          simp only [if_true] at h
          simp [ih _ h]
        · simp [he] at h

theorem bytesLt_trans (a b c : Bytes) (hab : bytesLt a b = true) (hbc : bytesLt b c = true) :
    bytesLt a c = true := by
  induction a generalizing b c with
  | nil =>
    cases b with
    | nil => simp [bytesLt] at hab
    | cons y ys =>
      cases c with
      | nil => simp [bytesLt] at hbc
      | cons z zs => rfl
  | cons x xs ih =>
    cases b with
    | nil => simp [bytesLt] at hab
    | cons y ys =>
      cases c with
      | nil => simp [bytesLt] at hbc
      | cons z zs =>
        simp only [bytesLt] at hab hbc ⊢
        by_cases hxy : x.toNat < y.toNat
        · by_cases hyz : y.toNat < z.toNat
          · have : x.toNat < z.toNat := by omega
            simp [this]
          · simp only [hyz, if_false] at hbc
            by_cases he : y = z
            · subst he; simp [hxy]
            · simp [he] at hbc
        · simp only [hxy, if_false] at hab
          by_cases he : x = y
          · subst he
            simp only [if_true] at hab
            by_cases hyz : x.toNat < z.toNat
            · simp [hyz]
            · simp only [hyz, if_false] at hbc ⊢
              by_cases he2 : x = z
              · subst he2
                simp only [if_true] at hbc ⊢
                exact ih _ _ hab hbc
              · simp [he2] at hbc
          · simp [he] at hab

theorem bytesLt_total (a b : Bytes) (hne : a ≠ b) (h : bytesLt a b = false) :
    bytesLt b a = true := by
  induction a generalizing b with
  | nil =>
    cases b with
    | nil => exact absurd rfl hne
    | cons y ys => simp [bytesLt] at h
  | cons x xs ih =>
    cases b with
    | nil => rfl
    | cons y ys =>
      simp only [bytesLt] at h ⊢
      by_cases hxy : x.toNat < y.toNat
      · simp [hxy] at h
      · simp only [hxy, if_false] at h
        by_cases he : x = y
        · subst he
          simp only [if_true] at h
          have hne2 : xs ≠ ys := fun e => hne (by rw [e])
          simp [ih _ hne2 h]
        · have h3 : x.toNat ≠ y.toNat := fun e => he (UInt8.ext e)
          have h4 : y.toNat < x.toNat := by omega
          simp [h4]

theorem find?_set_eq (t : Entries) (k : Bytes) (v : HashIndexValue) :
    (t.set k v).find? k = some v := by
  induction t with
  | nil => simp [Entries.set, Entries.find?]
  | cons e t ih =>
    obtain ⟨k1, v1⟩ := e
    simp only [Entries.set]
    split
    · simp [Entries.find?]
    · split
      · simp [Entries.find?]
      · rename_i h1 _
        simp [Entries.find?, h1, ih]

theorem find?_set_ne (t : Entries) (k k2 : Bytes) (v : HashIndexValue) (h : k2 ≠ k) :
    (t.set k v).find? k2 = t.find? k2 := by
  induction t with
  | nil => simp [Entries.set, Entries.find?, h]
  | cons e t ih =>
    obtain ⟨k1, v1⟩ := e
    simp only [Entries.set]
    split
    · rename_i h1
      subst h1
      simp [Entries.find?, h]
    · split
      · simp [Entries.find?, h]
      · simp [Entries.find?, ih]

theorem mem_set (t : Entries) (k : Bytes) (v : HashIndexValue) (e : Bytes × HashIndexValue)
    (he : e ∈ t.set k v) : e = (k, v) ∨ e ∈ t := by
  induction t with
  | nil => simp [Entries.set] at he; exact Or.inl he
  | cons e1 t ih =>
    obtain ⟨k1, v1⟩ := e1
    simp only [Entries.set] at he
    split at he
    · rcases List.mem_cons.mp he with h | h
      · exact Or.inl h
      · exact Or.inr (List.mem_cons_of_mem _ h)
    · split at he
      · rcases List.mem_cons.mp he with h | h
        · exact Or.inl h
        · exact Or.inr h
      · rcases List.mem_cons.mp he with h | h
        · exact Or.inr (h ▸ List.mem_cons_self _ _)
        · rcases ih h with h | h
          · exact Or.inl h
          · exact Or.inr (List.mem_cons_of_mem _ h)

theorem set_sorted (t : Entries) (k : Bytes) (v : HashIndexValue) (h : t.Sorted) :
    (t.set k v).Sorted := by
  induction t with
  | nil => simp [Entries.set, Entries.Sorted]
  | cons e t ih =>
    obtain ⟨k1, v1⟩ := e
    unfold Entries.Sorted at h ih ⊢
    rw [List.pairwise_cons] at h
    simp only [Entries.set]
    split
    · rename_i h1
      subst h1
      exact List.pairwise_cons.mpr ⟨h.1, h.2⟩
    · split
      · rename_i h1 h2
        refine List.pairwise_cons.mpr ⟨?_, List.pairwise_cons.mpr h⟩
        intro a ha
        rcases List.mem_cons.mp ha with ha | ha
        · subst ha; exact h2
        · exact bytesLt_trans _ _ _ h2 (h.1 a ha)
      · rename_i h1 h2
        refine List.pairwise_cons.mpr ⟨?_, ih h.2⟩
        intro a ha
        rcases mem_set t k v a ha with ha | ha
        · subst ha
          exact bytesLt_total _ _ h1 (by simpa using h2)
        · exact h.1 a ha

theorem set_append (acc : Entries) (k : Bytes) (v : HashIndexValue)
    (h : ∀ e ∈ acc, bytesLt e.1 k = true) : acc.set k v = acc ++ [(k, v)] := by
  induction acc with
  | nil => rfl
  | cons e acc ih =>
    obtain ⟨k1, v1⟩ := e
    have h1 : bytesLt k1 k = true := h (k1, v1) (List.mem_cons_self _ _)
    have h2 : k ≠ k1 := by
      intro e; subst e; rw [bytesLt_irrefl] at h1; cases h1
    have h3 : bytesLt k k1 = false := bytesLt_asymm _ _ h1
    simp [Entries.set, h2, h3, ih (fun e he => h e (List.mem_cons_of_mem _ he))]

theorem foldl_set_sorted (acc t : Entries) (h : Entries.Sorted (acc ++ t)) :
    t.foldl (fun a m => Entries.set a m.1 m.2) acc = acc ++ t := by
  induction t generalizing acc with
  | nil => simp
  | cons e t ih =>
    unfold Entries.Sorted at h ih
    have h1 : ∀ x ∈ acc, bytesLt x.1 e.1 = true := by
      intro x hx
      exact (List.pairwise_append.mp h).2.2 x hx e (List.mem_cons_self _ _)
    simp only [List.foldl_cons]
    rw [set_append acc e.1 e.2 h1, ih]
    · simp
    · simpa using h

theorem foldl_set_preserves (acc : Entries) (l : List (Bytes × JVal)) (h : acc.Sorted) :
    (l.foldl (fun t m => Entries.set t m.1 (decodeValue m.2)) acc).Sorted := by
  induction l generalizing acc with
  | nil => exact h
  | cons e l ih => exact ih _ (set_sorted acc _ _ h)

theorem decodeValue_valueJson (v : HashIndexValue) : decodeValue (valueJson v) = v := by
  have h1 : foldEq nameLocation nameLocation = true := by decide
  have h2 : foldEq nameMax nameLocation = false := by decide
  have h3 : foldEq nameMax nameMax = true := by decide
  simp [decodeValue, valueJson, decodeField, h1, h2, h3, decodeInt]

theorem decodeTable_sorted (x : JVal) (t : Entries) (h : decodeTable x = HashTable.map t) :
    t.Sorted := by
  cases x with
  | obj kvs =>
    simp only [decodeTable] at h
    injection h with h
    rw [← h]
    exact foldl_set_preserves [] kvs List.Pairwise.nil
  | null => cases h
  | _ =>
    simp only [decodeTable] at h
    injection h with h
    rw [← h]
    exact List.Pairwise.nil

theorem foldl_set_mem (l acc : Entries) (e : Bytes × HashIndexValue)
    (he : e ∈ l.foldl (fun a m => Entries.set a m.1 m.2) acc) : e ∈ acc ∨ e ∈ l := by
  induction l generalizing acc with
  | nil => exact Or.inl he
  | cons x l ih =>
    simp only [List.foldl_cons] at he
    rcases ih _ he with h | h
    · rcases mem_set acc x.1 x.2 e h with h | h
      · exact Or.inr (h ▸ List.mem_cons_self _ _)
      · exact Or.inl h
    · exact Or.inr (List.mem_cons_of_mem _ h)

theorem mem_of_find? (t : Entries) (k : Bytes) (e : HashIndexValue)
    (h : t.find? k = some e) : (k, e) ∈ t := by
  induction t with
  | nil => simp [Entries.find?] at h
  | cons x t ih =>
    obtain ⟨k1, v1⟩ := x
    simp only [Entries.find?] at h
    by_cases hk : k = k1
    · rw [if_pos hk] at h
      injection h with h
      subst hk h
      exact List.mem_cons_self _ _
    · rw [if_neg hk] at h
      exact List.mem_cons_of_mem _ (ih h)

theorem coerceKeys_valid (t : Entries) (h : t.ValidKeys) : coerceKeys t = t := by
  induction t with
  | nil => rfl
  | cons e t ih =>
    obtain ⟨k, v⟩ := e
    rw [coerceKeys_cons, coerceUTF8_valid k (h (k, v) (List.mem_cons_self _ _)),
      ih (fun x hx => h x (List.mem_cons_of_mem _ hx))]

theorem set_validKeys (t : Entries) (k : Bytes) (v : HashIndexValue) (h : t.ValidKeys)
    (hk : validUTF8 k = true) : (t.set k v).ValidKeys := by
  intro e he
  rcases mem_set t k v e he with h1 | h1
  · rw [h1]
    exact hk
  · exact h e h1

/-- Loading what was saved gives the map of the entries with their keys
coerced to valid UTF-8, stored in the order of the text. -/
theorem jsonUnmarshal_marshalObject_coerce (t : Entries) :
    jsonUnmarshal (marshalObject t) =
      HashTable.map ((coerceKeys t).foldl (fun a m => Entries.set a m.1 m.2) []) := by
  unfold jsonUnmarshal
  rw [lexTokens_marshalObject]
  simp only [parseValue_tokens, decodeTable]
  rw [List.foldl_map]
  simp only [decodeValue_valueJson]

/-- Loading what was saved gives the map back, when its keys are valid
UTF-8. -/
theorem jsonUnmarshal_marshalObject (t : Entries) (h : t.Sorted) (hv : t.ValidKeys) :
    jsonUnmarshal (marshalObject t) = HashTable.map t := by
  rw [jsonUnmarshal_marshalObject_coerce, coerceKeys_valid t hv]
  congr 1
  simpa using foldl_set_sorted [] t (by simpa using h)

/-- Every entry that is loaded from what was saved has the value of an entry
that was saved. -/
theorem jsonUnmarshal_marshalObject_mem (t t1 : Entries) (k : Bytes) (e : HashIndexValue)
    (h : jsonUnmarshal (marshalObject t) = HashTable.map t1) (he : t1.find? k = some e) :
    ∃ k0, (k0, e) ∈ t := by
  rw [jsonUnmarshal_marshalObject_coerce] at h
  injection h with h
  subst h
  rcases foldl_set_mem _ _ _ (mem_of_find? _ k e he) with h1 | h1
  · cases h1
  · unfold coerceKeys at h1
    obtain ⟨x, hx, hxe⟩ := List.mem_map.mp h1
    injection hxe with _ hv
    exact ⟨x.1, by rw [← hv]; exact hx⟩

/-- The nil map is saved as `null`, which loads as the nil map. -/
theorem jsonUnmarshal_null : jsonUnmarshal (jsonMarshal HashTable.nil) = HashTable.nil := by
  decide

/-- What is loaded has ascending keys, whatever the file holds. -/
theorem jsonUnmarshal_sorted (data : Bytes) (t : Entries)
    (h : jsonUnmarshal data = HashTable.map t) : t.Sorted := by
  unfold jsonUnmarshal at h
  split at h
  · injection h with h
    rw [← h]
    exact List.Pairwise.nil
  · split at h
    · injection h with h
      rw [← h]
      exact List.Pairwise.nil
    · exact decodeTable_sorted _ t h

/-! ## Lemmas: the fuel of the decoder is enough -/

theorem lexStringAux_length (s : Bytes) :
    ∀ (skip : Nat) (out rest : Bytes), lexStringAux skip s = some (out, rest) →
      rest.length < s.length := by
  induction s with
  | nil => intro skip out rest h; simp [lexStringAux] at h
  | cons c tl ih =>
    intro skip out rest h
    cases skip with
    | succ k =>
      rw [lexStringAux_skip] at h
      have := ih k out rest h
      simp only [List.length_cons]
      omega
    | zero =>
      rw [lexStringAux_cons] at h
      split at h
      · injection h with h
        injection h with _ h
        subst h
        simp
      · split at h
        · cases h
        · rename_i o n _
          obtain ⟨s1, hs1, _⟩ := prepend_eq_some _ _ _ _ h
          have := ih n s1 rest hs1
          simp only [List.length_cons]
          omega

theorem spanDigits_eq (s : Bytes) : (spanDigits s).1 ++ (spanDigits s).2 = s := by
  induction s with
  | nil => rfl
  | cons c tl ih =>
    simp only [spanDigits]
    split
    · simp [ih]
    · rfl

theorem spanDigits_length (s ds rest : Bytes) (h : spanDigits s = (ds, rest)) :
    ds.length + rest.length = s.length := by
  have := spanDigits_eq s
  rw [h] at this
  rw [← this]
  simp

theorem lexFrac_length (s rest : Bytes) (b : Bool) (h : lexFrac s = some (b, rest)) :
    rest.length ≤ s.length := by
  cases s with
  | nil =>
    simp only [lexFrac] at h
    injection h with h
    injection h with _ h
    subst h
    simp
  | cons c tl =>
    simp only [lexFrac] at h
    split at h
    · split at h
      · cases h
      · rename_i d ds r1 hsp
        injection h with h
        injection h with _ h
        subst h
        have := spanDigits_length _ _ _ hsp
        simp only [List.length_cons] at this ⊢
        omega
    · injection h with h
      injection h with _ h
      subst h
      simp

theorem lexExp_length (s rest : Bytes) (b : Bool) (h : lexExp s = some (b, rest)) :
    rest.length ≤ s.length := by
  cases s with
  | nil =>
    simp only [lexExp] at h
    injection h with h
    injection h with _ h
    subst h
    simp
  | cons c tl =>
    simp only [lexExp] at h
    split at h
    · split at h
      · cases h
      · rename_i sg r1
        split at h
        · cases h
        · rename_i d ds r2 hsp
          injection h with h
          injection h with _ h
          subst h
          have := spanDigits_length _ _ _ hsp
          split at this
          · simp only [List.length_cons] at this ⊢
            omega
          · simp only [List.length_cons] at this ⊢
            omega
    · injection h with h
      injection h with _ h
      subst h
      simp

theorem lexUnsigned_length (s rest : Bytes) (v : Option Nat)
    (h : lexUnsigned s = some (v, rest)) : rest.length < s.length := by
  unfold lexUnsigned at h
  split at h
  · cases h
  · rename_i d ds r0 hsp
    split at h
    · cases h
    · split at h
      · cases h
      · rename_i hasFrac r1 hfr
        split at h
        · cases h
        · rename_i hasExp r2 hex
          injection h with h
          injection h with _ h
          subst h
          have h1 := spanDigits_length _ _ _ hsp
          have h2 := lexFrac_length _ _ _ hfr
          have h3 := lexExp_length _ _ _ hex
          simp only [List.length_cons] at h1
          omega

theorem lexNumber_length (c : UInt8) (tl rest : Bytes) (v : Option Int)
    (h : lexNumber (c :: tl) = some (v, rest)) : rest.length ≤ tl.length := by
  simp only [lexNumber] at h
  split at h
  · split at h
    · cases h
    · rename_i w r1 hu
      injection h with h
      injection h with _ h
      subst h
      have := lexUnsigned_length _ _ _ hu
      omega
  · split at h
    · cases h
    · rename_i w r1 hu
      injection h with h
      injection h with _ h
      subst h
      have := lexUnsigned_length _ _ _ hu
      simp only [List.length_cons] at this
      omega

theorem lexOne_length (c : UInt8) (tl rest : Bytes) (t : Option Tok)
    (h : lexOne c tl = some (t, rest)) : rest.length ≤ tl.length := by
  have hid : ∀ (x : Option Tok) (r : Bytes), some (x, r) = some (t, rest) →
      rest.length ≤ r.length := by
    intro x r e
    injection e with e
    injection e with _ e
    subst e
    exact Nat.le_refl _
  delta lexOne at h
  by_cases c1 : isSpace c = true
  · rw [if_pos c1] at h; exact hid _ _ h
  rw [if_neg c1] at h
  by_cases c2 : c = 0x7B
  · rw [if_pos c2] at h; exact hid _ _ h
  rw [if_neg c2] at h
  by_cases c3 : c = 0x7D
  · rw [if_pos c3] at h; exact hid _ _ h
  rw [if_neg c3] at h
  by_cases c4 : c = 0x5B
  · rw [if_pos c4] at h; exact hid _ _ h
  rw [if_neg c4] at h
  by_cases c5 : c = 0x5D
  · rw [if_pos c5] at h; exact hid _ _ h
  rw [if_neg c5] at h
  by_cases c6 : c = 0x3A
  · rw [if_pos c6] at h; exact hid _ _ h
  rw [if_neg c6] at h
  by_cases c7 : c = 0x2C
  · rw [if_pos c7] at h; exact hid _ _ h
  rw [if_neg c7] at h
  by_cases c8 : c = 0x22
  · rw [if_pos c8] at h
    cases hs : lexString tl with
    | none => rw [hs] at h; cases h
    | some x =>
      obtain ⟨s, r1⟩ := x
      rw [hs] at h
      have h1 := lexStringAux_length tl 0 s r1 hs
      have h2 := hid _ _ h
      omega
  rw [if_neg c8] at h
  by_cases c9 : c = 0x74
  · rw [if_pos c9] at h
    split at h <;> first
      | (split at h <;> first
          | (have hle := hid _ _ h; simp only [List.length_cons]; omega)
          | cases h)
      | cases h
  rw [if_neg c9] at h
  by_cases c10 : c = 0x66
  · rw [if_pos c10] at h
    split at h <;> first
      | (split at h <;> first
          | (have hle := hid _ _ h; simp only [List.length_cons]; omega)
          | cases h)
      | cases h
  rw [if_neg c10] at h
  by_cases c11 : c = 0x6E
  · rw [if_pos c11] at h
    split at h <;> first
      | (split at h <;> first
          | (have hle := hid _ _ h; simp only [List.length_cons]; omega)
          | cases h)
      | cases h
  rw [if_neg c11] at h
  cases hn : lexNumber (c :: tl) with
  | none => rw [hn] at h; cases h
  | some x =>
    obtain ⟨v, r1⟩ := x
    rw [hn] at h
    have h1 := lexNumber_length c tl r1 v hn
    have h2 := hid _ _ h
    omega

/-- A result of the lexer with some fuel is its result with more than the
length of the text as fuel. -/
theorem lexAux_enough (n : Nat) :
    ∀ (m : Nat) (s : Bytes) (ts : List Tok), s.length < m → lexAux n s = some ts →
      lexAux m s = some ts := by
  induction n with
  | zero => intro m s ts _ h; simp [lexAux] at h
  | succ n ih =>
    intro m s ts hm h
    cases m with
    | zero => omega
    | succ m =>
      cases s with
      | nil =>
        simp only [lexAux] at h ⊢
        exact h
      | cons c tl =>
        rw [lexAux_succ_cons] at h ⊢
        simp only [List.length_cons] at hm
        split at h
        · cases h
        · rename_i r1 h1
          have hl := lexOne_length c tl r1 none h1
          exact ih m r1 ts (by omega) h
        · rename_i t r1 h1
          have hl := lexOne_length c tl r1 (some t) h1
          cases h2 : lexAux n r1 with
          | none => rw [h2] at h; cases h
          | some ts1 =>
            rw [h2] at h
            rw [ih m r1 ts1 (by omega) h2]
            exact h

/-- The fuel of `lexTokens` is enough: a text that the lexer cuts into tokens
with some fuel is cut into the same tokens by `lexTokens`. -/
theorem lexTokens_complete (n : Nat) (s : Bytes) (ts : List Tok) (h : lexAux n s = some ts) :
    lexTokens s = some ts :=
  lexAux_enough n (s.length + 1) s ts (Nat.lt_succ_self _) h

theorem parseAux_elems_eq (n : Nat) (toks : List Tok) :
    parseAux (n + 1) ParseMode.elems toks =
      match parseAux n ParseMode.value toks with
      | some (Parsed.value v, Tok.comma :: r) =>
        match parseAux n ParseMode.elems r with
        | some (Parsed.elems vs, r1) => some (Parsed.elems (v :: vs), r1)
        | _ => none
      | some (Parsed.value v, Tok.rbrack :: r) => some (Parsed.elems [v], r)
      | _ => none := rfl

theorem parseAux_members_eq (n : Nat) (toks : List Tok) :
    parseAux (n + 1) ParseMode.members toks =
      match toks with
      | Tok.str k :: Tok.colon :: r =>
        match parseAux n ParseMode.value r with
        | some (Parsed.value v, Tok.comma :: r1) =>
          match parseAux n ParseMode.members r1 with
          | some (Parsed.members kvs, r2) => some (Parsed.members ((k, v) :: kvs), r2)
          | _ => none
        | some (Parsed.value v, Tok.rbrace :: r1) => some (Parsed.members [(k, v)], r1)
        | _ => none
      | _ => none := rfl

theorem parseAux_value_eq (n : Nat) (toks : List Tok) :
    parseAux (n + 1) ParseMode.value toks =
      match toks with
      | Tok.str s :: r => some (Parsed.value (JVal.str s), r)
      | Tok.num v :: r => some (Parsed.value (JVal.num v), r)
      | Tok.litTrue :: r => some (Parsed.value (JVal.bool true), r)
      | Tok.litFalse :: r => some (Parsed.value (JVal.bool false), r)
      | Tok.litNull :: r => some (Parsed.value JVal.null, r)
      | Tok.lbrack :: Tok.rbrack :: r => some (Parsed.value (JVal.arr []), r)
      | Tok.lbrack :: r =>
        match parseAux n ParseMode.elems r with
        | some (Parsed.elems vs, r1) => some (Parsed.value (JVal.arr vs), r1)
        | _ => none
      | Tok.lbrace :: Tok.rbrace :: r => some (Parsed.value (JVal.obj []), r)
      | Tok.lbrace :: r =>
        match parseAux n ParseMode.members r with
        | some (Parsed.members kvs, r1) => some (Parsed.value (JVal.obj kvs), r1)
        | _ => none
      | _ => none := rfl

theorem parseAux_zero (mode : ParseMode) (toks : List Tok) : parseAux 0 mode toks = none := by
  cases mode <;> rfl

theorem parseAux_enough (n : Nat) :
    ∀ (mode : ParseMode) (toks : List Tok) (p : Parsed) (rest : List Tok),
      parseAux n mode toks = some (p, rest) →
      rest.length < toks.length ∧
        ∀ m, 2 * (toks.length - rest.length) ≤ m → parseAux m mode toks = some (p, rest) := by
  induction n with
  | zero => intro mode toks p rest h; rw [parseAux_zero] at h; cases h
  | succ n ih =>
    intro mode toks p rest h
    cases mode with
    | value =>
      rw [parseAux_value_eq] at h
      split at h
      all_goals first
        | (cases h; done)
        | (cases h
           refine ⟨by simp only [List.length_cons]; omega, ?_⟩
           intro m hm
           cases m with
           | zero => simp only [List.length_cons] at hm; omega
           | succ m => rfl)
        | skip
      · rename_i r hx
        cases he : parseAux n ParseMode.elems r with
        | none => rw [he] at h; cases h
        | some x =>
          obtain ⟨pe, r1⟩ := x
          rw [he] at h
          cases pe with
          | value v => cases h
          | members kvs => cases h
          | elems vs =>
            cases h
            obtain ⟨hlt, hm1⟩ := ih _ _ _ _ he
            refine ⟨by simp only [List.length_cons]; omega, ?_⟩
            intro m hm
            cases m with
            | zero => simp only [List.length_cons] at hm; omega
            | succ m =>
              rw [parseAux_value_eq]
              have := hm1 m (by simp only [List.length_cons] at hm; omega)
              split
              all_goals first
                | (rename_i heq; cases heq; done)
                | (rename_i heq; cases heq; exact absurd rfl (hx _))
                | (exfalso; rename_i a b c; first | exact a _ rfl | exact c _ rfl)
                | skip
              · rename_i heq
                cases heq
                rw [this]
      · rename_i r hx
        cases he : parseAux n ParseMode.members r with
        | none => rw [he] at h; cases h
        | some x =>
          obtain ⟨pe, r1⟩ := x
          rw [he] at h
          cases pe with
          | value v => cases h
          | elems kvs => cases h
          | members vs =>
            cases h
            obtain ⟨hlt, hm1⟩ := ih _ _ _ _ he
            refine ⟨by simp only [List.length_cons]; omega, ?_⟩
            intro m hm
            cases m with
            | zero => simp only [List.length_cons] at hm; omega
            | succ m =>
              rw [parseAux_value_eq]
              have := hm1 m (by simp only [List.length_cons] at hm; omega)
              split
              all_goals first
                | (rename_i heq; cases heq; done)
                | (rename_i heq; cases heq; exact absurd rfl (hx _))
                | (exfalso; rename_i a b c; first | exact a _ rfl | exact c _ rfl)
                | skip
              · rename_i heq
                cases heq
                rw [this]
    | elems =>
      rw [parseAux_elems_eq] at h
      cases hv : parseAux n ParseMode.value toks with
      | none => rw [hv] at h; cases h
      | some x =>
        obtain ⟨pv, rv⟩ := x
        rw [hv] at h
        obtain ⟨hlt, hm1⟩ := ih _ _ _ _ hv
        cases pv with
        | elems vs => cases h
        | members kvs => cases h
        | value v =>
          cases rv with
          | nil => cases h
          | cons t r =>
            cases t with
            | rbrack =>
              cases h
              simp only [List.length_cons] at hlt hm1
              refine ⟨by omega, ?_⟩
              intro m hm
              cases m with
              | zero => omega
              | succ m =>
                rw [parseAux_elems_eq, hm1 m (by omega)]
            | comma =>
              simp only at h
              cases he : parseAux n ParseMode.elems r with
              | none => rw [he] at h; cases h
              | some y =>
                obtain ⟨pe, r1⟩ := y
                rw [he] at h
                obtain ⟨hlt2, hm2⟩ := ih _ _ _ _ he
                cases pe with
                | value w => cases h
                | members kvs => cases h
                | elems vs =>
                  cases h
                  simp only [List.length_cons] at hlt hm1
                  refine ⟨by omega, ?_⟩
                  intro m hm
                  cases m with
                  | zero => omega
                  | succ m =>
                    rw [parseAux_elems_eq, hm1 m (by omega)]
                    simp only
                    rw [hm2 m (by omega)]
            | _ => cases h
    | members =>
      rw [parseAux_members_eq] at h
      split at h
      · rename_i k r
        cases hv : parseAux n ParseMode.value r with
        | none => rw [hv] at h; cases h
        | some x =>
          obtain ⟨pv, rv⟩ := x
          rw [hv] at h
          obtain ⟨hlt, hm1⟩ := ih _ _ _ _ hv
          cases pv with
          | elems vs => cases h
          | members kvs => cases h
          | value v =>
            cases rv with
            | nil => cases h
            | cons t r0 =>
              cases t with
              | rbrace =>
                cases h
                simp only [List.length_cons] at hlt hm1 ⊢
                refine ⟨by omega, ?_⟩
                intro m hm
                cases m with
                | zero => omega
                | succ m =>
                  rw [parseAux_members_eq]
                  simp only
                  rw [hm1 m (by omega)]
              | comma =>
                simp only at h
                cases he : parseAux n ParseMode.members r0 with
                | none => rw [he] at h; cases h
                | some y =>
                  obtain ⟨pe, r1⟩ := y
                  rw [he] at h
                  obtain ⟨hlt2, hm2⟩ := ih _ _ _ _ he
                  cases pe with
                  | value w => cases h
                  | elems vs => cases h
                  | members kvs =>
                    cases h
                    simp only [List.length_cons] at hlt hm1 ⊢
                    refine ⟨by omega, ?_⟩
                    intro m hm
                    cases m with
                    | zero => omega
                    | succ m =>
                      rw [parseAux_members_eq]
                      simp only
                      rw [hm1 m (by omega)]
                      simp only
                      rw [hm2 m (by omega)]
              | _ => cases h
      · cases h

/-- The fuel of `parseValue` is enough: tokens that are read as one value with
some fuel are read as that value by `parseValue`. -/
theorem parseValue_complete (n : Nat) (toks : List Tok) (v : JVal)
    (h : parseAux n ParseMode.value toks = some (Parsed.value v, [])) :
    parseValue toks = some v := by
  obtain ⟨_, hm⟩ := parseAux_enough n _ _ _ _ h
  unfold parseValue
  rw [hm (2 * toks.length + 2) (by simp only [List.length_nil]; omega)]

/-! ## Lemmas: the keys of a loaded table are valid UTF-8 -/

theorem lexOne_valid (c : UInt8) (tl rest : Bytes) (t : Tok)
    (h : lexOne c tl = some (some t, rest)) : tokValid t = true := by
  have hid : ∀ (x : Tok) (r : Bytes), some (some x, r) = some (some t, rest) →
      tokValid x = true → tokValid t = true := by
    intro x r e hx
    injection e with e
    injection e with e _
    injection e with e
    subst e
    exact hx
  delta lexOne at h
  by_cases c1 : isSpace c = true
  · rw [if_pos c1] at h
    injection h with h
    injection h with h _
    cases h
  rw [if_neg c1] at h
  by_cases c2 : c = 0x7B
  · rw [if_pos c2] at h; exact hid _ _ h rfl
  rw [if_neg c2] at h
  by_cases c3 : c = 0x7D
  · rw [if_pos c3] at h; exact hid _ _ h rfl
  rw [if_neg c3] at h
  by_cases c4 : c = 0x5B
  · rw [if_pos c4] at h; exact hid _ _ h rfl
  rw [if_neg c4] at h
  by_cases c5 : c = 0x5D
  · rw [if_pos c5] at h; exact hid _ _ h rfl
  rw [if_neg c5] at h
  by_cases c6 : c = 0x3A
  · rw [if_pos c6] at h; exact hid _ _ h rfl
  rw [if_neg c6] at h
  by_cases c7 : c = 0x2C
  · rw [if_pos c7] at h; exact hid _ _ h rfl
  rw [if_neg c7] at h
  by_cases c8 : c = 0x22
  · rw [if_pos c8] at h
    cases hs : lexString tl with
    | none => rw [hs] at h; cases h
    | some x =>
      obtain ⟨s, r1⟩ := x
      rw [hs] at h
      exact hid _ _ h (lexStringAux_valid tl 0 s r1 hs)
  rw [if_neg c8] at h
  by_cases c9 : c = 0x74
  · rw [if_pos c9] at h
    split at h <;> first
      | (split at h <;> first
          | exact hid _ _ h rfl
          | cases h)
      | cases h
  rw [if_neg c9] at h
  by_cases c10 : c = 0x66
  · rw [if_pos c10] at h
    split at h <;> first
      | (split at h <;> first
          | exact hid _ _ h rfl
          | cases h)
      | cases h
  rw [if_neg c10] at h
  by_cases c11 : c = 0x6E
  · rw [if_pos c11] at h
    split at h <;> first
      | (split at h <;> first
          | exact hid _ _ h rfl
          | cases h)
      | cases h
  rw [if_neg c11] at h
  cases hn : lexNumber (c :: tl) with
  | none => rw [hn] at h; cases h
  | some x =>
    obtain ⟨v, r1⟩ := x
    rw [hn] at h
    exact hid _ _ h rfl

/-- Every string token of a text is valid UTF-8. -/
theorem lexAux_valid (n : Nat) :
    ∀ (s : Bytes) (ts : List Tok), lexAux n s = some ts → ∀ t ∈ ts, tokValid t = true := by
  induction n with
  | zero => intro s ts h; simp [lexAux] at h
  | succ n ih =>
    intro s ts h
    cases s with
    | nil =>
      simp only [lexAux] at h
      injection h with h
      subst h
      intro t ht
      cases ht
    | cons c tl =>
      rw [lexAux_succ_cons] at h
      split at h
      · cases h
      · exact ih _ ts h
      · rename_i t r1 h1
        cases h2 : lexAux n r1 with
        | none => rw [h2] at h; cases h
        | some ts1 =>
          rw [h2] at h
          simp only [consTok] at h
          injection h with h
          subst h
          intro t0 ht0
          rcases List.mem_cons.mp ht0 with h3 | h3
          · rw [h3]
            exact lexOne_valid c tl r1 t h1
          · exact ih r1 ts1 h2 t0 h3

/-- The tokens left by the reader are tokens it was given, and the keys of
the members it read are string tokens it was given. -/
theorem parseAux_keys (n : Nat) :
    ∀ (mode : ParseMode) (toks : List Tok) (p : Parsed) (rest : List Tok),
      parseAux n mode toks = some (p, rest) →
      (∀ t ∈ rest, t ∈ toks) ∧ ∀ k ∈ p.topKeys, Tok.str k ∈ toks := by
  induction n with
  | zero => intro mode toks p rest h; rw [parseAux_zero] at h; cases h
  | succ n ih =>
    intro mode toks p rest h
    cases mode with
    | value =>
      rw [parseAux_value_eq] at h
      split at h
      all_goals first
        | (cases h; done)
        | (cases h
           refine ⟨fun t ht => ?_, fun k hk => ?_⟩
           · first
               | exact List.mem_cons_of_mem _ ht
               | exact List.mem_cons_of_mem _ (List.mem_cons_of_mem _ ht)
           · cases hk)
        | skip
      · rename_i r hx
        cases he : parseAux n ParseMode.elems r with
        | none => rw [he] at h; cases h
        | some x =>
          obtain ⟨pe, r1⟩ := x
          rw [he] at h
          cases pe with
          | value v => cases h
          | members kvs => cases h
          | elems vs =>
            cases h
            obtain ⟨h1, _⟩ := ih _ _ _ _ he
            exact ⟨fun t ht => List.mem_cons_of_mem _ (h1 t ht), fun k hk => by cases hk⟩
      · rename_i r hx
        cases he : parseAux n ParseMode.members r with
        | none => rw [he] at h; cases h
        | some x =>
          obtain ⟨pe, r1⟩ := x
          rw [he] at h
          cases pe with
          | value v => cases h
          | elems kvs => cases h
          | members vs =>
            cases h
            obtain ⟨h1, h2⟩ := ih _ _ _ _ he
            exact ⟨fun t ht => List.mem_cons_of_mem _ (h1 t ht),
              fun k hk => List.mem_cons_of_mem _ (h2 k hk)⟩
    | elems =>
      rw [parseAux_elems_eq] at h
      cases hv : parseAux n ParseMode.value toks with
      | none => rw [hv] at h; cases h
      | some x =>
        obtain ⟨pv, rv⟩ := x
        rw [hv] at h
        obtain ⟨h1, _⟩ := ih _ _ _ _ hv
        cases pv with
        | elems vs => cases h
        | members kvs => cases h
        | value v =>
          cases rv with
          | nil => cases h
          | cons t r =>
            cases t with
            | rbrack =>
              cases h
              exact ⟨fun t ht => h1 t (List.mem_cons_of_mem _ ht), fun k hk => by cases hk⟩
            | comma =>
              simp only at h
              cases he : parseAux n ParseMode.elems r with
              | none => rw [he] at h; cases h
              | some y =>
                obtain ⟨pe, r1⟩ := y
                rw [he] at h
                obtain ⟨h3, _⟩ := ih _ _ _ _ he
                cases pe with
                | value w => cases h
                | members kvs => cases h
                | elems vs =>
                  cases h
                  exact ⟨fun t ht => h1 t (List.mem_cons_of_mem _ (h3 t ht)),
                    fun k hk => by cases hk⟩
            | _ => cases h
    | members =>
      rw [parseAux_members_eq] at h
      split at h
      · rename_i k r
        cases hv : parseAux n ParseMode.value r with
        | none => rw [hv] at h; cases h
        | some x =>
          obtain ⟨pv, rv⟩ := x
          rw [hv] at h
          obtain ⟨h1, _⟩ := ih _ _ _ _ hv
          have hsub : ∀ t ∈ rv, t ∈ Tok.str k :: Tok.colon :: r := fun t ht =>
            List.mem_cons_of_mem _ (List.mem_cons_of_mem _ (h1 t ht))
          cases pv with
          | elems vs => cases h
          | members kvs => cases h
          | value v =>
            cases rv with
            | nil => cases h
            | cons t r0 =>
              cases t with
              | rbrace =>
                cases h
                refine ⟨fun t ht => hsub t (List.mem_cons_of_mem _ ht), fun k1 hk1 => ?_⟩
                simp only [Parsed.topKeys, List.map_cons, List.map_nil, List.mem_singleton] at hk1
                rw [hk1]
                exact List.mem_cons_self _ _
              | comma =>
                simp only at h
                cases he : parseAux n ParseMode.members r0 with
                | none => rw [he] at h; cases h
                | some y =>
                  obtain ⟨pe, r1⟩ := y
                  rw [he] at h
                  obtain ⟨h3, h4⟩ := ih _ _ _ _ he
                  cases pe with
                  | value w => cases h
                  | elems vs => cases h
                  | members kvs =>
                    cases h
                    refine ⟨fun t ht => hsub t (List.mem_cons_of_mem _ (h3 t ht)),
                      fun k1 hk1 => ?_⟩
                    simp only [Parsed.topKeys, List.map_cons, List.mem_cons] at hk1
                    rcases hk1 with hk1 | hk1
                    · rw [hk1]
                      exact List.mem_cons_self _ _
                    · exact hsub _ (List.mem_cons_of_mem _ (h4 k1 hk1))
              | _ => cases h
      · cases h

theorem foldl_set_keys (l : List (Bytes × JVal)) (acc : Entries) (e : Bytes × HashIndexValue)
    (he : e ∈ l.foldl (fun t m => Entries.set t m.1 (decodeValue m.2)) acc) :
    e ∈ acc ∨ e.1 ∈ l.map Prod.fst := by
  induction l generalizing acc with
  | nil => exact Or.inl he
  | cons x l ih =>
    simp only [List.foldl_cons] at he
    rcases ih _ he with h | h
    · rcases mem_set acc x.1 _ e h with h | h
      · right
        rw [h]
        exact List.mem_cons_self _ _
      · exact Or.inl h
    · right
      simp only [List.map_cons]
      exact List.mem_cons_of_mem _ h

/-- The keys of a loaded table are valid UTF-8, whatever the file holds. -/
theorem jsonUnmarshal_validKeys (data : Bytes) (t : Entries)
    (h : jsonUnmarshal data = HashTable.map t) : t.ValidKeys := by
  unfold jsonUnmarshal at h
  cases hl : lexTokens data with
  | none =>
    rw [hl] at h
    injection h with h
    subst h
    intro e he
    cases he
  | some toks =>
    rw [hl] at h
    simp only at h
    have htoks := lexAux_valid _ data toks hl
    unfold parseValue at h
    cases hp : parseAux (2 * toks.length + 2) ParseMode.value toks with
    | none =>
      rw [hp] at h
      injection h with h
      subst h
      intro e he
      cases he
    | some x =>
      obtain ⟨p, rest⟩ := x
      rw [hp] at h
      obtain ⟨_, hkeys⟩ := parseAux_keys _ _ _ _ _ hp
      cases p with
      | elems vs =>
        injection h with h
        subst h
        intro e he
        cases he
      | members kvs =>
        injection h with h
        subst h
        intro e he
        cases he
      | value v =>
        cases rest with
        | cons t0 r0 =>
          injection h with h
          subst h
          intro e he
          cases he
        | nil =>
          simp only at h
          cases v with
          | obj kvs =>
            simp only [decodeTable] at h
            injection h with h
            subst h
            intro e he
            rcases foldl_set_keys kvs [] e he with h1 | h1
            · cases h1
            · exact htoks _ (hkeys e.1 h1)
          | null => cases h
          | _ =>
            simp only [decodeTable] at h
            injection h with h
            subst h
            intro e he
            cases he

/-! ## Lemmas: the log -/

theorem getIndexes_eq (hf : DB) : hf.getIndexes = Except.ok (jsonUnmarshal hf.indexf) := rfl

theorem split_ne_nil (sep : UInt8) (s : Bytes) : split sep s ≠ [] := by
  cases s with
  | nil => simp [split]
  | cons c rest =>
    simp only [split]
    split
    · simp
    · split <;> simp

theorem split_of_not_mem (sep : UInt8) (s : Bytes) (h : sep ∉ s) : split sep s = [s] := by
  induction s with
  | nil => rfl
  | cons c rest ih =>
    have hc : c ≠ sep := fun e => h (e ▸ List.mem_cons_self _ _)
    have hr : sep ∉ rest := fun e => h (List.mem_cons_of_mem _ e)
    simp [split, hc, ih hr]

theorem split_cons (sep c : UInt8) (rest : Bytes) :
    split sep (c :: rest) =
      if c = sep then [] :: split sep rest
      else
        match split sep rest with
        | [] => [[c]]
        | s :: ss => (c :: s) :: ss := rfl

theorem split_append (sep : UInt8) (a b : Bytes) :
    split sep (a ++ sep :: b) = split sep a ++ split sep b := by
  induction a with
  | nil => simp [split]
  | cons c rest ih =>
    rw [List.cons_append, split_cons, split_cons, ih]
    split
    · rfl
    · cases hsp : split sep rest with
      | nil => exact absurd hsp (split_ne_nil sep rest)
      | cons x xs => rfl

theorem getLast?_split_append (sep : UInt8) (a b : Bytes) :
    (split sep (a ++ sep :: b)).getLast? = (split sep b).getLast? := by
  rw [split_append]
  cases hsp : split sep b with
  | nil => exact absurd hsp (split_ne_nil sep b)
  | cons x xs =>
    rw [List.getLast?_append]
    cases hl : (x :: xs).getLast? with
    | none => simp at hl
    | some y => rfl

theorem getLast?_split_record (pre suf : Bytes) (h : delim ∉ suf) :
    (split delim (pre ++ delim :: suf)).getLast? = some suf := by
  rw [getLast?_split_append, split_of_not_mem delim suf h]
  rfl

theorem exists_last_delim (s : Bytes) (h : delim ∈ s) :
    ∃ pre suf, s = pre ++ delim :: suf ∧ delim ∉ suf := by
  induction s with
  | nil => simp at h
  | cons c rest ih =>
    by_cases hr : delim ∈ rest
    · obtain ⟨pre, suf, hs, hn⟩ := ih hr
      exact ⟨c :: pre, suf, by rw [hs]; rfl, hn⟩
    · rcases List.mem_cons.mp h with h | h
      · exact ⟨[], rest, by rw [h]; rfl, hr⟩
      · exact absurd h hr

theorem readAt_inside (pre r post : Bytes) :
    readAt (pre ++ r ++ post) r.length (pre.length : Int) = r := by
  unfold readAt
  have h0 : ¬ ((pre.length : Int) < 0) := by omega
  simp [h0]

theorem slice_inside (pre r post : Bytes) :
    slice (pre ++ r ++ post) (pre.length : Int) ((pre.length : Int) + (r.length : Int)) = r := by
  unfold slice
  have h1 : ((pre.length : Int) + (r.length : Int)).toNat - (pre.length : Int).toNat = r.length := by
    omega
  rw [h1]
  simp

theorem record_length (k v : Bytes) : (record k v).length = k.length + 1 + v.length := by
  simp [record]
  omega

/-! ## Lemmas: `Write` and `Read` -/

theorem Write_map (hf : DB) (t : Entries) (k v : Bytes)
    (ht : jsonUnmarshal hf.indexf = HashTable.map t) :
    hf.Write AppendOutcome.written k v = Except.ok (true, stateAfterWrite hf t k v) := by
  simp only [DB.Write, fileWrite, DB.index, getIndexes_eq, ht, HashTable.assign, jsonMarshal]
  rfl

theorem Write_nil (hf : DB) (k v : Bytes) (ht : jsonUnmarshal hf.indexf = HashTable.nil) :
    hf.Write AppendOutcome.written k v = Except.error Fault.panic := by
  simp only [DB.Write, fileWrite, DB.index, getIndexes_eq, ht, HashTable.assign]
  rfl

theorem Write_failed (hf : DB) (n : Nat) (k v : Bytes) :
    hf.Write (AppendOutcome.failed n) k v =
      Except.ok (false, { hf with f := hf.f ++ (record k v).take n }) := rfl

theorem Write_true (hf hf1 : DB) (out : AppendOutcome) (k v : Bytes)
    (h : hf.Write out k v = Except.ok (true, hf1)) :
    out = AppendOutcome.written ∧
      ∃ t, jsonUnmarshal hf.indexf = HashTable.map t ∧ hf1 = stateAfterWrite hf t k v := by
  cases out with
  | written =>
    cases ht : jsonUnmarshal hf.indexf with
    | nil => rw [Write_nil hf k v ht] at h; cases h
    | map t =>
      rw [Write_map hf t k v ht] at h
      injection h with h
      injection h with _ h
      exact ⟨rfl, t, rfl, h.symm⟩
  | failed n =>
    rw [Write_failed] at h
    injection h with h
    injection h with h _
    cases h

/-- After a write under a key that is valid UTF-8, the index loads as the
index before the write with the entry of the key set. -/
theorem jsonUnmarshal_after_write (hf : DB) (t : Entries) (k v : Bytes)
    (ht : jsonUnmarshal hf.indexf = HashTable.map t) (hk : validUTF8 k = true) :
    jsonUnmarshal (stateAfterWrite hf t k v).indexf =
      HashTable.map (t.set k
        { Location := hf.byteSize, Max := hf.byteSize + ((record k v).length : Int) }) :=
  jsonUnmarshal_marshalObject _ (set_sorted _ _ _ (jsonUnmarshal_sorted hf.indexf t ht))
    (set_validKeys _ _ _ (jsonUnmarshal_validKeys hf.indexf t ht) hk)

/-- After a write under any key, the index loads as a map, and every entry of
it is the entry of the write or an entry of the index before the write. -/
theorem jsonUnmarshal_after_write_mem (hf : DB) (t : Entries) (k v : Bytes) :
    ∃ t1, jsonUnmarshal (stateAfterWrite hf t k v).indexf = HashTable.map t1 ∧
      ∀ x ∈ t1, x.2 = HashIndexValue.mk hf.byteSize
          (hf.byteSize + ((record k v).length : Int)) ∨ ∃ k0, (k0, x.2) ∈ t := by
  refine ⟨_, jsonUnmarshal_marshalObject_coerce _, ?_⟩
  intro x hx
  rcases foldl_set_mem _ _ _ hx with h1 | h1
  · cases h1
  · unfold coerceKeys at h1
    obtain ⟨y, hy, hyx⟩ := List.mem_map.mp h1
    rw [← hyx]
    rcases mem_set t k _ y hy with h2 | h2
    · left
      rw [h2]
    · right
      exact ⟨y.1, h2⟩

theorem get_of_find? (m : HashTable) (k : Bytes) (e : HashIndexValue)
    (h : m.find? k = some e) : m.get k = e := by
  simp [HashTable.get, h]

theorem Read_of_entry (hf : DB) (key : Bytes) (e : HashIndexValue) (pre r post : Bytes)
    (he : (jsonUnmarshal hf.indexf).get key = e) (hf_eq : hf.f = pre ++ r ++ post)
    (hloc : e.Location = (pre.length : Int)) (hmax : e.Max = (pre.length : Int) + (r.length : Int))
    (hfit : r.length ≤ maxAlloc) :
    hf.Read key =
      match (split delim r).getLast? with
      | none => Except.error Fault.panic
      | some s => Except.ok (s, hf) := by
  unfold DB.Read
  rw [getIndexes_eq]
  simp only [he]
  have h0 : ¬ (e.Max - e.Location < 0 ∨ (maxAlloc : Int) < e.Max - e.Location) := by omega
  have h1 : (e.Max - e.Location).toNat = r.length := by omega
  rw [if_neg h0, h1, hloc, hf_eq, readAt_inside]

/-- After a `Write` of `(k, v)` that returns `true` on a store whose cached
length is the length of the log, for a key that is valid UTF-8, `Read(k)`
returns the last segment of the record. -/
theorem Read_after_write (hf : DB) (t : Entries) (k v : Bytes)
    (ht : jsonUnmarshal hf.indexf = HashTable.map t) (hk : validUTF8 k = true)
    (hsize : hf.byteSize = (hf.f.length : Int)) (hfit : (record k v).length ≤ maxAlloc) :
    (stateAfterWrite hf t k v).Read k =
      match (split delim (record k v)).getLast? with
      | none => Except.error Fault.panic
      | some s => Except.ok (s, stateAfterWrite hf t k v) := by
  have hget : (jsonUnmarshal (stateAfterWrite hf t k v).indexf).get k =
      { Location := hf.byteSize, Max := hf.byteSize + ((record k v).length : Int) } := by
    rw [jsonUnmarshal_after_write hf t k v ht hk]
    exact get_of_find? _ _ _ (find?_set_eq _ _ _)
  have hlog : (stateAfterWrite hf t k v).f = hf.f ++ record k v ++ [] := by
    simp [stateAfterWrite]
  exact Read_of_entry _ k _ hf.f (record k v) [] hget hlog hsize (by rw [hsize]) hfit


/-- The function `Read` on an entry whose range lies in the log: the last
segment of the bytes of the range. -/
theorem Read_within (hf : DB) (key : Bytes) (e : HashIndexValue)
    (he : (jsonUnmarshal hf.indexf).get key = e) (h0 : 0 ≤ e.Location)
    (h1 : e.Location ≤ e.Max) (h2 : e.Max ≤ (hf.f.length : Int))
    (hfit : e.Max - e.Location ≤ (maxAlloc : Int)) :
    hf.Read key =
      match (split delim (slice hf.f e.Location e.Max)).getLast? with
      | none => Except.error Fault.panic
      | some s => Except.ok (s, hf) := by
  have hpre : (hf.f.take e.Location.toNat).length = e.Location.toNat :=
    List.length_take_of_le (by omega)
  have hsplit : hf.f = hf.f.take e.Location.toNat ++ slice hf.f e.Location e.Max ++
      (hf.f.drop e.Location.toNat).drop (e.Max.toNat - e.Location.toNat) := by
    unfold slice
    rw [List.append_assoc, List.take_append_drop, List.take_append_drop]
  have hr : (slice hf.f e.Location e.Max).length = e.Max.toNat - e.Location.toNat := by
    unfold slice
    rw [List.length_take_of_le]
    rw [List.length_drop]
    omega
  exact Read_of_entry hf key e _ _ _ he hsplit (by rw [hpre]; omega) (by rw [hpre, hr]; omega)
    (by rw [hr]; omega)

theorem slice_append (f g : Bytes) (lo hi : Int) (h1 : lo ≤ hi)
    (h2 : hi ≤ (f.length : Int)) : slice (f ++ g) lo hi = slice f lo hi := by
  unfold slice
  rw [List.drop_append_of_le_length (by omega), List.take_append_of_le_length]
  rw [List.length_drop]
  omega
/-! ## Lemmas: sequences of writes -/

theorem recordsLength_cons (k v : Bytes) (ws : List (Bytes × Bytes)) :
    recordsLength ((k, v) :: ws) = k.length + 1 + v.length + recordsLength ws := rfl

theorem recordsLength_append (ws : List (Bytes × Bytes)) (k v : Bytes) :
    recordsLength (ws ++ [(k, v)]) = recordsLength ws + (record k v).length := by
  induction ws with
  | nil => simp [recordsLength, record_length]
  | cons w ws ih =>
    obtain ⟨k1, v1⟩ := w
    rw [List.cons_append, recordsLength_cons, recordsLength_cons, ih]
    omega

theorem lastValue_cons (key k v : Bytes) (ws : List (Bytes × Bytes)) :
    lastValue key ((k, v) :: ws) =
      match lastValue key ws with
      | some w => some w
      | none => if k = key then some v else none := rfl

theorem lastValue_append (key : Bytes) (ws : List (Bytes × Bytes)) (k v : Bytes) :
    lastValue key (ws ++ [(k, v)]) = if k = key then some v else lastValue key ws := by
  induction ws with
  | nil => simp [lastValue]
  | cons w ws ih =>
    obtain ⟨k1, v1⟩ := w
    rw [List.cons_append, lastValue_cons, lastValue_cons, ih]
    by_cases h : k = key
    · simp [h]
    · simp [h]

theorem Inv_empty : Inv [] emptyDB := by
  refine ⟨rfl, rfl, [], by decide, ?_⟩
  intro k e h
  simp [Entries.find?] at h

theorem Inv_write (ws : List (Bytes × Bytes)) (hf : DB) (k v : Bytes) (h : Inv ws hf)
    (hk : validUTF8 k = true) :
    ∃ hf1, hf.Write AppendOutcome.written k v = Except.ok (true, hf1) ∧
      Inv (ws ++ [(k, v)]) hf1 := by
  obtain ⟨hsize, hlen, t, ht, hent⟩ := h
  refine ⟨stateAfterWrite hf t k v, Write_map hf t k v ht, ?_, ?_, _,
    jsonUnmarshal_after_write hf t k v ht hk, ?_⟩
  · simp [stateAfterWrite, hsize]
  · simp only [stateAfterWrite, List.length_append, recordsLength_append, hlen]
  · intro k2 e he
    by_cases hk : k2 = k
    · subst hk
      rw [find?_set_eq] at he
      injection he with he
      refine ⟨hf.f, v, [], ?_, by simp [stateAfterWrite], ?_, ?_⟩
      · rw [lastValue_append]; simp
      · rw [← he]; exact hsize
      · rw [← he]; simp [hsize]
    · rw [find?_set_ne _ _ _ _ hk] at he
      obtain ⟨pre, v2, post, hl, hf_eq, hloc, hmax⟩ := hent k2 e he
      refine ⟨pre, v2, post ++ record k v, ?_, ?_, hloc, hmax⟩
      · rw [lastValue_append]
        have : ¬ k = k2 := fun e => hk e.symm
        simp [this, hl]
      · simp [stateAfterWrite, hf_eq]

theorem writeAll_cons (hf : DB) (k v : Bytes) (ws : List (Bytes × Bytes)) :
    writeAll hf ((k, v) :: ws) =
      match hf.Write AppendOutcome.written k v with
      | Except.error e => Except.error e
      | Except.ok (_, hf1) => writeAll hf1 ws := rfl

theorem writeAll_inv (ws0 ws : List (Bytes × Bytes)) (hf : DB) (h : Inv ws0 hf)
    (hv : ∀ w ∈ ws, validUTF8 w.1 = true) :
    ∃ hf1, writeAll hf ws = Except.ok hf1 ∧ Inv (ws0 ++ ws) hf1 := by
  induction ws generalizing ws0 hf with
  | nil => exact ⟨hf, rfl, by simpa using h⟩
  | cons w ws ih =>
    obtain ⟨k, v⟩ := w
    obtain ⟨hf0, hw, hinv⟩ := Inv_write ws0 hf k v h (hv (k, v) (List.mem_cons_self _ _))
    obtain ⟨hf1, h1, h2⟩ := ih (ws0 ++ [(k, v)]) hf0 hinv
      (fun w hw => hv w (List.mem_cons_of_mem _ hw))
    refine ⟨hf1, ?_, by simpa using h2⟩
    rw [writeAll_cons, hw]
    exact h1

/-- Writes under keys that are valid UTF-8, each with a successful append, run
from the empty store to a state where every entry of the index is the range of
the record last written for its key. -/
theorem writeAll_from_empty (ws : List (Bytes × Bytes))
    (hv : ∀ w ∈ ws, validUTF8 w.1 = true) :
    ∃ hf, writeAll emptyDB ws = Except.ok hf ∧ Inv ws hf := by
  simpa using writeAll_inv [] ws emptyDB Inv_empty hv

theorem Within_empty : Within [] emptyDB := by
  refine ⟨rfl, rfl, [], by decide, ?_⟩
  intro x hx
  cases hx

theorem Within_write (ws : List (Bytes × Bytes)) (hf : DB) (k v : Bytes) (h : Within ws hf) :
    ∃ t, jsonUnmarshal hf.indexf = HashTable.map t ∧
      hf.Write AppendOutcome.written k v = Except.ok (true, stateAfterWrite hf t k v) ∧
      Within (ws ++ [(k, v)]) (stateAfterWrite hf t k v) := by
  obtain ⟨hsize, hlen, t, ht, hent⟩ := h
  obtain ⟨t1, ht1, hmem⟩ := jsonUnmarshal_after_write_mem hf t k v
  have hf1 : (stateAfterWrite hf t k v).f.length = hf.f.length + (record k v).length := by
    simp [stateAfterWrite]
  refine ⟨t, ht, Write_map hf t k v ht, ?_, ?_, t1, ht1, ?_⟩
  · simp [stateAfterWrite, hsize]
  · rw [hf1, recordsLength_append, hlen]
  · intro x hx
    rw [hf1]
    rcases hmem x hx with h1 | ⟨k0, h1⟩
    · rw [h1]
      simp only
      rw [hsize]
      refine ⟨by omega, by omega, ?_⟩
      push_cast
      omega
    · obtain ⟨a, b, c⟩ := hent _ h1
      refine ⟨a, b, ?_⟩
      simp only at c
      push_cast
      omega

theorem writeAll_within (ws0 ws : List (Bytes × Bytes)) (hf : DB) (h : Within ws0 hf) :
    ∃ hf1, writeAll hf ws = Except.ok hf1 ∧ Within (ws0 ++ ws) hf1 := by
  induction ws generalizing ws0 hf with
  | nil => exact ⟨hf, rfl, by simpa using h⟩
  | cons w ws ih =>
    obtain ⟨k, v⟩ := w
    obtain ⟨t, _, hw, hinv⟩ := Within_write ws0 hf k v h
    obtain ⟨hf1, h1, h2⟩ := ih (ws0 ++ [(k, v)]) _ hinv
    refine ⟨hf1, ?_, by simpa using h2⟩
    rw [writeAll_cons, hw]
    exact h1

/-- Writes under any keys, each with a successful append, run from the empty
store to a state where the cached length is the length of the log and the
range of every entry of the index lies in the log. -/
theorem writeAll_from_empty_within (ws : List (Bytes × Bytes)) :
    ∃ hf, writeAll emptyDB ws = Except.ok hf ∧ Within ws hf := by
  simpa using writeAll_within [] ws emptyDB Within_empty

theorem writeAll_append (hf : DB) (ws : List (Bytes × Bytes)) (k v : Bytes) :
    writeAll hf (ws ++ [(k, v)]) =
      match writeAll hf ws with
      | Except.error e => Except.error e
      | Except.ok hf1 => writeAll hf1 [(k, v)] := by
  induction ws generalizing hf with
  | nil =>
    simp only [List.nil_append]
    rfl
  | cons w ws ih =>
    obtain ⟨k1, v1⟩ := w
    rw [List.cons_append, writeAll_cons, writeAll_cons]
    cases hw : hf.Write AppendOutcome.written k1 v1 with
    | error e => rfl
    | ok x => exact ih _

/-! ## Lemmas: sequences of calls -/

theorem Read_state (hf hf1 : DB) (key s : Bytes) (h : hf.Read key = Except.ok (s, hf1)) :
    hf1 = hf := by
  unfold DB.Read at h
  rw [getIndexes_eq] at h
  simp only at h
  split at h
  · cases h
  · split at h
    · cases h
    · injection h with h
      injection h with _ h
      exact h.symm

theorem step_plain (hf hf1 : DB) (op : Op) (hp : op.plain = true)
    (hsize : hf.byteSize = (hf.f.length : Int)) (h : step hf op = Except.ok hf1) :
    hf1.byteSize = (hf1.f.length : Int) := by
  cases op with
  | write out k v =>
    cases out with
    | written =>
      cases ht : jsonUnmarshal hf.indexf with
      | nil =>
        simp only [step, Write_nil hf k v ht] at h
        cases h
      | map t =>
        simp only [step, Write_map hf t k v ht] at h
        injection h with h
        subst h
        simp [stateAfterWrite, hsize]
    | failed n =>
      simp only [Op.plain, beq_iff_eq] at hp
      subst hp
      simp only [step, Write_failed] at h
      injection h with h
      subst h
      simpa using hsize
  | read k =>
    simp only [step] at h
    split at h
    · cases h
    · rename_i s hf2 hr
      injection h with h
      subst h
      rw [Read_state hf hf2 k s hr]
      exact hsize
  | flush => simp [Op.plain] at hp

theorem run_plain (ops : List Op) (hf hf1 : DB) (hp : ∀ op ∈ ops, op.plain = true)
    (hsize : hf.byteSize = (hf.f.length : Int)) (h : run hf ops = Except.ok hf1) :
    hf1.byteSize = (hf1.f.length : Int) := by
  induction ops generalizing hf with
  | nil =>
    simp only [run] at h
    injection h with h
    subst h
    exact hsize
  | cons op ops ih =>
    simp only [run] at h
    split at h
    · cases h
    · rename_i hf2 hs
      exact ih hf2 (fun o ho => hp o (List.mem_cons_of_mem _ ho))
        (step_plain hf hf2 op (hp op (List.mem_cons_self _ _)) hsize hs) h


/-! ## Lemmas: the entries of the index after writes -/

/-- A property of entries that every entry of the index has, and that the
entry of each write has (it starts at a cached length that is not negative),
holds for every entry of the index after the writes; the cached length stays
not negative. -/
theorem writeAll_entries (P : HashIndexValue → Prop) (ws : List (Bytes × Bytes)) :
    ∀ (hf hf1 : DB), 0 ≤ hf.byteSize →
      (∀ t, jsonUnmarshal hf.indexf = HashTable.map t → ∀ x ∈ t, P x.2) →
      (∀ w ∈ ws, ∀ b : Int, 0 ≤ b →
        P (HashIndexValue.mk b (b + ((record w.1 w.2).length : Int)))) →
      writeAll hf ws = Except.ok hf1 →
      0 ≤ hf1.byteSize ∧
        ∀ t, jsonUnmarshal hf1.indexf = HashTable.map t → ∀ x ∈ t, P x.2 := by
  induction ws with
  | nil =>
    intro hf hf1 hb hP _ hrun
    simp only [writeAll] at hrun
    injection hrun with hrun
    subst hrun
    exact ⟨hb, hP⟩
  | cons w ws ih =>
    obtain ⟨k, v⟩ := w
    intro hf hf1 hb hP hnew hrun
    rw [writeAll_cons] at hrun
    cases ht : jsonUnmarshal hf.indexf with
    | nil =>
      rw [Write_nil hf k v ht] at hrun
      cases hrun
    | map t =>
      rw [Write_map hf t k v ht] at hrun
      simp only at hrun
      refine ih (stateAfterWrite hf t k v) hf1 ?_ ?_
        (fun w hw => hnew w (List.mem_cons_of_mem _ hw)) hrun
      · show 0 ≤ hf.byteSize + ((record k v).length : Int)
        omega
      · intro t1 ht1 x hx
        obtain ⟨t2, ht2, hmem⟩ := jsonUnmarshal_after_write_mem hf t k v
        rw [ht2] at ht1
        injection ht1 with ht1
        subst ht1
        rcases hmem x hx with h1 | ⟨k0, h1⟩
        · rw [h1]
          exact hnew (k, v) (List.mem_cons_self _ _) hf.byteSize hb
        · exact hP t ht (k0, x.2) h1

/-! ## Lemmas: the log after writes -/

theorem recordsOf_cons (k v : Bytes) (ws : List (Bytes × Bytes)) :
    recordsOf ((k, v) :: ws) = record k v ++ recordsOf ws := rfl

/-- Writes put their records at the end of the log, one after the other. -/
theorem writeAll_log (ws : List (Bytes × Bytes)) :
    ∀ (hf hf1 : DB), writeAll hf ws = Except.ok hf1 → hf1.f = hf.f ++ recordsOf ws := by
  induction ws with
  | nil =>
    intro hf hf1 hrun
    simp only [writeAll] at hrun
    injection hrun with hrun
    subst hrun
    simp [recordsOf]
  | cons w ws ih =>
    obtain ⟨k, v⟩ := w
    intro hf hf1 hrun
    rw [writeAll_cons] at hrun
    cases ht : jsonUnmarshal hf.indexf with
    | nil =>
      rw [Write_nil hf k v ht] at hrun
      cases hrun
    | map t =>
      rw [Write_map hf t k v ht] at hrun
      simp only at hrun
      rw [ih _ hf1 hrun, recordsOf_cons]
      simp [stateAfterWrite]

/-! ## Lemmas: entries and their keys -/

theorem find?_cons (k1 : Bytes) (v1 : HashIndexValue) (t : Entries) (k : Bytes) :
    Entries.find? ((k1, v1) :: t) k = if k = k1 then some v1 else Entries.find? t k := rfl

theorem find?_of_mem_sorted (t : Entries) (h : t.Sorted) (k : Bytes) (e : HashIndexValue)
    (hm : (k, e) ∈ t) : t.find? k = some e := by
  induction t with
  | nil => cases hm
  | cons x t ih =>
    obtain ⟨k1, v1⟩ := x
    unfold Entries.Sorted at h ih
    rw [List.pairwise_cons] at h
    rw [find?_cons]
    rcases List.mem_cons.mp hm with h1 | h1
    · injection h1 with hk hv
      rw [if_pos hk, hv]
    · have hlt := h.1 (k, e) h1
      have hne : k ≠ k1 := by
        intro hk
        rw [hk, bytesLt_irrefl] at hlt
        cases hlt
      rw [if_neg hne]
      exact ih h.2 h1

theorem find?_append (a b : Entries) (k : Bytes) :
    Entries.find? (a ++ b) k =
      match Entries.find? a k with
      | some v => some v
      | none => Entries.find? b k := by
  induction a with
  | nil => rfl
  | cons x a ih =>
    obtain ⟨k1, v1⟩ := x
    rw [List.cons_append, find?_cons, find?_cons]
    by_cases hk : k = k1
    · rw [if_pos hk, if_pos hk]
    · rw [if_neg hk, if_neg hk]
      exact ih

/-- Storing members one after the other keeps, for each name, the entry of
the last member with that name. -/
theorem find?_foldl_set (ms : Entries) :
    ∀ (acc : Entries) (k : Bytes),
      Entries.find? (ms.foldl (fun a m => Entries.set a m.1 m.2) acc) k =
        match Entries.find? ms.reverse k with
        | some v => some v
        | none => Entries.find? acc k := by
  induction ms with
  | nil => intro acc k; rfl
  | cons m ms ih =>
    obtain ⟨k1, v1⟩ := m
    intro acc k
    rw [List.foldl_cons, ih, List.reverse_cons, find?_append]
    cases hr : Entries.find? ms.reverse k with
    | some v => rfl
    | none =>
      simp only
      rw [find?_cons]
      by_cases hk : k = k1
      · rw [if_pos hk, hk]
        exact find?_set_eq acc k1 v1
      · rw [if_neg hk]
        exact find?_set_ne acc k1 k v1 hk

/-! ## Lemmas: the text of the index file -/

theorem jsonUnmarshal_jsonOf (data : Bytes) :
    jsonUnmarshal data =
      match jsonOf data with
      | none => HashTable.map []
      | some v => decodeTable v := by
  unfold jsonUnmarshal jsonOf
  cases lexTokens data with
  | none => rfl
  | some toks =>
    cases h : parseValue toks with
    | none => simp only [h]
    | some v => simp only [h]

/-- The text that `json.Marshal` writes is one JSON object: its members are
the entries, in their order, with the keys coerced to valid UTF-8. -/
theorem jsonOf_marshalObject (t : Entries) :
    jsonOf (marshalObject t) =
      some (JVal.obj ((coerceKeys t).map (fun x => (x.1, valueJson x.2)))) := by
  unfold jsonOf
  rw [lexTokens_marshalObject]
  exact parseValue_tokens (coerceKeys t)

theorem formatEntry_eq (x : Bytes × HashIndexValue) :
    formatEntry x = quote x.1 ++ [0x3A] ++ marshalValue x.2 := by
  have h1 : bytesOf ":\x7b\"Location\":" = [0x3A, 0x7B] ++ quote nameLocation ++ [0x3A] := by
    decide
  have h2 : bytesOf ",\"Max\":" = [0x2C] ++ quote nameMax ++ [0x3A] := by decide
  have h3 : bytesOf "\x7d" = [0x7D] := by decide
  unfold formatEntry marshalValue
  rw [h1, h2, h3]
  simp only [List.append_assoc, List.cons_append, List.nil_append]

theorem intercalate_cons_cons (sep a b : Bytes) (l : List Bytes) :
    List.intercalate sep (a :: b :: l) = a ++ sep ++ List.intercalate sep (b :: l) := by
  simp [List.intercalate, List.intersperse]

theorem marshalEntries_format (t : Entries) :
    marshalEntries t = List.intercalate [0x2C] (t.map formatEntry) := by
  induction t with
  | nil => rfl
  | cons x t ih =>
    obtain ⟨k, v⟩ := x
    cases t with
    | nil =>
      rw [marshalEntries_single]
      simp [List.intercalate, List.intersperse, formatEntry_eq]
    | cons y t2 =>
      rw [marshalEntries_cons, ih]
      simp only [List.map_cons]
      rw [intercalate_cons_cons, formatEntry_eq (k, v)]

/-- The text that `json.Marshal` writes is the text of the specification. -/
theorem marshalObject_format (t : Entries) : marshalObject t = formatIndex t := by
  have h1 : bytesOf "\x7b" = [0x7B] := by decide
  have h2 : bytesOf "," = [0x2C] := by decide
  have h3 : bytesOf "\x7d" = [0x7D] := by decide
  unfold marshalObject formatIndex
  rw [h1, h2, h3, marshalEntries_format]

/-! ## Lemmas: `int` of 64 bits -/

theorem wrapInt_eq (n : Int) (h : inInt64 n) : wrapInt n = n := by
  unfold inInt64 at h
  unfold wrapInt
  omega

theorem inInt64_wrapInt (n : Int) : inInt64 (wrapInt n) := by
  unfold inInt64 wrapInt
  omega

theorem inInt64_zero : inInt64 0 := by
  unfold inInt64
  omega

theorem decodeInt64_inRange (old : Int) (j : JVal) (h : inInt64 old) :
    inInt64 (decodeInt64 old j) := by
  cases j with
  | num v =>
    cases v with
    | none => exact h
    | some n =>
      simp only [decodeInt64]
      by_cases hn : -9223372036854775808 ≤ n ∧ n ≤ 9223372036854775807
      · rw [if_pos hn]
        exact hn
      · rw [if_neg hn]
        exact h
  | _ => exact h

theorem decodeField64_inRange (hiv : HashIndexValue) (m : Bytes × JVal)
    (h : inInt64 hiv.Location ∧ inInt64 hiv.Max) :
    inInt64 (decodeField64 hiv m).Location ∧ inInt64 (decodeField64 hiv m).Max := by
  unfold decodeField64
  by_cases h1 : foldEq m.1 nameLocation = true
  · rw [if_pos h1]
    exact ⟨decodeInt64_inRange _ _ h.1, h.2⟩
  · rw [if_neg h1]
    by_cases h2 : foldEq m.1 nameMax = true
    · rw [if_pos h2]
      exact ⟨h.1, decodeInt64_inRange _ _ h.2⟩
    · rw [if_neg h2]
      exact h

theorem foldl_decodeField64_inRange (kvs : List (Bytes × JVal)) (hiv : HashIndexValue)
    (h : inInt64 hiv.Location ∧ inInt64 hiv.Max) :
    inInt64 (kvs.foldl decodeField64 hiv).Location ∧
      inInt64 (kvs.foldl decodeField64 hiv).Max := by
  induction kvs generalizing hiv with
  | nil => exact h
  | cons m kvs ih => exact ih _ (decodeField64_inRange hiv m h)

/-- Every field that is loaded is a value of `int`. -/
theorem decodeValue64_inRange (j : JVal) :
    inInt64 (decodeValue64 j).Location ∧ inInt64 (decodeValue64 j).Max := by
  cases j with
  | obj kvs => exact foldl_decodeField64_inRange kvs ⟨0, 0⟩ ⟨inInt64_zero, inInt64_zero⟩
  | _ => exact ⟨inInt64_zero, inInt64_zero⟩

theorem decodeValue64_valueJson (v : HashIndexValue) (h1 : inInt64 v.Location)
    (h2 : inInt64 v.Max) : decodeValue64 (valueJson v) = v := by
  have e1 : foldEq nameLocation nameLocation = true := by decide
  have e2 : foldEq nameMax nameLocation = false := by decide
  have e3 : foldEq nameMax nameMax = true := by decide
  unfold inInt64 at h1 h2
  simp [decodeValue64, valueJson, decodeField64, e1, e2, e3, decodeInt64, h1, h2]

theorem keys_set (t t2 : Entries) (k : Bytes) (v v2 : HashIndexValue)
    (h : t.map Prod.fst = t2.map Prod.fst) :
    (t.set k v).map Prod.fst = (t2.set k v2).map Prod.fst := by
  induction t generalizing t2 with
  | nil =>
    cases t2 with
    | nil => rfl
    | cons y t2 => cases h
  | cons x t ih =>
    cases t2 with
    | nil => cases h
    | cons y t2 =>
      obtain ⟨k1, w1⟩ := x
      obtain ⟨k2, w2⟩ := y
      simp only [List.map_cons, List.cons.injEq] at h
      obtain ⟨hk, ht⟩ := h
      subst hk
      simp only [Entries.set]
      by_cases h1 : k = k1
      · rw [if_pos h1, if_pos h1]
        simp only [List.map_cons, ht]
      · rw [if_neg h1, if_neg h1]
        by_cases h2 : bytesLt k k1 = true
        · rw [if_pos h2, if_pos h2]
          simp only [List.map_cons, ht]
        · rw [if_neg h2, if_neg h2]
          simp only [List.map_cons, ih t2 ht]

theorem keys_foldl (g g2 : JVal → HashIndexValue) (l : List (Bytes × JVal))
    (acc acc2 : Entries) (h : acc.map Prod.fst = acc2.map Prod.fst) :
    (l.foldl (fun t m => Entries.set t m.1 (g m.2)) acc).map Prod.fst =
      (l.foldl (fun t m => Entries.set t m.1 (g2 m.2)) acc2).map Prod.fst := by
  induction l generalizing acc acc2 with
  | nil => exact h
  | cons m l ih => exact ih _ _ (keys_set acc acc2 m.1 _ _ h)

/-- The keys that are loaded do not depend on the width of `int`. -/
theorem jsonUnmarshal64_keys (data : Bytes) (t : Entries)
    (h : jsonUnmarshal64 data = HashTable.map t) :
    ∃ t0, jsonUnmarshal data = HashTable.map t0 ∧ t.map Prod.fst = t0.map Prod.fst := by
  unfold jsonUnmarshal64 at h
  unfold jsonUnmarshal
  cases hl : lexTokens data with
  | none =>
    rw [hl] at h
    injection h with h
    exact ⟨[], rfl, by rw [← h]⟩
  | some toks =>
    rw [hl] at h
    simp only at h ⊢
    cases hp : parseValue toks with
    | none =>
      rw [hp] at h
      injection h with h
      exact ⟨[], rfl, by rw [← h]⟩
    | some v =>
      rw [hp] at h
      simp only at h ⊢
      cases v with
      | obj kvs =>
        simp only [decodeTable64] at h
        injection h with h
        refine ⟨_, rfl, ?_⟩
        rw [← h]
        exact keys_foldl decodeValue64 decodeValue kvs [] [] rfl
      | null => cases h
      | _ =>
        simp only [decodeTable64] at h
        injection h with h
        exact ⟨[], rfl, by rw [← h]⟩

theorem sorted_of_keys (t t0 : Entries) (h : t.map Prod.fst = t0.map Prod.fst)
    (hs : t0.Sorted) : t.Sorted := by
  unfold Entries.Sorted at hs ⊢
  have h1 : List.Pairwise (fun a b : Bytes => bytesLt a b = true) (t0.map Prod.fst) :=
    List.pairwise_map.mpr hs
  rw [← h] at h1
  exact List.pairwise_map.mp h1

theorem validKeys_of_keys (t t0 : Entries) (h : t.map Prod.fst = t0.map Prod.fst)
    (hv : t0.ValidKeys) : t.ValidKeys := by
  intro e he
  have h1 : e.1 ∈ t.map Prod.fst := List.mem_map.mpr ⟨e, he, rfl⟩
  rw [h] at h1
  obtain ⟨e0, he0, h0⟩ := List.mem_map.mp h1
  rw [← h0]
  exact hv e0 he0

/-- What is loaded has ascending keys, whatever the file holds. -/
theorem jsonUnmarshal64_sorted (data : Bytes) (t : Entries)
    (h : jsonUnmarshal64 data = HashTable.map t) : t.Sorted := by
  obtain ⟨t0, h0, hk⟩ := jsonUnmarshal64_keys data t h
  exact sorted_of_keys t t0 hk (jsonUnmarshal_sorted data t0 h0)

/-- The keys of a loaded table are valid UTF-8, whatever the file holds. -/
theorem jsonUnmarshal64_validKeys (data : Bytes) (t : Entries)
    (h : jsonUnmarshal64 data = HashTable.map t) : t.ValidKeys := by
  obtain ⟨t0, h0, hk⟩ := jsonUnmarshal64_keys data t h
  exact validKeys_of_keys t t0 hk (jsonUnmarshal_validKeys data t0 h0)

theorem foldl_set_vals (P : HashIndexValue → Prop) (g : JVal → HashIndexValue)
    (hg : ∀ j, P (g j)) (l : List (Bytes × JVal)) (acc : Entries)
    (hacc : ∀ x ∈ acc, P x.2) :
    ∀ x ∈ l.foldl (fun t m => Entries.set t m.1 (g m.2)) acc, P x.2 := by
  induction l generalizing acc with
  | nil => exact hacc
  | cons m l ih =>
    refine ih _ ?_
    intro x hx
    rcases mem_set acc m.1 _ x hx with h1 | h1
    · rw [h1]
      exact hg _
    · exact hacc x h1

/-- The fields of a loaded table are values of `int`, whatever the file
holds. -/
theorem jsonUnmarshal64_inRange (data : Bytes) (t : Entries)
    (h : jsonUnmarshal64 data = HashTable.map t) : t.InRange := by
  unfold jsonUnmarshal64 at h
  cases hl : lexTokens data with
  | none =>
    rw [hl] at h
    injection h with h
    subst h
    intro e he
    cases he
  | some toks =>
    rw [hl] at h
    simp only at h
    cases hp : parseValue toks with
    | none =>
      rw [hp] at h
      injection h with h
      subst h
      intro e he
      cases he
    | some v =>
      rw [hp] at h
      simp only at h
      cases v with
      | obj kvs =>
        simp only [decodeTable64] at h
        injection h with h
        subst h
        exact foldl_set_vals (fun e => inInt64 e.Location ∧ inInt64 e.Max) decodeValue64
          decodeValue64_inRange kvs [] (fun x hx => by cases hx)
      | null => cases h
      | _ =>
        simp only [decodeTable64] at h
        injection h with h
        subst h
        intro e he
        cases he

theorem coerceKeys_inRange (t : Entries) (h : t.InRange) : (coerceKeys t).InRange := by
  intro e he
  unfold coerceKeys at he
  obtain ⟨x, hx, hxe⟩ := List.mem_map.mp he
  rw [← hxe]
  exact h x hx

theorem set_inRange (t : Entries) (k : Bytes) (v : HashIndexValue) (h : t.InRange)
    (h1 : inInt64 v.Location) (h2 : inInt64 v.Max) : (t.set k v).InRange := by
  intro e he
  rcases mem_set t k v e he with h3 | h3
  · rw [h3]
    exact ⟨h1, h2⟩
  · exact h e h3

/-- Loading what was saved gives the map of the entries with their keys
coerced to valid UTF-8, when the fields are values of `int`. -/
theorem jsonUnmarshal64_marshalObject_coerce (t : Entries) (hr : t.InRange) :
    jsonUnmarshal64 (marshalObject t) =
      HashTable.map ((coerceKeys t).foldl (fun a m => Entries.set a m.1 m.2) []) := by
  unfold jsonUnmarshal64
  rw [lexTokens_marshalObject]
  simp only [parseValue_tokens, decodeTable64]
  rw [List.foldl_map]
  congr 1
  apply List.foldl_ext
  intro a b hb
  have hb2 := coerceKeys_inRange t hr b hb
  simp only [decodeValue64_valueJson b.2 hb2.1 hb2.2]

/-- Loading what was saved gives the map back, when its keys are valid UTF-8
and its fields are values of `int`. -/
theorem jsonUnmarshal64_marshalObject (t : Entries) (h : t.Sorted) (hv : t.ValidKeys)
    (hr : t.InRange) : jsonUnmarshal64 (marshalObject t) = HashTable.map t := by
  rw [jsonUnmarshal64_marshalObject_coerce t hr, coerceKeys_valid t hv]
  congr 1
  simpa using foldl_set_sorted [] t (by simpa using h)

theorem getIndexes64_eq (hf : DB) :
    hf.getIndexes64 = Except.ok (jsonUnmarshal64 hf.indexf) := rfl

theorem Write64_map (hf : DB) (t : Entries) (k v : Bytes)
    (ht : jsonUnmarshal64 hf.indexf = HashTable.map t) :
    hf.Write64 AppendOutcome.written k v = Except.ok (true, stateAfterWrite64 hf t k v) := by
  simp only [DB.Write64, fileWrite, DB.index64, getIndexes64_eq, ht, HashTable.assign,
    jsonMarshal]
  rfl

theorem Write64_nil (hf : DB) (k v : Bytes) (ht : jsonUnmarshal64 hf.indexf = HashTable.nil) :
    hf.Write64 AppendOutcome.written k v = Except.error Fault.panic := by
  simp only [DB.Write64, fileWrite, DB.index64, getIndexes64_eq, ht, HashTable.assign]
  rfl

theorem Write64_failed (hf : DB) (n : Nat) (k v : Bytes) :
    hf.Write64 (AppendOutcome.failed n) k v =
      Except.ok (false, { hf with f := hf.f ++ (record k v).take n }) := rfl

theorem Write64_true (hf hf1 : DB) (out : AppendOutcome) (k v : Bytes)
    (h : hf.Write64 out k v = Except.ok (true, hf1)) :
    out = AppendOutcome.written ∧
      ∃ t, jsonUnmarshal64 hf.indexf = HashTable.map t ∧ hf1 = stateAfterWrite64 hf t k v := by
  cases out with
  | written =>
    cases ht : jsonUnmarshal64 hf.indexf with
    | nil => rw [Write64_nil hf k v ht] at h; cases h
    | map t =>
      rw [Write64_map hf t k v ht] at h
      injection h with h
      injection h with _ h
      exact ⟨rfl, t, rfl, h.symm⟩
  | failed n =>
    rw [Write64_failed] at h
    injection h with h
    injection h with h _
    cases h

theorem writeAll64_cons (hf : DB) (k v : Bytes) (ws : List (Bytes × Bytes)) :
    writeAll64 hf ((k, v) :: ws) =
      match hf.Write64 AppendOutcome.written k v with
      | Except.error e => Except.error e
      | Except.ok (_, hf1) => writeAll64 hf1 ws := rfl

/-- After a write under any key that does not take the cached length out of
the range of `int`, the index loads as a map, and every entry of it is the
entry of the write or an entry of the index before the write. -/
theorem jsonUnmarshal64_after_write_mem (hf : DB) (t : Entries) (k v : Bytes)
    (ht : t.InRange) (hb : inInt64 hf.byteSize) :
    ∃ t1, jsonUnmarshal64 (stateAfterWrite64 hf t k v).indexf = HashTable.map t1 ∧
      ∀ x ∈ t1, x.2 = HashIndexValue.mk hf.byteSize
          (wrapInt (hf.byteSize + ((record k v).length : Int))) ∨ ∃ k0, (k0, x.2) ∈ t := by
  refine ⟨_, jsonUnmarshal64_marshalObject_coerce _
    (set_inRange t k _ ht hb (inInt64_wrapInt _)), ?_⟩
  intro x hx
  rcases foldl_set_mem _ _ _ hx with h1 | h1
  · cases h1
  · unfold coerceKeys at h1
    obtain ⟨y, hy, hyx⟩ := List.mem_map.mp h1
    rw [← hyx]
    rcases mem_set t k _ y hy with h2 | h2
    · left
      rw [h2]
    · right
      exact ⟨y.1, h2⟩

/-- A property of entries that every entry of the index has, and that the
entry of each write has (it starts at a cached length that is not negative and
ends within the range of `int`), holds for every entry of the index after the
writes, when the cached length and the bytes written stay within the range of
`int`; the cached length stays not negative. -/
theorem writeAll64_entries (P : HashIndexValue → Prop) (ws : List (Bytes × Bytes)) :
    ∀ (hf hf1 : DB), 0 ≤ hf.byteSize →
      hf.byteSize + (recordsLength ws : Int) ≤ 9223372036854775807 →
      (∀ t, jsonUnmarshal64 hf.indexf = HashTable.map t → ∀ x ∈ t, P x.2) →
      (∀ w ∈ ws, ∀ b : Int, 0 ≤ b →
        b + ((record w.1 w.2).length : Int) ≤ 9223372036854775807 →
        P (HashIndexValue.mk b (b + ((record w.1 w.2).length : Int)))) →
      writeAll64 hf ws = Except.ok hf1 →
      0 ≤ hf1.byteSize ∧
        ∀ t, jsonUnmarshal64 hf1.indexf = HashTable.map t → ∀ x ∈ t, P x.2 := by
  induction ws with
  | nil =>
    intro hf hf1 hb _ hP _ hrun
    simp only [writeAll64] at hrun
    injection hrun with hrun
    subst hrun
    exact ⟨hb, hP⟩
  | cons w ws ih =>
    obtain ⟨k, v⟩ := w
    intro hf hf1 hb hfit hP hnew hrun
    rw [writeAll64_cons] at hrun
    rw [recordsLength_cons] at hfit
    have hlen : (record k v).length = k.length + 1 + v.length := record_length k v
    have hin : inInt64 (hf.byteSize + ((record k v).length : Int)) := by
      unfold inInt64
      push_cast at hfit
      omega
    have hbin : inInt64 hf.byteSize := by
      unfold inInt64
      push_cast at hfit
      omega
    cases ht : jsonUnmarshal64 hf.indexf with
    | nil =>
      rw [Write64_nil hf k v ht] at hrun
      cases hrun
    | map t =>
      rw [Write64_map hf t k v ht] at hrun
      simp only at hrun
      have hsize : (stateAfterWrite64 hf t k v).byteSize =
          hf.byteSize + ((record k v).length : Int) := wrapInt_eq _ hin
      refine ih (stateAfterWrite64 hf t k v) hf1 ?_ ?_ ?_
        (fun w hw => hnew w (List.mem_cons_of_mem _ hw)) hrun
      · rw [hsize]
        omega
      · rw [hsize]
        push_cast at hfit
        omega
      · intro t1 ht1 x hx
        obtain ⟨t2, ht2, hmem⟩ := jsonUnmarshal64_after_write_mem hf t k v
          (jsonUnmarshal64_inRange hf.indexf t ht) hbin
        rw [ht2] at ht1
        injection ht1 with ht1
        subst ht1
        rcases hmem x hx with h1 | ⟨k0, h1⟩
        · rw [h1, wrapInt_eq _ hin]
          refine hnew (k, v) (List.mem_cons_self _ _) hf.byteSize hb ?_
          unfold inInt64 at hin
          exact hin.2
        · exact hP t ht (k0, x.2) h1


/-! ## Lemmas: the functions without bound and the functions with `int` of 64 bits

Where no integer leaves the range of `int`, the two are the same. -/

theorem decodeInt_agree (old old64 : Int) (j : JVal) (h : inInt64 old → old64 = old) :
    inInt64 (decodeInt old j) → decodeInt64 old64 j = decodeInt old j := by
  cases j with
  | num v =>
    cases v with
    | none => exact h
    | some n =>
      intro hn
      simp only [decodeInt] at hn ⊢
      simp only [decodeInt64]
      unfold inInt64 at hn
      rw [if_pos hn]
  | _ => exact h

theorem decodeField_agree (a a64 : HashIndexValue) (m : Bytes × JVal) (h : Agree a a64) :
    Agree (decodeField a m) (decodeField64 a64 m) := by
  unfold decodeField decodeField64
  by_cases h1 : foldEq m.1 nameLocation = true
  · rw [if_pos h1, if_pos h1]
    exact ⟨decodeInt_agree _ _ _ h.1, h.2⟩
  · rw [if_neg h1, if_neg h1]
    by_cases h2 : foldEq m.1 nameMax = true
    · rw [if_pos h2, if_pos h2]
      exact ⟨h.1, decodeInt_agree _ _ _ h.2⟩
    · rw [if_neg h2, if_neg h2]
      exact h

theorem foldl_decodeField_agree (kvs : List (Bytes × JVal)) (a a64 : HashIndexValue)
    (h : Agree a a64) : Agree (kvs.foldl decodeField a) (kvs.foldl decodeField64 a64) := by
  induction kvs generalizing a a64 with
  | nil => exact h
  | cons m kvs ih => exact ih _ _ (decodeField_agree a a64 m h)

theorem decodeValue_agree (j : JVal) : Agree (decodeValue j) (decodeValue64 j) := by
  cases j with
  | obj kvs => exact foldl_decodeField_agree kvs ⟨0, 0⟩ ⟨0, 0⟩ ⟨fun _ => rfl, fun _ => rfl⟩
  | _ => exact ⟨fun _ => rfl, fun _ => rfl⟩

theorem set_agree (t t64 : Entries) (k : Bytes) (v v64 : HashIndexValue)
    (h : Entries.Agree t t64) (hv : Agree v v64) :
    Entries.Agree (t.set k v) (t64.set k v64) := by
  unfold Entries.Agree at h ⊢
  induction h with
  | nil => exact List.Forall₂.cons ⟨rfl, hv⟩ List.Forall₂.nil
  | cons hxy hrest ih =>
    rename_i x y l l64
    obtain ⟨k1, w1⟩ := x
    obtain ⟨k2, w2⟩ := y
    obtain ⟨hk, hw⟩ := hxy
    simp only at hk hw
    subst hk
    simp only [Entries.set]
    by_cases h1 : k = k1
    · rw [if_pos h1, if_pos h1]
      exact List.Forall₂.cons ⟨rfl, hv⟩ hrest
    · rw [if_neg h1, if_neg h1]
      by_cases h2 : bytesLt k k1 = true
      · rw [if_pos h2, if_pos h2]
        exact List.Forall₂.cons ⟨rfl, hv⟩ (List.Forall₂.cons ⟨rfl, hw⟩ hrest)
      · rw [if_neg h2, if_neg h2]
        exact List.Forall₂.cons ⟨rfl, hw⟩ ih

theorem foldl_set_agree (l : List (Bytes × JVal)) (acc acc64 : Entries)
    (h : Entries.Agree acc acc64) :
    Entries.Agree (l.foldl (fun t m => Entries.set t m.1 (decodeValue m.2)) acc)
      (l.foldl (fun t m => Entries.set t m.1 (decodeValue64 m.2)) acc64) := by
  induction l generalizing acc acc64 with
  | nil => exact h
  | cons m l ih => exact ih _ _ (set_agree acc acc64 m.1 _ _ h (decodeValue_agree m.2))

theorem agree_eq (t : Entries) :
    ∀ t64 : Entries, Entries.Agree t t64 → t.InRange → t64 = t := by
  induction t with
  | nil =>
    intro t64 h _
    cases h
    rfl
  | cons x l ih =>
    intro t64 h hr
    cases h with
    | cons hxy hrest =>
      rename_i y l64
      obtain ⟨k1, w1⟩ := x
      obtain ⟨k2, w2⟩ := y
      obtain ⟨hk, hw⟩ := hxy
      simp only at hk hw
      have hx := hr (k1, w1) (List.mem_cons_self _ _)
      have h1 := hw.1 hx.1
      have h2 := hw.2 hx.2
      have hw2 : w2 = w1 := by
        cases w1
        cases w2
        simp only at h1 h2
        rw [h1, h2]
      rw [← hk, hw2, ih l64 hrest (fun e he => hr e (List.mem_cons_of_mem _ he))]

/-- An index file whose integers are all within the range of `int` loads
with `int` of 64 bits as it loads without bound. -/
theorem jsonUnmarshal64_eq (data : Bytes) (t : Entries)
    (h : jsonUnmarshal data = HashTable.map t) (hr : t.InRange) :
    jsonUnmarshal64 data = HashTable.map t := by
  unfold jsonUnmarshal at h
  unfold jsonUnmarshal64
  cases hl : lexTokens data with
  | none =>
    rw [hl] at h
    exact h
  | some toks =>
    rw [hl] at h
    simp only at h ⊢
    cases hp : parseValue toks with
    | none =>
      rw [hp] at h
      exact h
    | some v =>
      rw [hp] at h
      simp only at h ⊢
      cases v with
      | obj kvs =>
        simp only [decodeTable] at h
        injection h with h
        simp only [decodeTable64]
        congr 1
        subst h
        exact agree_eq _ _ (foldl_set_agree kvs [] [] List.Forall₂.nil) hr
      | null => cases h
      | _ => exact h

/-- A `Write` that keeps the cached length within the range of `int`, on an
index file whose integers are within the range, is the same with `int` of 64
bits as without bound. -/
theorem Write64_eq (hf : DB) (out : AppendOutcome) (k v : Bytes)
    (hidx : jsonUnmarshal64 hf.indexf = jsonUnmarshal hf.indexf)
    (hin : inInt64 (hf.byteSize + ((record k v).length : Int))) :
    hf.Write64 out k v = hf.Write out k v := by
  cases out with
  | failed n => rfl
  | written =>
    cases ht : jsonUnmarshal hf.indexf with
    | nil =>
      rw [Write_nil hf k v ht, Write64_nil hf k v (by rw [hidx, ht])]
    | map t =>
      rw [Write_map hf t k v ht, Write64_map hf t k v (by rw [hidx, ht])]
      unfold stateAfterWrite64 stateAfterWrite
      rw [wrapInt_eq _ hin]

/-- A `Read` of an entry whose range is within the range of `int`, on an index
file whose integers are within the range, is the same with `int` of 64 bits,
when the runtime has the memory, as without bound. -/
theorem Read64_eq (hf : DB) (key : Bytes)
    (hidx : jsonUnmarshal64 hf.indexf = jsonUnmarshal hf.indexf)
    (hin : inInt64 (((jsonUnmarshal hf.indexf).get key).Max -
      ((jsonUnmarshal hf.indexf).get key).Location)) :
    hf.Read64 AllocOutcome.granted key = hf.Read key := by
  unfold DB.Read64 DB.Read
  rw [getIndexes64_eq, getIndexes_eq, hidx]
  simp only
  rw [wrapInt_eq _ hin]

/-- Writes from a state reached by writes from the empty store are the same
with `int` of 64 bits as without bound, as long as the log stays shorter than
`2^63` bytes. -/
theorem writeAll64_eq_within (ws0 ws : List (Bytes × Bytes)) (hf : DB) (h : Within ws0 hf)
    (hfit : recordsLength ws0 + recordsLength ws ≤ 9223372036854775807) :
    writeAll64 hf ws = writeAll hf ws := by
  induction ws generalizing ws0 hf with
  | nil => rfl
  | cons w ws ih =>
    obtain ⟨k, v⟩ := w
    rw [recordsLength_cons] at hfit
    obtain ⟨t, ht, hw, hinv⟩ := Within_write ws0 hf k v h
    obtain ⟨hsize, hlen, t0, ht0, hent⟩ := h
    rw [ht] at ht0
    injection ht0 with ht0
    subst ht0
    have hr : t.InRange := by
      intro e he
      obtain ⟨a, b, c⟩ := hent e he
      unfold inInt64
      omega
    have hidx : jsonUnmarshal64 hf.indexf = jsonUnmarshal hf.indexf := by
      rw [ht]
      exact jsonUnmarshal64_eq hf.indexf t ht hr
    have hin : inInt64 (hf.byteSize + ((record k v).length : Int)) := by
      rw [record_length, hsize]
      unfold inInt64
      omega
    rw [writeAll64_cons, writeAll_cons, Write64_eq hf AppendOutcome.written k v hidx hin, hw]
    simp only
    refine ih (ws0 ++ [(k, v)]) _ hinv ?_
    have hrec := record_length k v
    rw [recordsLength_append]
    omega

/-- From the empty store, writes that make a log shorter than `2^63` bytes
are the same with `int` of 64 bits as without bound. -/
theorem writeAll64_eq (ws : List (Bytes × Bytes))
    (hfit : recordsLength ws ≤ 9223372036854775807) :
    writeAll64 emptyDB ws = writeAll emptyDB ws :=
  writeAll64_eq_within [] ws emptyDB Within_empty (by simpa [recordsLength] using hfit)

/-! ## The claims -/

set_option maxRecDepth 100000 in
/-- C1 as stated fails for a key that is not valid UTF-8.  On the empty store
`Write("\xff", "v")` returns `true`; `json.Marshal` writes the key as the
escape of U+FFFD, so the index file has an entry for U+FFFD and none for the
key, and the `Read("\xff")` that follows returns the empty string, not
`"v"`. -/
theorem C1_write_then_read_counterexample :
    emptyDB.byteSize = (emptyDB.f.length : Int) ∧ delim ∉ [(0xFF : UInt8)] ∧
      delim ∉ bytesOf "v" ∧
      emptyDB.Write AppendOutcome.written [0xFF] (bytesOf "v") =
        Except.ok (true, DB.mk [0xFF, 0x3A, 0x76]
          (bytesOf "\x7b\"\\ufffd\":\x7b\"Location\":0,\"Max\":3\x7d\x7d") 3) ∧
      (DB.mk [0xFF, 0x3A, 0x76]
          (bytesOf "\x7b\"\\ufffd\":\x7b\"Location\":0,\"Max\":3\x7d\x7d") 3).Read [0xFF] =
        Except.ok ([], DB.mk [0xFF, 0x3A, 0x76]
          (bytesOf "\x7b\"\\ufffd\":\x7b\"Location\":0,\"Max\":3\x7d\x7d") 3) ∧
      ([] : Bytes) ≠ bytesOf "v" := by
  decide

/-- C1, amended (round trip).  In a store whose cached length `byteSize` is
the length of the log, for a key that is valid UTF-8 and a value, both without
the delimiter `:` (their record is a Go string, of at most `maxAlloc` bytes),
when `Write(key, value)` returns `true` the `Read(key)` that follows returns
exactly `value`. -/
theorem C1_write_then_read (hf hf1 : DB) (out : AppendOutcome) (key value : Bytes)
    (hsize : hf.byteSize = (hf.f.length : Int)) (hkey : validUTF8 key = true)
    (_hk : delim ∉ key) (hv : delim ∉ value)
    (hfit : key.length + 1 + value.length ≤ maxAlloc)
    (hw : hf.Write out key value = Except.ok (true, hf1)) :
    hf1.Read key = Except.ok (value, hf1) := by
  obtain ⟨_, t, ht, h1⟩ := Write_true hf hf1 out key value hw
  subst h1
  rw [Read_after_write hf t key value ht hkey hsize (by rw [record_length]; exact hfit)]
  have hlast : (split delim (record key value)).getLast? = some value := by
    unfold record
    rw [List.append_assoc]
    exact getLast?_split_record key value hv
  rw [hlast]

set_option maxRecDepth 100000 in
/-- C1, the scenario of `TestWriteAndRead`: `Write("name", "phirmware")` on the
empty store returns `true`, and the `Read("name")` after it returns
`"phirmware"`. -/
theorem C1_write_then_read_witness :
    emptyDB.byteSize = (emptyDB.f.length : Int) ∧ validUTF8 testKey = true ∧
      delim ∉ testKey ∧ delim ∉ testValue ∧
      testKey.length + 1 + testValue.length ≤ maxAlloc ∧
      emptyDB.Write AppendOutcome.written testKey testValue = Except.ok (true, storeAfterName) ∧
      storeAfterName.Read testKey = Except.ok (testValue, storeAfterName) :=
  ⟨by decide, by decide, by decide, by decide, by decide, by decide,
    C1_write_then_read emptyDB storeAfterName AppendOutcome.written testKey testValue
      (by decide) (by decide) (by decide) (by decide) (by decide) (by decide)⟩

set_option maxRecDepth 100000 in
/-- C2 as stated fails when a key that is not valid UTF-8 was written.  After
`Write("\xff", "v")` on the empty store the index has the key U+FFFD
(`EF BF BD`) with the range from 0 to 3.  No write was made for that key, and
the bytes of the log in the range are `FF 3A 76`, which do not start with the
key. -/
theorem C2_index_invariant_counterexample :
    writeAll emptyDB [([0xFF], bytesOf "v")] =
        Except.ok (DB.mk [0xFF, 0x3A, 0x76]
          (bytesOf "\x7b\"\\ufffd\":\x7b\"Location\":0,\"Max\":3\x7d\x7d") 3) ∧
      (DB.mk [0xFF, 0x3A, 0x76]
          (bytesOf "\x7b\"\\ufffd\":\x7b\"Location\":0,\"Max\":3\x7d\x7d") 3).getIndexes =
        Except.ok (HashTable.map [([0xEF, 0xBF, 0xBD], ⟨0, 3⟩)]) ∧
      (HashTable.map [([0xEF, 0xBF, 0xBD], ⟨0, 3⟩)]).find? [0xEF, 0xBF, 0xBD] = some ⟨0, 3⟩ ∧
      lastValue [0xEF, 0xBF, 0xBD] [([0xFF], bytesOf "v")] = none ∧
      slice [0xFF, 0x3A, 0x76] 0 3 = [0xFF, 0x3A, 0x76] ∧
      (slice [0xFF, 0x3A, 0x76] 0 3).take 3 ≠ [0xEF, 0xBF, 0xBD] := by
  decide

/-- C2, amended (index invariant).  The writes `ws`, under keys that are valid
UTF-8 and each with a successful append, run from the empty store to a state;
there, for every key `k` that the index has an entry for, the bytes of the log
from `Location` to `Max` of the entry are `k + ":" + v`, where `v` is the
value of the last write to `k`. -/
theorem C2_index_invariant (ws : List (Bytes × Bytes))
    (hvalid : ∀ w ∈ ws, validUTF8 w.1 = true) :
    ∃ hf t, writeAll emptyDB ws = Except.ok hf ∧ hf.getIndexes = Except.ok t ∧
      ∀ k e, t.find? k = some e →
        ∃ v, lastValue k ws = some v ∧ slice hf.f e.Location e.Max = k ++ [delim] ++ v := by
  obtain ⟨hf, hrun, _, _, t, ht, hent⟩ := writeAll_from_empty ws hvalid
  refine ⟨hf, HashTable.map t, hrun, ?_, ?_⟩
  · rw [getIndexes_eq, ht]
  · intro k e he
    obtain ⟨pre, v, post, hl, hf_eq, hloc, hmax⟩ := hent k e he
    refine ⟨v, hl, ?_⟩
    rw [hf_eq, hloc, hmax]
    exact slice_inside pre (record k v) post

/-- C2, amended, after three writes, two of them to the key `name`. -/
theorem C2_index_invariant_witness :
    (∀ w ∈ [(testKey, testValue), (bytesOf "k", bytesOf "v"), (testKey, bytesOf "x")],
        validUTF8 w.1 = true) ∧
    ∃ hf t,
      writeAll emptyDB [(testKey, testValue), (bytesOf "k", bytesOf "v"),
        (testKey, bytesOf "x")] = Except.ok hf ∧
      hf.getIndexes = Except.ok t ∧
      ∀ k e, t.find? k = some e →
        ∃ v, lastValue k [(testKey, testValue), (bytesOf "k", bytesOf "v"),
            (testKey, bytesOf "x")] = some v ∧
          slice hf.f e.Location e.Max = k ++ [delim] ++ v :=
  ⟨by decide, C2_index_invariant _ (by decide)⟩

/-- C3 (range accounting).  The writes `ws`, under any keys and each with a
successful append, run from the empty store to a state, and the write of
`(k, v)` after them returns `true`.  The entry `e` that this write records for
`k` (the index file afterwards is `json.Marshal` of the index before the write
with `k` set to `e`) has `Max - Location = len(k) + 1 + len(v)`, and its
`Location` is the sum of the lengths `len(k_j) + 1 + len(v_j)` of the records
of `ws`.  When `k` is valid UTF-8, `e` is the entry of `k` in the index that
is loaded afterwards. -/
theorem C3_range_accounting (ws : List (Bytes × Bytes)) (k v : Bytes) :
    ∃ hf0 t0 hf e, writeAll emptyDB ws = Except.ok hf0 ∧
      hf0.getIndexes = Except.ok (HashTable.map t0) ∧
      hf0.Write AppendOutcome.written k v = Except.ok (true, hf) ∧
      writeAll emptyDB (ws ++ [(k, v)]) = Except.ok hf ∧
      hf.indexf = jsonMarshal (HashTable.map (t0.set k e)) ∧
      e.Max - e.Location = ((k.length + 1 + v.length : Nat) : Int) ∧
      e.Location = ((recordsLength ws : Nat) : Int) ∧
      (validUTF8 k = true → ∃ t, hf.getIndexes = Except.ok t ∧ t.find? k = some e) := by
  obtain ⟨hf0, hrun, hwithin⟩ := writeAll_from_empty_within ws
  have hsize := hwithin.1
  have hlen := hwithin.2.1
  obtain ⟨t0, ht0, hw, _⟩ := Within_write ws hf0 k v hwithin
  refine ⟨hf0, t0, stateAfterWrite hf0 t0 k v,
    { Location := hf0.byteSize, Max := hf0.byteSize + ((record k v).length : Int) },
    hrun, ?_, hw, ?_, rfl, ?_, ?_, ?_⟩
  · rw [getIndexes_eq, ht0]
  · rw [writeAll_append, hrun]
    simp only [writeAll, hw]
  · simp [record_length]
  · show hf0.byteSize = _
    rw [hsize, hlen]
  · intro hk
    refine ⟨HashTable.map (t0.set k
      { Location := hf0.byteSize, Max := hf0.byteSize + ((record k v).length : Int) }),
      ?_, find?_set_eq _ _ _⟩
    rw [getIndexes_eq, jsonUnmarshal_after_write hf0 t0 k v ht0 hk]

/-- C3, the check of `TestWriteAndRead`: the first write, of `("name",
"phirmware")`, records for `name` the entry with `Location` 0 and `Max` 14. -/
theorem C3_range_accounting_witness :
    ∃ hf e t, writeAll emptyDB ([] ++ [(testKey, testValue)]) = Except.ok hf ∧
      e.Max - e.Location = 14 ∧ e.Location = 0 ∧
      hf.getIndexes = Except.ok t ∧ t.find? testKey = some e := by
  obtain ⟨_, _, hf, e, _, _, _, h4, _, h6, h7, h8⟩ := C3_range_accounting [] testKey testValue
  obtain ⟨t, h9, h10⟩ := h8 (by decide)
  exact ⟨hf, e, t, h4, h6, h7, h9, h10⟩

set_option maxRecDepth 100000 in
/-- C4 as stated fails for a second key that is not valid UTF-8.  After
`Write("\ufffd", "a")` on the empty store the key U+FFFD (`EF BF BD`) has the
entry from 0 to 5 and `Read` of it returns `"a"`.  The key `"\xff"` is another
key; `Write("\xff", "b")` returns `true`, and `json.Marshal` writes that key
as the escape of U+FFFD after the member of the first key, so the index that
is loaded afterwards has the entry from 5 to 8 for U+FFFD, and `Read` of it
returns `"b"`. -/
theorem C4_multi_key_isolation_counterexample :
    writeAll emptyDB [([0xEF, 0xBF, 0xBD], bytesOf "a")] =
        Except.ok (DB.mk (bytesOf "\uFFFD:a")
          (bytesOf "\x7b\"\uFFFD\":\x7b\"Location\":0,\"Max\":5\x7d\x7d") 5) ∧
      (DB.mk (bytesOf "\uFFFD:a")
          (bytesOf "\x7b\"\uFFFD\":\x7b\"Location\":0,\"Max\":5\x7d\x7d") 5).getIndexes =
        Except.ok (HashTable.map [([0xEF, 0xBF, 0xBD], ⟨0, 5⟩)]) ∧
      ([0xFF] : Bytes) ≠ [0xEF, 0xBF, 0xBD] ∧
      (DB.mk (bytesOf "\uFFFD:a")
          (bytesOf "\x7b\"\uFFFD\":\x7b\"Location\":0,\"Max\":5\x7d\x7d") 5).Write
          AppendOutcome.written [0xFF] (bytesOf "b") =
        Except.ok (true, DB.mk (bytesOf "\uFFFD:a" ++ [0xFF, 0x3A, 0x62])
          (bytesOf ("\x7b\"\uFFFD\":\x7b\"Location\":0,\"Max\":5\x7d," ++
            "\"\\ufffd\":\x7b\"Location\":5,\"Max\":8\x7d\x7d")) 8) ∧
      (DB.mk (bytesOf "\uFFFD:a" ++ [0xFF, 0x3A, 0x62])
          (bytesOf ("\x7b\"\uFFFD\":\x7b\"Location\":0,\"Max\":5\x7d," ++
            "\"\\ufffd\":\x7b\"Location\":5,\"Max\":8\x7d\x7d")) 8).getIndexes =
        Except.ok (HashTable.map [([0xEF, 0xBF, 0xBD], ⟨5, 8⟩)]) ∧
      ((DB.mk (bytesOf "\uFFFD:a")
          (bytesOf "\x7b\"\uFFFD\":\x7b\"Location\":0,\"Max\":5\x7d\x7d") 5).Read
          [0xEF, 0xBF, 0xBD]).map Prod.fst = Except.ok (bytesOf "a") ∧
      ((DB.mk (bytesOf "\uFFFD:a" ++ [0xFF, 0x3A, 0x62])
          (bytesOf ("\x7b\"\uFFFD\":\x7b\"Location\":0,\"Max\":5\x7d," ++
            "\"\\ufffd\":\x7b\"Location\":5,\"Max\":8\x7d\x7d")) 8).Read
          [0xEF, 0xBF, 0xBD]).map Prod.fst = Except.ok (bytesOf "b") := by
  decide

/-- C4, amended (multi-key isolation).  In a state reached from the empty
store by writes with successful appends (the records written are Go strings,
of at most `maxAlloc` bytes), for a key `k1` with an entry in the index and
another key `k2` that is valid UTF-8, a `Write(k2, v2)` that returns `true`
leaves the entry of `k1` as it was, and `Read(k1)` returns the same string
after the write as before it. -/
theorem C4_multi_key_isolation (ws : List (Bytes × Bytes)) (hf hf1 : DB) (t : HashTable)
    (k1 k2 v2 : Bytes) (e : HashIndexValue) (out : AppendOutcome)
    (hfit : ∀ w ∈ ws, w.1.length + 1 + w.2.length ≤ maxAlloc)
    (hrun : writeAll emptyDB ws = Except.ok hf) (ht : hf.getIndexes = Except.ok t)
    (hk1 : t.find? k1 = some e) (hne : k2 ≠ k1) (hk2 : validUTF8 k2 = true)
    (hw : hf.Write out k2 v2 = Except.ok (true, hf1)) :
    (∃ t1, hf1.getIndexes = Except.ok t1 ∧ t1.find? k1 = some e) ∧
      ∃ s, hf.Read k1 = Except.ok (s, hf) ∧ hf1.Read k1 = Except.ok (s, hf1) := by
  have hsmall := (writeAll_entries (fun x => x.Max - x.Location ≤ (maxAlloc : Int)) ws
    emptyDB hf (by decide)
    (by
      intro t1 ht1 x hx
      have he : jsonUnmarshal emptyDB.indexf = HashTable.map [] := by decide
      rw [he] at ht1
      injection ht1 with ht1
      subst ht1
      cases hx)
    (by
      intro w hw b _
      have := hfit w hw
      simp only [record_length]
      omega)
    hrun).2
  obtain ⟨hf', hrun', _, _, t0, ht0, hent⟩ := writeAll_from_empty_within ws
  rw [hrun] at hrun'
  injection hrun' with hrun'
  subst hrun'
  rw [getIndexes_eq, ht0] at ht
  injection ht with ht
  subst ht
  obtain ⟨h0, h1, h2⟩ : 0 ≤ e.Location ∧ e.Location ≤ e.Max ∧ e.Max ≤ (hf.f.length : Int) :=
    hent (k1, e) (mem_of_find? t0 k1 e hk1)
  have h3 : e.Max - e.Location ≤ (maxAlloc : Int) :=
    hsmall t0 ht0 (k1, e) (mem_of_find? t0 k1 e hk1)
  obtain ⟨_, t2, ht2, hst⟩ := Write_true hf hf1 out k2 v2 hw
  rw [ht0] at ht2
  injection ht2 with ht2
  subst ht2
  have hidx := jsonUnmarshal_after_write hf t0 k2 v2 ht0 hk2
  rw [← hst] at hidx
  have hfind : (jsonUnmarshal hf1.indexf).find? k1 = some e := by
    rw [hidx]
    show Entries.find? _ k1 = some e
    rw [find?_set_ne _ _ _ _ (fun h => hne h.symm)]
    exact hk1
  have hfind0 : (jsonUnmarshal hf.indexf).find? k1 = some e := by
    rw [ht0]; exact hk1
  have hlog1 : hf1.f = hf.f ++ record k2 v2 := by
    rw [hst]; rfl
  have hlen1 : e.Max ≤ (hf1.f.length : Int) := by
    rw [hlog1, List.length_append]
    push_cast
    omega
  have hslice : slice hf1.f e.Location e.Max = slice hf.f e.Location e.Max := by
    rw [hlog1]
    exact slice_append _ _ _ _ h1 h2
  refine ⟨⟨_, rfl, hfind⟩, ?_⟩
  cases hs : (split delim (slice hf.f e.Location e.Max)).getLast? with
  | none =>
    have := split_ne_nil delim (slice hf.f e.Location e.Max)
    simp [List.getLast?_eq_none_iff] at hs
    exact absurd hs this
  | some s =>
    refine ⟨s, ?_, ?_⟩
    · rw [Read_within hf k1 e (get_of_find? _ _ _ hfind0) h0 h1 h2 h3, hs]
    · rw [Read_within hf1 k1 e (get_of_find? _ _ _ hfind) h0 h1 hlen1 h3, hslice, hs]

set_option maxRecDepth 100000 in
/-- C4, amended, the scenario of `TestWriteAndRead`: after
`Write("name", "phirmware")`, the write of `("new-key", "value")` leaves the
entry of `name` and what `Read("name")` returns as they were. -/
theorem C4_multi_key_isolation_witness :
    (∀ w ∈ [(testKey, testValue)], w.1.length + 1 + w.2.length ≤ maxAlloc) ∧
      writeAll emptyDB [(testKey, testValue)] = Except.ok storeAfterName ∧
      storeAfterName.getIndexes = Except.ok (HashTable.map [(testKey, ⟨0, 14⟩)]) ∧
      (HashTable.map [(testKey, ⟨0, 14⟩)]).find? testKey = some ⟨0, 14⟩ ∧
      bytesOf "new-key" ≠ testKey ∧ validUTF8 (bytesOf "new-key") = true ∧
      storeAfterName.Write AppendOutcome.written (bytesOf "new-key") (bytesOf "value") =
        Except.ok (true, storeAfterNewKey) ∧
      ((∃ t1, storeAfterNewKey.getIndexes = Except.ok t1 ∧ t1.find? testKey = some ⟨0, 14⟩) ∧
        ∃ s, storeAfterName.Read testKey = Except.ok (s, storeAfterName) ∧
          storeAfterNewKey.Read testKey = Except.ok (s, storeAfterNewKey)) :=
  ⟨by decide, by decide, by decide, by decide, by decide, by decide, by decide,
    C4_multi_key_isolation [(testKey, testValue)] storeAfterName storeAfterNewKey
      (HashTable.map [(testKey, ⟨0, 14⟩)]) testKey (bytesOf "new-key") (bytesOf "value") ⟨0, 14⟩
      AppendOutcome.written (by decide) (by decide) (by decide) (by decide) (by decide)
      (by decide) (by decide)⟩

/-- C5 (missing key).  Whatever the log and the cached length are, `Read` of a
key that the index has no entry for returns the empty string, and it does
return. -/
theorem C5_read_missing_key (hf : DB) (key : Bytes) (t : HashTable)
    (ht : hf.getIndexes = Except.ok t) (habsent : t.find? key = none) :
    hf.Read key = Except.ok ([], hf) := by
  rw [getIndexes_eq] at ht
  injection ht with ht
  have hget : (jsonUnmarshal hf.indexf).get key = { Location := 0, Max := 0 } := by
    rw [ht]; simp [HashTable.get, habsent]
  unfold DB.Read
  rw [getIndexes_eq]
  simp only [hget]
  simp [readAt, split]

/-- C5 at the store of `TestWriteAndRead` after its first write, for a key
that was never written. -/
theorem C5_read_missing_key_witness :
    storeAfterName.getIndexes = Except.ok (HashTable.map [(testKey, ⟨0, 14⟩)]) ∧
      (HashTable.map [(testKey, ⟨0, 14⟩)]).find? (bytesOf "other") = none ∧
      storeAfterName.Read (bytesOf "other") = Except.ok ([], storeAfterName) :=
  ⟨by decide, by decide,
    C5_read_missing_key storeAfterName (bytesOf "other") (HashTable.map [(testKey, ⟨0, 14⟩)])
      (by decide) (by decide)⟩

set_option maxRecDepth 100000 in
/-- C6 as stated fails for a key that is not valid UTF-8.  On the empty store
`Write("\xff", "a:b")` returns `true`; the index file has an entry for U+FFFD
and none for the key, and the `Read("\xff")` that follows returns the empty
string, not the part `"b"` of the value after its last `:`. -/
theorem C6_delimiter_in_value_counterexample :
    emptyDB.byteSize = (emptyDB.f.length : Int) ∧ delim ∈ bytesOf "a:b" ∧
      emptyDB.Write AppendOutcome.written [0xFF] (bytesOf "a:b") =
        Except.ok (true, DB.mk ([0xFF, 0x3A] ++ bytesOf "a:b")
          (bytesOf "\x7b\"\\ufffd\":\x7b\"Location\":0,\"Max\":5\x7d\x7d") 5) ∧
      (DB.mk ([0xFF, 0x3A] ++ bytesOf "a:b")
          (bytesOf "\x7b\"\\ufffd\":\x7b\"Location\":0,\"Max\":5\x7d\x7d") 5).Read [0xFF] =
        Except.ok ([], DB.mk ([0xFF, 0x3A] ++ bytesOf "a:b")
          (bytesOf "\x7b\"\\ufffd\":\x7b\"Location\":0,\"Max\":5\x7d\x7d") 5) ∧
      bytesOf "a:b" = bytesOf "a" ++ delim :: bytesOf "b" ∧ delim ∉ bytesOf "b" ∧
      ([] : Bytes) ≠ bytesOf "b" := by
  decide

/-- C6, amended (a delimiter in the value is lossy).  In a store whose cached
length is the length of the log, for a key that is valid UTF-8 and a value
with at least one `:` (their record is a Go string, of at most `maxAlloc`
bytes), when `Write(key, value)` returns `true` the `Read(key)` that follows
returns the part of `value` after its last `:`, which is not `value`. -/
theorem C6_delimiter_in_value (hf hf1 : DB) (out : AppendOutcome) (key value : Bytes)
    (hsize : hf.byteSize = (hf.f.length : Int)) (hkey : validUTF8 key = true)
    (hv : delim ∈ value) (hfit : key.length + 1 + value.length ≤ maxAlloc)
    (hw : hf.Write out key value = Except.ok (true, hf1)) :
    ∃ pre suf, value = pre ++ delim :: suf ∧ delim ∉ suf ∧
      hf1.Read key = Except.ok (suf, hf1) ∧ suf ≠ value := by
  obtain ⟨pre, suf, hval, hsuf⟩ := exists_last_delim value hv
  refine ⟨pre, suf, hval, hsuf, ?_, ?_⟩
  · obtain ⟨_, t, ht, h1⟩ := Write_true hf hf1 out key value hw
    subst h1
    rw [Read_after_write hf t key value ht hkey hsize (by rw [record_length]; exact hfit)]
    have hlast : (split delim (record key value)).getLast? = some suf := by
      unfold record
      rw [hval]
      have : key ++ [delim] ++ (pre ++ delim :: suf) = (key ++ [delim] ++ pre) ++ delim :: suf := by
        simp
      rw [this]
      exact getLast?_split_record _ suf hsuf
    rw [hlast]
  · intro h
    have hlen : value.length = pre.length + 1 + suf.length := by
      rw [hval]; simp; omega
    rw [h] at hlen
    omega

set_option maxRecDepth 100000 in
/-- C6, amended, at the value `"a:b:c"`, written on the empty store under the
key `"k"`: what is read back is a part of the value without `:` and is not the
value. -/
theorem C6_delimiter_in_value_witness :
    emptyDB.byteSize = (emptyDB.f.length : Int) ∧ validUTF8 (bytesOf "k") = true ∧
      delim ∈ bytesOf "a:b:c" ∧
      (bytesOf "k").length + 1 + (bytesOf "a:b:c").length ≤ maxAlloc ∧
      emptyDB.Write AppendOutcome.written (bytesOf "k") (bytesOf "a:b:c") =
        Except.ok (true, DB.mk (bytesOf "k:a:b:c")
          (marshalObject [(bytesOf "k", ⟨0, 7⟩)]) 7) ∧
      ∃ pre suf, bytesOf "a:b:c" = pre ++ delim :: suf ∧ delim ∉ suf ∧
        (DB.mk (bytesOf "k:a:b:c") (marshalObject [(bytesOf "k", ⟨0, 7⟩)]) 7).Read (bytesOf "k") =
          Except.ok (suf, DB.mk (bytesOf "k:a:b:c") (marshalObject [(bytesOf "k", ⟨0, 7⟩)]) 7) ∧
        suf ≠ bytesOf "a:b:c" :=
  ⟨by decide, by decide, by decide, by decide, by decide,
    C6_delimiter_in_value emptyDB _ AppendOutcome.written (bytesOf "k") (bytesOf "a:b:c")
      (by decide) (by decide) (by decide) (by decide) (by decide)⟩

set_option maxRecDepth 100000 in
/-- C7 as stated fails for a key that is not valid UTF-8, and for a byte count
that takes the sum out of the range of `int`.  First, the index file holds
the entry from 0 to 5 for the key U+FFFD (`EF BF BD`) and the cached length
is 5.  `index("\xff", 3)` persists a text in which `json.Marshal` wrote the
key `"\xff"` as the escape of U+FFFD: the mapping that is persisted has no
entry for `"\xff"`, and the other key, U+FFFD, did not keep its entry, it has
the range from 5 to 8.  Second, over the index of `username` and the cached
length 18, `index("key", 9223372036854775807)` persists for `key` the entry
with `Max` -9223372036854775791, which is not 18 + 9223372036854775807. -/
theorem C7_index_merge_counterexample :
    ((DB.mk (bytesOf "\uFFFD:a")
        (bytesOf "\x7b\"\uFFFD\":\x7b\"Location\":0,\"Max\":5\x7d\x7d") 5).getIndexes64 =
      Except.ok (HashTable.map [([0xEF, 0xBF, 0xBD], ⟨0, 5⟩)]) ∧
    (DB.mk (bytesOf "\uFFFD:a")
        (bytesOf "\x7b\"\uFFFD\":\x7b\"Location\":0,\"Max\":5\x7d\x7d") 5).index64 [0xFF] 3 =
      Except.ok (DB.mk (bytesOf "\uFFFD:a")
        (bytesOf ("\x7b\"\uFFFD\":\x7b\"Location\":0,\"Max\":5\x7d," ++
          "\"\\ufffd\":\x7b\"Location\":5,\"Max\":8\x7d\x7d")) 5) ∧
    (DB.mk (bytesOf "\uFFFD:a")
        (bytesOf ("\x7b\"\uFFFD\":\x7b\"Location\":0,\"Max\":5\x7d," ++
          "\"\\ufffd\":\x7b\"Location\":5,\"Max\":8\x7d\x7d")) 5).getIndexes64 =
      Except.ok (HashTable.map [([0xEF, 0xBF, 0xBD], ⟨5, 8⟩)]) ∧
    (HashTable.map [([0xEF, 0xBF, 0xBD], ⟨5, 8⟩)]).find? [0xFF] = none ∧
    ([0xEF, 0xBF, 0xBD] : Bytes) ≠ [0xFF] ∧
    (HashTable.map [([0xEF, 0xBF, 0xBD], ⟨5, 8⟩)]).find? [0xEF, 0xBF, 0xBD] ≠
      (HashTable.map [([0xEF, 0xBF, 0xBD], ⟨0, 5⟩)]).find? [0xEF, 0xBF, 0xBD]) ∧
    (storeUsername.getIndexes64 =
      Except.ok (HashTable.map [(bytesOf "username", ⟨0, 18⟩)]) ∧
    storeUsername.byteSize = 18 ∧
    validUTF8 (bytesOf "key") = true ∧
    storeUsername.index64 (bytesOf "key") 9223372036854775807 =
      Except.ok { storeUsername with
        indexf := bytesOf ("\x7b\"key\":\x7b\"Location\":18,\"Max\":-9223372036854775791\x7d," ++
          "\"username\":\x7b\"Location\":0,\"Max\":18\x7d\x7d") } ∧
    ({ storeUsername with
        indexf := bytesOf ("\x7b\"key\":\x7b\"Location\":18,\"Max\":-9223372036854775791\x7d," ++
          "\"username\":\x7b\"Location\":0,\"Max\":18\x7d\x7d") } : DB).getIndexes64 =
      Except.ok (HashTable.map [(bytesOf "key", ⟨18, -9223372036854775791⟩),
        (bytesOf "username", ⟨0, 18⟩)]) ∧
    (HashTable.map [(bytesOf "key", ⟨18, -9223372036854775791⟩),
        (bytesOf "username", ⟨0, 18⟩)]).find? (bytesOf "key") ≠
      some { Location := 18, Max := 18 + 9223372036854775807 }) := by
  decide

/-- C7, amended (index merge).  For every mapping `I` that the index file
holds, cached length `b` (a value of `int`), key `k` that is valid UTF-8 and
byte count `n`, `index(k, n)` returns and persists the mapping that is `I`
except that `k` maps to the range from `b` to the sum of `b` and `n` in
`int`, which is `b + n` when `b + n` is within the range of `int`: loading the
index afterwards gives that entry for `k` and, for every other key, what `I`
has (an entry stays, no entry appears).  The log and the cached length are
not touched. -/
theorem C7_index_merge (hf : DB) (I : Entries) (k : Bytes) (n : Int)
    (hI : hf.getIndexes64 = Except.ok (HashTable.map I)) (hk : validUTF8 k = true)
    (hb : inInt64 hf.byteSize) :
    ∃ hf1 I1, hf.index64 k n = Except.ok hf1 ∧
      hf1.getIndexes64 = Except.ok (HashTable.map I1) ∧
      hf1.indexf = jsonMarshal (HashTable.map I1) ∧
      I1.find? k = some { Location := hf.byteSize, Max := wrapInt (hf.byteSize + n) } ∧
      (inInt64 (hf.byteSize + n) →
        I1.find? k = some { Location := hf.byteSize, Max := hf.byteSize + n }) ∧
      (∀ k2, k2 ≠ k → I1.find? k2 = I.find? k2) ∧
      hf1.f = hf.f ∧ hf1.byteSize = hf.byteSize := by
  rw [getIndexes64_eq] at hI
  injection hI with hI
  have hsorted := set_sorted I k
    { Location := hf.byteSize, Max := wrapInt (hf.byteSize + n) }
    (jsonUnmarshal64_sorted hf.indexf I hI)
  have hvalid := set_validKeys I k
    { Location := hf.byteSize, Max := wrapInt (hf.byteSize + n) }
    (jsonUnmarshal64_validKeys hf.indexf I hI) hk
  have hrange := set_inRange I k
    { Location := hf.byteSize, Max := wrapInt (hf.byteSize + n) }
    (jsonUnmarshal64_inRange hf.indexf I hI) hb (inInt64_wrapInt _)
  refine ⟨{ hf with indexf := marshalObject (I.set k
        { Location := hf.byteSize, Max := wrapInt (hf.byteSize + n) }) },
    I.set k { Location := hf.byteSize, Max := wrapInt (hf.byteSize + n) },
    ?_, ?_, rfl, find?_set_eq _ _ _, ?_, fun k2 h => find?_set_ne _ _ _ _ h, rfl, rfl⟩
  · simp only [DB.index64, getIndexes64_eq, hI, HashTable.assign, jsonMarshal]
  · rw [getIndexes64_eq]
    exact congrArg Except.ok (jsonUnmarshal64_marshalObject _ hsorted hvalid hrange)
  · intro hin
    rw [find?_set_eq, wrapInt_eq _ hin]

set_option maxRecDepth 100000 in
/-- C7, amended, the first row of `TestIndex`: the index file holds the entry
of `username`, the cached length is 18, and `index("key", 29)` merges the
entry of `key`, from 18 to 47, into it. -/
theorem C7_index_merge_witness :
    storeUsername.getIndexes64 = Except.ok (HashTable.map [(bytesOf "username", ⟨0, 18⟩)]) ∧
      validUTF8 (bytesOf "key") = true ∧ inInt64 storeUsername.byteSize ∧
      inInt64 (storeUsername.byteSize + 29) ∧
      ∃ hf1 I1, storeUsername.index64 (bytesOf "key") 29 = Except.ok hf1 ∧
        hf1.getIndexes64 = Except.ok (HashTable.map I1) ∧
        hf1.indexf = jsonMarshal (HashTable.map I1) ∧
        I1.find? (bytesOf "key") =
          some { Location := storeUsername.byteSize,
                 Max := wrapInt (storeUsername.byteSize + 29) } ∧
        (inInt64 (storeUsername.byteSize + 29) →
          I1.find? (bytesOf "key") =
            some { Location := storeUsername.byteSize, Max := storeUsername.byteSize + 29 }) ∧
        (∀ k2, k2 ≠ bytesOf "key" →
          I1.find? k2 = Entries.find? [(bytesOf "username", ⟨0, 18⟩)] k2) ∧
        hf1.f = storeUsername.f ∧ hf1.byteSize = storeUsername.byteSize :=
  ⟨by decide, by decide, ⟨by decide, by decide⟩, ⟨by decide, by decide⟩,
    C7_index_merge storeUsername [(bytesOf "username", ⟨0, 18⟩)] (bytesOf "key") 29 (by decide)
      (by decide) ⟨by decide, by decide⟩⟩

set_option maxRecDepth 100000 in
/-- The first row of `TestIndex`, evaluated: over the index of `username` and
a log of 18 bytes, `index("key", 29)` persists the text that the test
expects. -/
theorem index_test_row :
    storeUsername.index (bytesOf "key") 29 =
      Except.ok { storeUsername with
        indexf := bytesOf
          "\x7b\"key\":\x7b\"Location\":18,\"Max\":47\x7d,\"username\":\x7b\"Location\":0,\"Max\":18\x7d\x7d" } := by
  decide

/-- C8 as stated fails.  From `NewDB` on an empty log: after a write, a
`FlushDB` and a second write that returns `true`, `byteSize` is 6 and the log
has 3 bytes.  And after a write whose append failed with one byte in the log,
a write that returns `true` leaves `byteSize` 3 and a log of 4 bytes. -/
theorem C8_cached_length_counterexample :
    (∃ hf hf1, NewDB [] [] = Except.ok emptyDB ∧
      run emptyDB [Op.write AppendOutcome.written (bytesOf "a") (bytesOf "b"), Op.flush] =
        Except.ok hf ∧
      hf.Write AppendOutcome.written (bytesOf "a") (bytesOf "b") = Except.ok (true, hf1) ∧
      hf1.byteSize = 6 ∧ hf1.f.length = 3 ∧ hf1.byteSize ≠ (hf1.f.length : Int)) ∧
    (∃ hf hf1, NewDB [] [] = Except.ok emptyDB ∧
      run emptyDB [Op.write (AppendOutcome.failed 1) (bytesOf "a") (bytesOf "b")] =
        Except.ok hf ∧
      hf.Write AppendOutcome.written (bytesOf "a") (bytesOf "b") = Except.ok (true, hf1) ∧
      hf1.byteSize = 3 ∧ hf1.f.length = 4 ∧ hf1.byteSize ≠ (hf1.f.length : Int)) :=
  ⟨⟨DB.mk [] [] 3, DB.mk (bytesOf "a:b") (marshalObject [(bytesOf "a", ⟨3, 6⟩)]) 6,
      by decide, by decide, by decide, by decide, by decide, by decide⟩,
    ⟨DB.mk (bytesOf "a") [] 0, DB.mk (bytesOf "aa:b") (marshalObject [(bytesOf "a", ⟨0, 3⟩)]) 3,
      by decide, by decide, by decide, by decide, by decide, by decide⟩⟩

/-- C8, amended (cached length invariant).  For a store constructed by `NewDB`
and a sequence of `Write` and `Read` calls after it, with no `FlushDB` and no
failed append that left bytes in the log, `byteSize` is the length of the log
right after every `Write` that returns `true`. -/
theorem C8_cached_length (f indexf : Bytes) (ops : List Op) (hf0 hf hf1 : DB)
    (out : AppendOutcome) (key value : Bytes)
    (hnew : NewDB f indexf = Except.ok hf0) (hplain : ∀ op ∈ ops, op.plain = true)
    (hrun : run hf0 ops = Except.ok hf)
    (hw : hf.Write out key value = Except.ok (true, hf1)) :
    hf1.byteSize = (hf1.f.length : Int) := by
  have h0 : hf0.byteSize = (hf0.f.length : Int) := by
    simp only [NewDB, NewDBOf] at hnew
    injection hnew with hnew
    subst hnew
    rfl
  have h1 := run_plain ops hf0 hf hplain h0 hrun
  obtain ⟨_, t, _, h2⟩ := Write_true hf hf1 out key value hw
  subst h2
  simp [stateAfterWrite, h1]

set_option maxRecDepth 100000 in
/-- C8, amended, from `NewDB` on a log of 3 bytes: a write, a read, a failed
append that wrote nothing, and then a write that returns `true`. -/
theorem C8_cached_length_witness :
    NewDB (bytesOf "x:y") [] = Except.ok (DB.mk (bytesOf "x:y") [] 3) ∧
      (∀ op ∈ [Op.write AppendOutcome.written (bytesOf "k") (bytesOf "v1"), Op.read (bytesOf "k"),
        Op.write (AppendOutcome.failed 0) (bytesOf "k") (bytesOf "zz")], op.plain = true) ∧
      run (DB.mk (bytesOf "x:y") [] 3)
          [Op.write AppendOutcome.written (bytesOf "k") (bytesOf "v1"), Op.read (bytesOf "k"),
            Op.write (AppendOutcome.failed 0) (bytesOf "k") (bytesOf "zz")] =
        Except.ok (DB.mk (bytesOf "x:yk:v1") (marshalObject [(bytesOf "k", ⟨3, 7⟩)]) 7) ∧
      (DB.mk (bytesOf "x:yk:v1") (marshalObject [(bytesOf "k", ⟨3, 7⟩)]) 7).Write
          AppendOutcome.written (bytesOf "k") (bytesOf "v2") =
        Except.ok (true,
          DB.mk (bytesOf "x:yk:v1k:v2") (marshalObject [(bytesOf "k", ⟨7, 11⟩)]) 11) ∧
      (DB.mk (bytesOf "x:yk:v1k:v2") (marshalObject [(bytesOf "k", ⟨7, 11⟩)]) 11).byteSize =
        (((DB.mk (bytesOf "x:yk:v1k:v2") (marshalObject [(bytesOf "k", ⟨7, 11⟩)]) 11).f.length :
          Nat) : Int) :=
  ⟨by decide, by decide, by decide, by decide,
    C8_cached_length (bytesOf "x:y") []
      [Op.write AppendOutcome.written (bytesOf "k") (bytesOf "v1"), Op.read (bytesOf "k"),
        Op.write (AppendOutcome.failed 0) (bytesOf "k") (bytesOf "zz")]
      (DB.mk (bytesOf "x:y") [] 3)
      (DB.mk (bytesOf "x:yk:v1") (marshalObject [(bytesOf "k", ⟨3, 7⟩)]) 7)
      (DB.mk (bytesOf "x:yk:v1k:v2") (marshalObject [(bytesOf "k", ⟨7, 11⟩)]) 11)
      AppendOutcome.written (bytesOf "k") (bytesOf "v2")
      (by decide) (by decide) (by decide) (by decide)⟩

/-- C9 as stated fails: over an index file that holds the JSON value `null`,
which loads as a nil map, a `Write` whose append succeeds does not return
`true`; the assignment in `index` panics. -/
theorem C9_write_failure_counterexample :
    (DB.mk [] (bytesOf "null") 0).getIndexes = Except.ok HashTable.nil ∧
      (DB.mk [] (bytesOf "null") 0).Write AppendOutcome.written (bytesOf "a") (bytesOf "b") =
        Except.error Fault.panic := by
  decide

/-- C9, amended (a failed write is atomic for the cached length and the
index).  When the append fails, `Write` returns `false` and `byteSize` and the
index file are what they were before the call.  Whenever `Write` returns, it
returns `false` exactly when the append failed.  When the append succeeds and
the index file loads as a map, `Write` returns `true`. -/
theorem C9_write_failure (hf : DB) (out : AppendOutcome) (key value : Bytes) :
    (out ≠ AppendOutcome.written →
      ∃ hf1, hf.Write out key value = Except.ok (false, hf1) ∧
        hf1.byteSize = hf.byteSize ∧ hf1.indexf = hf.indexf) ∧
    (∀ r hf1, hf.Write out key value = Except.ok (r, hf1) →
      (r = false ↔ out ≠ AppendOutcome.written)) ∧
    (out = AppendOutcome.written →
      ∀ t, hf.getIndexes = Except.ok (HashTable.map t) →
        ∃ hf1, hf.Write out key value = Except.ok (true, hf1)) := by
  cases out with
  | written =>
    refine ⟨fun h => absurd rfl h, ?_, ?_⟩
    · intro r hf1 h
      cases ht : jsonUnmarshal hf.indexf with
      | nil => rw [Write_nil hf key value ht] at h; cases h
      | map t =>
        rw [Write_map hf t key value ht] at h
        injection h with h
        injection h with h _
        subst h
        simp
    · intro _ t ht
      rw [getIndexes_eq] at ht
      injection ht with ht
      exact ⟨_, Write_map hf t key value ht⟩
  | failed n =>
    refine ⟨fun _ => ⟨_, Write_failed hf n key value, rfl, rfl⟩, ?_, ?_⟩
    · intro r hf1 h
      rw [Write_failed] at h
      injection h with h
      injection h with h _
      subst h
      simp
    · intro h
      cases h

/-- C10 (flush).  After `FlushDB` the log has length 0 and the index file has
length 0, and the cached `byteSize` is the value it had before the call. -/
theorem C10_flush (hf : DB) :
    hf.FlushDB.f.length = 0 ∧ hf.FlushDB.indexf.length = 0 ∧
      hf.FlushDB.byteSize = hf.byteSize :=
  ⟨rfl, rfl, rfl⟩


set_option maxRecDepth 100000 in
/-- C11 as stated fails for a cached length at the end of the range of `int`.
On a store with cached length 9223372036854775807, after `FlushDB`,
`Write("k", "v")` returns `true` and records for `k` the entry with `Max`
-9223372036854775806: the sum of the cached length and the 3 bytes of the
record wrapped around, it is not 9223372036854775807 + 3. -/
theorem C11_write_after_flush_counterexample :
    (0 : Int) < (DB.mk (bytesOf "a:b") (marshalObject [(bytesOf "a", ⟨0, 3⟩)])
      9223372036854775807).byteSize ∧
    (DB.mk (bytesOf "a:b") (marshalObject [(bytesOf "a", ⟨0, 3⟩)])
      9223372036854775807).FlushDB = DB.mk [] [] 9223372036854775807 ∧
    (DB.mk [] [] 9223372036854775807).Write64 AppendOutcome.written (bytesOf "k") (bytesOf "v") =
      Except.ok (true, DB.mk (bytesOf "k:v")
        (bytesOf "\x7b\"k\":\x7b\"Location\":9223372036854775807,\"Max\":-9223372036854775806\x7d\x7d")
        (-9223372036854775806)) ∧
    (DB.mk (bytesOf "k:v")
        (bytesOf "\x7b\"k\":\x7b\"Location\":9223372036854775807,\"Max\":-9223372036854775806\x7d\x7d")
        (-9223372036854775806)).getIndexes64 =
      Except.ok (HashTable.map
        [(bytesOf "k", ⟨9223372036854775807, -9223372036854775806⟩)]) ∧
    (HashTable.map [(bytesOf "k", ⟨9223372036854775807, -9223372036854775806⟩)]).find?
        (bytesOf "k") ≠
      some { Location := 9223372036854775807,
             Max := 9223372036854775807 +
               (((bytesOf "k").length + 1 + (bytesOf "v").length : Nat) : Int) } := by
  decide

/-- C11, amended (write after flush).  On a store with cached length `b > 0`,
for a key and a value with `b + len(key) + 1 + len(value)` within the range
of `int`, after `FlushDB` the log is empty; a `Write(key, value)` with a
successful append then returns `true`, and every `Write(key, value)` that
returns `true` records for `key` the entry from `b` to
`b + len(key) + 1 + len(value)`: the index file is `json.Marshal` of the map
with that one entry, whose `Location` is not 0.  When `key` is valid UTF-8 the
index that is loaded afterwards is that map. -/
theorem C11_write_after_flush (hf : DB) (key value : Bytes) (hb : 0 < hf.byteSize)
    (hfit : hf.byteSize + ((key.length + 1 + value.length : Nat) : Int) ≤
      9223372036854775807) :
    hf.FlushDB.f = [] ∧
    (∃ hf1, hf.FlushDB.Write64 AppendOutcome.written key value = Except.ok (true, hf1)) ∧
    ∀ out hf1, hf.FlushDB.Write64 out key value = Except.ok (true, hf1) →
      hf1.indexf = jsonMarshal (HashTable.map [(key, entryAt hf.byteSize key value)]) ∧
      (entryAt hf.byteSize key value).Location ≠ 0 ∧
      (validUTF8 key = true →
        hf1.getIndexes64 =
          Except.ok (HashTable.map [(key, entryAt hf.byteSize key value)])) := by
  have ht : jsonUnmarshal64 hf.FlushDB.indexf = HashTable.map [] := by
    show jsonUnmarshal64 [] = HashTable.map []
    decide
  have hin : inInt64 (hf.byteSize + ((record key value).length : Int)) := by
    rw [record_length]
    unfold inInt64
    omega
  have hbin : inInt64 hf.byteSize := by
    unfold inInt64
    omega
  have he : entryAt hf.byteSize key value =
      { Location := hf.FlushDB.byteSize,
        Max := wrapInt (hf.FlushDB.byteSize + ((record key value).length : Int)) } := by
    show entryAt hf.byteSize key value =
      { Location := hf.byteSize,
        Max := wrapInt (hf.byteSize + ((record key value).length : Int)) }
    rw [wrapInt_eq _ hin, record_length]
    rfl
  refine ⟨rfl, ⟨_, Write64_map hf.FlushDB [] key value ht⟩, ?_⟩
  intro out hf1 hw
  obtain ⟨_, t, ht1, hst⟩ := Write64_true hf.FlushDB hf1 out key value hw
  rw [ht] at ht1
  injection ht1 with ht1
  subst ht1
  subst hst
  refine ⟨?_, ?_, ?_⟩
  · rw [he]
    rfl
  · show hf.byteSize ≠ 0
    omega
  · intro hk
    rw [getIndexes64_eq, he]
    refine congrArg Except.ok (jsonUnmarshal64_marshalObject _ ?_ ?_ ?_)
    · exact List.pairwise_singleton _ _
    · intro e h1
      have h2 : e = (key, HashIndexValue.mk hf.byteSize
          (wrapInt (hf.byteSize + ((record key value).length : Int)))) :=
        List.mem_singleton.mp h1
      rw [h2]
      exact hk
    · intro e h1
      have h2 : e = (key, HashIndexValue.mk hf.byteSize
          (wrapInt (hf.byteSize + ((record key value).length : Int)))) :=
        List.mem_singleton.mp h1
      rw [h2]
      exact ⟨hbin, inInt64_wrapInt _⟩

set_option maxRecDepth 100000 in
/-- C11, amended, on a store with cached length 3: after `FlushDB`,
`Write("k", "v")` records for `k` the entry from 3 to 6 over a log of 3
bytes. -/
theorem C11_write_after_flush_witness :
    (0 : Int) < (DB.mk (bytesOf "a:b") (marshalObject [(bytesOf "a", ⟨0, 3⟩)]) 3).byteSize ∧
    (DB.mk (bytesOf "a:b") (marshalObject [(bytesOf "a", ⟨0, 3⟩)]) 3).byteSize +
      (((bytesOf "k").length + 1 + (bytesOf "v").length : Nat) : Int) ≤ 9223372036854775807 ∧
    (DB.mk (bytesOf "a:b") (marshalObject [(bytesOf "a", ⟨0, 3⟩)]) 3).FlushDB = storeFlushed ∧
    storeFlushed.Write64 AppendOutcome.written (bytesOf "k") (bytesOf "v") =
      Except.ok (true, DB.mk (bytesOf "k:v")
        (bytesOf "\x7b\"k\":\x7b\"Location\":3,\"Max\":6\x7d\x7d") 6) ∧
    entryAt 3 (bytesOf "k") (bytesOf "v") = ⟨3, 6⟩ ∧
    (DB.mk (bytesOf "k:v")
        (bytesOf "\x7b\"k\":\x7b\"Location\":3,\"Max\":6\x7d\x7d") 6).getIndexes64 =
      Except.ok (HashTable.map [(bytesOf "k", entryAt 3 (bytesOf "k") (bytesOf "v"))]) :=
  ⟨by decide, by decide, by decide, by decide, by decide,
    ((C11_write_after_flush (DB.mk (bytesOf "a:b") (marshalObject [(bytesOf "a", ⟨0, 3⟩)]) 3)
      (bytesOf "k") (bytesOf "v") (by decide) (by decide)).2.2
        AppendOutcome.written _ (by decide)).2.2 (by decide)⟩

set_option maxRecDepth 100000 in
/-- C12 as stated fails: `getIndexes` returns a mapping for a file that cannot
be parsed.  For the empty index file, with which `TestWriteAndRead` starts, and
for the text `{"a":`, neither of which is JSON, it returns the empty map: the
error of `json.Unmarshal` is dropped. -/
theorem C12_getIndexes_counterexample :
    (jsonOf []).isNone = true ∧
    (DB.mk [] [] 0).getIndexes = Except.ok (HashTable.map []) ∧
    (jsonOf (bytesOf "\x7b\"a\":")).isNone = true ∧
    (DB.mk [] (bytesOf "\x7b\"a\":") 0).getIndexes = Except.ok (HashTable.map []) := by
  decide

/-- C12, amended (loading the index).  `getIndexes` ends the process when the
index file cannot be read.  For every content of a file that can be read it
returns a map, and for a content that is not JSON, such as an empty or
malformed file, it returns the empty map. -/
theorem C12_getIndexes (data : Bytes) :
    getIndexesOf none = Except.error Fault.fatal ∧
    (∃ t, getIndexesOf (some data) = Except.ok t) ∧
    (∀ hf : DB, ∃ t, hf.getIndexes = Except.ok t) ∧
    ((jsonOf data).isNone = true →
      getIndexesOf (some data) = Except.ok (HashTable.map [])) := by
  refine ⟨rfl, ⟨_, rfl⟩, fun hf => ⟨_, rfl⟩, ?_⟩
  intro h
  show Except.ok (jsonUnmarshal data) = _
  rw [jsonUnmarshal_jsonOf]
  cases hj : jsonOf data with
  | none => rfl
  | some v =>
    rw [hj] at h
    cases h

/-- C13 (log layout).  From the empty store, every sequence of writes with
successful appends runs to a state whose log is the records
`k_1 + ":" + v_1 + ... + k_N + ":" + v_N` one after the other; and every
`Write(k, v)` that returns `true` leaves the log it found followed by
`k + ":" + v`. -/
theorem C13_log_layout :
    (∀ ws : List (Bytes × Bytes), ∃ hf, writeAll emptyDB ws = Except.ok hf ∧
      hf.f = recordsOf ws) ∧
    (∀ (hf hf1 : DB) (out : AppendOutcome) (k v : Bytes),
      hf.Write out k v = Except.ok (true, hf1) → hf1.f = hf.f ++ (k ++ [delim] ++ v)) := by
  constructor
  · intro ws
    obtain ⟨hf, hrun, _⟩ := writeAll_from_empty_within ws
    exact ⟨hf, hrun, by simpa using writeAll_log ws emptyDB hf hrun⟩
  · intro hf hf1 out k v hw
    obtain ⟨_, t, _, hst⟩ := Write_true hf hf1 out k v hw
    rw [hst]
    rfl

set_option maxRecDepth 100000 in
/-- C14 as stated fails from a cached length at the end of the range of `int`.
The store holds the entry of `username`, from 0 to 18, and its cached length
is 9223372036854775807.  `Write("k", "v")` returns `true` and records for `k`
the entry with `Location` 9223372036854775807 and `Max`
-9223372036854775806: `Max` is not above `Location`. -/
theorem C14_wellformed_ranges_counterexample :
    (0 : Int) ≤ (DB.mk (bytesOf "username:phirmware")
        (marshalObject [(bytesOf "username", ⟨0, 18⟩)]) 9223372036854775807).byteSize ∧
    (DB.mk (bytesOf "username:phirmware")
        (marshalObject [(bytesOf "username", ⟨0, 18⟩)]) 9223372036854775807).getIndexes64 =
      Except.ok (HashTable.map [(bytesOf "username", ⟨0, 18⟩)]) ∧
    (DB.mk (bytesOf "username:phirmware")
        (marshalObject [(bytesOf "username", ⟨0, 18⟩)]) 9223372036854775807).Write64
        AppendOutcome.written (bytesOf "k") (bytesOf "v") =
      Except.ok (true, DB.mk (bytesOf "username:phirmwarek:v")
        (bytesOf ("\x7b\"k\":\x7b\"Location\":9223372036854775807," ++
          "\"Max\":-9223372036854775806\x7d,\"username\":\x7b\"Location\":0,\"Max\":18\x7d\x7d"))
        (-9223372036854775806)) ∧
    writeAll64 (DB.mk (bytesOf "username:phirmware")
        (marshalObject [(bytesOf "username", ⟨0, 18⟩)]) 9223372036854775807)
        [(bytesOf "k", bytesOf "v")] =
      Except.ok (DB.mk (bytesOf "username:phirmwarek:v")
        (bytesOf ("\x7b\"k\":\x7b\"Location\":9223372036854775807," ++
          "\"Max\":-9223372036854775806\x7d,\"username\":\x7b\"Location\":0,\"Max\":18\x7d\x7d"))
        (-9223372036854775806)) ∧
    (DB.mk (bytesOf "username:phirmwarek:v")
        (bytesOf ("\x7b\"k\":\x7b\"Location\":9223372036854775807," ++
          "\"Max\":-9223372036854775806\x7d,\"username\":\x7b\"Location\":0,\"Max\":18\x7d\x7d"))
        (-9223372036854775806)).getIndexes64 =
      Except.ok (HashTable.map [(bytesOf "k", ⟨9223372036854775807, -9223372036854775806⟩),
        (bytesOf "username", ⟨0, 18⟩)]) ∧
    (HashTable.map [(bytesOf "k", ⟨9223372036854775807, -9223372036854775806⟩),
        (bytesOf "username", ⟨0, 18⟩)]).find? (bytesOf "k") =
      some ⟨9223372036854775807, -9223372036854775806⟩ ∧
    ¬ ((⟨9223372036854775807, -9223372036854775806⟩ : HashIndexValue).Location <
      (⟨9223372036854775807, -9223372036854775806⟩ : HashIndexValue).Max) := by
  decide

/-- C14, amended (index entries are well-formed ranges).  From a store whose
cached length is not negative and whose index entries all have
`0 <= Location < Max`, after any sequence of writes with successful appends
for which the cached length plus the bytes written is within the range of
`int`, every entry of the index has `0 <= Location < Max`. -/
theorem C14_wellformed_ranges (hf0 hf : DB) (ws : List (Bytes × Bytes))
    (hb : 0 ≤ hf0.byteSize)
    (hfit : hf0.byteSize + (recordsLength ws : Int) ≤ 9223372036854775807)
    (h0 : ∀ t, hf0.getIndexes64 = Except.ok t →
      ∀ k e, t.find? k = some e → 0 ≤ e.Location ∧ e.Location < e.Max)
    (hrun : writeAll64 hf0 ws = Except.ok hf) :
    ∀ t, hf.getIndexes64 = Except.ok t →
      ∀ k e, t.find? k = some e → 0 ≤ e.Location ∧ e.Location < e.Max := by
  have hall := (writeAll64_entries (fun x => 0 ≤ x.Location ∧ x.Location < x.Max) ws hf0 hf hb
    hfit
    (by
      intro t0 ht0 x hx
      have hfind : (HashTable.map t0).find? x.1 = some x.2 :=
        find?_of_mem_sorted t0 (jsonUnmarshal64_sorted _ _ ht0) x.1 x.2 hx
      exact h0 (HashTable.map t0) (by rw [getIndexes64_eq, ht0]) x.1 x.2 hfind)
    (by
      intro w _ b hb0 _
      simp only [record_length]
      constructor
      · exact hb0
      · push_cast
        omega)
    hrun).2
  intro t ht k e he
  rw [getIndexes64_eq] at ht
  injection ht with ht
  cases t with
  | nil => cases he
  | map t1 => exact hall t1 ht (k, e) (mem_of_find? t1 k e he)

set_option maxRecDepth 100000 in
/-- C14, amended, from the store of the first row of `TestIndex`, after two
writes, one of them with an empty key and an empty value. -/
theorem C14_wellformed_ranges_witness :
    (0 : Int) ≤ storeUsername.byteSize ∧
    storeUsername.byteSize +
      (recordsLength [(bytesOf "key", bytesOf "value"), ([], [])] : Int) ≤
        9223372036854775807 ∧
    storeUsername.getIndexes64 = Except.ok (HashTable.map [(bytesOf "username", ⟨0, 18⟩)]) ∧
    writeAll64 storeUsername [(bytesOf "key", bytesOf "value"), ([], [])] =
      Except.ok (DB.mk (bytesOf "username:phirmwarekey:value:")
        (marshalObject [([], ⟨27, 28⟩), (bytesOf "key", ⟨18, 27⟩),
          (bytesOf "username", ⟨0, 18⟩)]) 28) ∧
    ∀ t, (DB.mk (bytesOf "username:phirmwarekey:value:")
        (marshalObject [([], ⟨27, 28⟩), (bytesOf "key", ⟨18, 27⟩),
          (bytesOf "username", ⟨0, 18⟩)]) 28).getIndexes64 = Except.ok t →
      ∀ k e, t.find? k = some e → 0 ≤ e.Location ∧ e.Location < e.Max :=
  ⟨by decide, by decide, by decide, by decide,
    C14_wellformed_ranges storeUsername _ [(bytesOf "key", bytesOf "value"), ([], [])]
      (by decide) (by decide)
      (by
        intro t ht k e he
        have h1 : storeUsername.getIndexes64 =
            Except.ok (HashTable.map [(bytesOf "username", ⟨0, 18⟩)]) := by decide
        rw [h1] at ht
        injection ht with ht
        subst ht
        have h2 : e = ⟨0, 18⟩ := by
          simp only [HashTable.find?, Entries.find?] at he
          split_ifs at he
          · injection he with he
            exact he.symm
        rw [h2]
        decide)
      (by decide)⟩

/-- C15 (the policy of `Close`).  `Close` calls `Close` on the index file
first.  When that call returns an error, `Close` returns that error and does
not call `Close` on the log.  When it returns `nil`, `Close` calls `Close` on
the log and returns what that call returns.  So `Close` returns `nil` exactly
when both calls return `nil`. -/
theorem C15_close_policy (hf : DB) (indexErr fErr : Option GoError) :
    (∃ rest, (hf.Close indexErr fErr).2 = Handle.indexf :: rest) ∧
    (∀ err, indexErr = some err →
      (hf.Close indexErr fErr).1 = some err ∧ Handle.f ∉ (hf.Close indexErr fErr).2) ∧
    (indexErr = none →
      (hf.Close indexErr fErr).2 = [Handle.indexf, Handle.f] ∧
        (hf.Close indexErr fErr).1 = fErr) ∧
    ((hf.Close indexErr fErr).1 = none ↔ indexErr = none ∧ fErr = none) := by
  cases indexErr with
  | none =>
    refine ⟨⟨_, rfl⟩, ?_, fun _ => ⟨rfl, rfl⟩, ?_⟩
    · intro err h
      cases h
    · show fErr = none ↔ _
      constructor
      · intro h
        exact ⟨rfl, h⟩
      · intro h
        exact h.2
  | some e =>
    refine ⟨⟨_, rfl⟩, ?_, ?_, ?_⟩
    · intro err h
      injection h with h
      subst h
      refine ⟨rfl, ?_⟩
      show Handle.f ∉ [Handle.indexf]
      decide
    · intro h
      cases h
    · show some e = none ↔ _
      constructor
      · intro h
        cases h
      · intro h
        cases h.1

set_option maxRecDepth 100000 in
/-- C16 as stated fails for a key that is not valid UTF-8.  On the empty
store `index("\xff", 3)` persists the map with the one key `"\xff"` as a JSON
object whose one property name is U+FFFD (`EF BF BD`), which is not the stored
key.  And over an index file with the key U+FFFE (`EF BF BE`), after
`index("\xf0", 3)` the property names are U+FFFE and then U+FFFD, which is
not ascending order. -/
theorem C16_index_format_counterexample :
    emptyDB.index [0xFF] 3 =
      Except.ok (DB.mk [] (bytesOf "\x7b\"\\ufffd\":\x7b\"Location\":0,\"Max\":3\x7d\x7d") 0) ∧
    (HashTable.map []).assign [0xFF] ⟨0, 3⟩ = some (HashTable.map [([0xFF], ⟨0, 3⟩)]) ∧
    (jsonOf (bytesOf "\x7b\"\\ufffd\":\x7b\"Location\":0,\"Max\":3\x7d\x7d")).map JVal.names =
      some [[0xEF, 0xBF, 0xBD]] ∧
    ([[0xEF, 0xBF, 0xBD]] : List Bytes) ≠ [[0xFF]] ∧
    (DB.mk [] (bytesOf "\x7b\"\uFFFE\":\x7b\"Location\":0,\"Max\":5\x7d\x7d") 5).index [0xF0] 3 =
      Except.ok (DB.mk []
        (bytesOf ("\x7b\"\uFFFE\":\x7b\"Location\":0,\"Max\":5\x7d," ++
          "\"\\ufffd\":\x7b\"Location\":5,\"Max\":8\x7d\x7d")) 5) ∧
    (jsonOf (bytesOf ("\x7b\"\uFFFE\":\x7b\"Location\":0,\"Max\":5\x7d," ++
        "\"\\ufffd\":\x7b\"Location\":5,\"Max\":8\x7d\x7d"))).map JVal.names =
      some [[0xEF, 0xBF, 0xBE], [0xEF, 0xBF, 0xBD]] ∧
    bytesLt [0xEF, 0xBF, 0xBE] [0xEF, 0xBF, 0xBD] = false := by
  decide

/-- C16, amended (the format of the index file).  Over an index file that
loads as a map, `index(k, n)` for a key `k` that is valid UTF-8 persists the
map with the entry of `k` set: the text is one JSON object whose property
names are the keys of the map in ascending order, each with an object of the
two integer fields `Location` and `Max` in that order, and it is the text of
the specification, which has no white space. -/
theorem C16_index_format (hf : DB) (I : Entries) (k : Bytes) (n : Int)
    (hI : hf.getIndexes = Except.ok (HashTable.map I)) (hk : validUTF8 k = true) :
    ∃ hf1 I1, hf.index k n = Except.ok hf1 ∧
      (HashTable.map I).assign k { Location := hf.byteSize, Max := hf.byteSize + n } =
        some (HashTable.map I1) ∧
      I1.Sorted ∧
      hf1.indexf = formatIndex I1 ∧
      jsonOf hf1.indexf = some (JVal.obj (I1.map (fun x => (x.1, valueJson x.2)))) ∧
      (jsonOf hf1.indexf).map JVal.names = some (I1.map Prod.fst) := by
  rw [getIndexes_eq] at hI
  injection hI with hI
  have hsorted := set_sorted I k
    { Location := hf.byteSize, Max := hf.byteSize + n } (jsonUnmarshal_sorted hf.indexf I hI)
  have hvalid := set_validKeys I k
    { Location := hf.byteSize, Max := hf.byteSize + n } (jsonUnmarshal_validKeys hf.indexf I hI) hk
  have hjson : jsonOf (marshalObject (I.set k { Location := hf.byteSize, Max := hf.byteSize + n })) =
      some (JVal.obj ((I.set k { Location := hf.byteSize, Max := hf.byteSize + n }).map
        (fun x => (x.1, valueJson x.2)))) := by
    rw [jsonOf_marshalObject, coerceKeys_valid _ hvalid]
  refine ⟨{ hf with indexf := marshalObject (I.set k
        { Location := hf.byteSize, Max := hf.byteSize + n }) },
    I.set k { Location := hf.byteSize, Max := hf.byteSize + n },
    ?_, rfl, hsorted, marshalObject_format _, hjson, ?_⟩
  · simp only [DB.index, getIndexes_eq, hI, HashTable.assign, jsonMarshal]
  · show (jsonOf (marshalObject _)).map JVal.names = _
    rw [hjson]
    simp [JVal.names]

set_option maxRecDepth 100000 in
/-- C16, amended, the first row of `TestIndex`: the map with the entries of
`key` and `username` is persisted as the text that the test expects. -/
theorem C16_index_format_witness :
    storeUsername.getIndexes = Except.ok (HashTable.map [(bytesOf "username", ⟨0, 18⟩)]) ∧
    validUTF8 (bytesOf "key") = true ∧
    formatIndex [(bytesOf "key", ⟨18, 47⟩), (bytesOf "username", ⟨0, 18⟩)] =
      bytesOf "\x7b\"key\":\x7b\"Location\":18,\"Max\":47\x7d,\"username\":\x7b\"Location\":0,\"Max\":18\x7d\x7d" ∧
    ∃ hf1 I1, storeUsername.index (bytesOf "key") 29 = Except.ok hf1 ∧
      (HashTable.map [(bytesOf "username", ⟨0, 18⟩)]).assign (bytesOf "key")
          { Location := storeUsername.byteSize, Max := storeUsername.byteSize + 29 } =
        some (HashTable.map I1) ∧
      I1.Sorted ∧
      hf1.indexf = formatIndex I1 ∧
      jsonOf hf1.indexf = some (JVal.obj (I1.map (fun x => (x.1, valueJson x.2)))) ∧
      (jsonOf hf1.indexf).map JVal.names = some (I1.map Prod.fst) :=
  ⟨by decide, by decide, by decide,
    C16_index_format storeUsername [(bytesOf "username", ⟨0, 18⟩)] (bytesOf "key") 29
      (by decide) (by decide)⟩

set_option maxRecDepth 100000 in
/-- C17 as stated fails for a key that is not valid UTF-8.  On the empty
store `index("\xff", 3)` persists the map with the one key `"\xff"`;
`getIndexes` on the file it wrote returns the map with the one key U+FFFD
(`EF BF BD`), which is another map. -/
theorem C17_load_after_save_counterexample :
    emptyDB.index [0xFF] 3 =
      Except.ok (DB.mk [] (bytesOf "\x7b\"\\ufffd\":\x7b\"Location\":0,\"Max\":3\x7d\x7d") 0) ∧
    (HashTable.map []).assign [0xFF] ⟨0, 3⟩ = some (HashTable.map [([0xFF], ⟨0, 3⟩)]) ∧
    jsonMarshal (HashTable.map [([0xFF], ⟨0, 3⟩)]) =
      bytesOf "\x7b\"\\ufffd\":\x7b\"Location\":0,\"Max\":3\x7d\x7d" ∧
    (DB.mk [] (bytesOf "\x7b\"\\ufffd\":\x7b\"Location\":0,\"Max\":3\x7d\x7d") 0).getIndexes =
      Except.ok (HashTable.map [([0xEF, 0xBF, 0xBD], ⟨0, 3⟩)]) ∧
    HashTable.map [([0xEF, 0xBF, 0xBD], ⟨0, 3⟩)] ≠ HashTable.map [([0xFF], ⟨0, 3⟩)] := by
  decide

/-- C17, amended (loading undoes saving).  For every index map `I` whose keys
are valid UTF-8, `getIndexes` on the text that is persisted for `I` returns
`I`; so it does after `index(k, n)` for a key `k` that is valid UTF-8.  And
for an index file that holds a JSON object whose members are objects of the
integer fields `Location` and `Max` (values of Go's `int`), `getIndexes`
returns a map that has, for each property name, the `Location` and `Max` of
the last member with that name, and no other key. -/
theorem C17_load_after_save :
    (∀ I : Entries, I.Sorted → I.ValidKeys →
      getIndexesOf (some (jsonMarshal (HashTable.map I))) = Except.ok (HashTable.map I)) ∧
    (∀ (hf : DB) (I : Entries) (k : Bytes) (n : Int),
      hf.getIndexes = Except.ok (HashTable.map I) → validUTF8 k = true →
      ∃ hf1 I1, hf.index k n = Except.ok hf1 ∧
        (HashTable.map I).assign k { Location := hf.byteSize, Max := hf.byteSize + n } =
          some (HashTable.map I1) ∧
        hf1.indexf = jsonMarshal (HashTable.map I1) ∧
        hf1.getIndexes = Except.ok (HashTable.map I1)) ∧
    (∀ (data : Bytes) (ms : Entries),
      jsonOf data = some (JVal.obj (ms.map (fun x => (x.1, valueJson x.2)))) →
      (∀ x ∈ ms, inInt64 x.2.Location ∧ inInt64 x.2.Max) →
      ∃ t, getIndexesOf (some data) = Except.ok (HashTable.map t) ∧
        ∀ k, t.find? k = Entries.find? ms.reverse k) := by
  refine ⟨?_, ?_, ?_⟩
  · intro I hs hv
    exact congrArg Except.ok (jsonUnmarshal_marshalObject I hs hv)
  · intro hf I k n hI hk
    rw [getIndexes_eq] at hI
    injection hI with hI
    have hsorted := set_sorted I k
      { Location := hf.byteSize, Max := hf.byteSize + n } (jsonUnmarshal_sorted hf.indexf I hI)
    have hvalid := set_validKeys I k
      { Location := hf.byteSize, Max := hf.byteSize + n }
      (jsonUnmarshal_validKeys hf.indexf I hI) hk
    refine ⟨{ hf with indexf := marshalObject (I.set k
          { Location := hf.byteSize, Max := hf.byteSize + n }) },
      I.set k { Location := hf.byteSize, Max := hf.byteSize + n }, ?_, rfl, rfl, ?_⟩
    · simp only [DB.index, getIndexes_eq, hI, HashTable.assign, jsonMarshal]
    · rw [getIndexes_eq]
      exact congrArg Except.ok (jsonUnmarshal_marshalObject _ hsorted hvalid)
  · intro data ms hj _
    refine ⟨ms.foldl (fun a m => Entries.set a m.1 m.2) [], ?_, ?_⟩
    · show Except.ok (jsonUnmarshal data) = _
      rw [jsonUnmarshal_jsonOf, hj]
      simp only [decodeTable]
      rw [List.foldl_map]
      simp only [decodeValue_valueJson]
    · intro k
      rw [find?_foldl_set]
      cases Entries.find? ms.reverse k <;> rfl

set_option maxRecDepth 100000 in
/-- C17, the first row of `TestGetIndexes`: the index file
`{"/unix/temp": { "Location": 45, "Max": 67 }}` loads as the map in which
`/unix/temp` has the entry from 45 to 67. -/
theorem C17_load_after_save_witness :
    storeUnixTemp.getIndexes =
        Except.ok (HashTable.map [(bytesOf "/unix/temp", ⟨45, 67⟩)]) ∧
      ∃ t, getIndexesOf (some storeUnixTemp.indexf) = Except.ok (HashTable.map t) ∧
        ∀ k, t.find? k = Entries.find? [(bytesOf "/unix/temp", ⟨45, 67⟩)].reverse k :=
  ⟨by decide,
    C17_load_after_save.2.2 storeUnixTemp.indexf [(bytesOf "/unix/temp", ⟨45, 67⟩)]
      (by rfl)
      (by
        intro x hx
        rw [List.mem_singleton.mp hx]
        exact ⟨⟨by decide, by decide⟩, ⟨by decide, by decide⟩⟩)⟩

/-- C18 (`Read` is read-only).  A `Read(key)` that returns leaves the log, the
index file and the cached length as they were, and the `Read(key)` after it
returns the same string. -/
theorem C18_read_only (hf hf1 : DB) (key s : Bytes)
    (h : hf.Read key = Except.ok (s, hf1)) :
    hf1.f = hf.f ∧ hf1.indexf = hf.indexf ∧ hf1.byteSize = hf.byteSize ∧
      hf1.Read key = Except.ok (s, hf1) := by
  have h1 := Read_state hf hf1 key s h
  subst h1
  exact ⟨rfl, rfl, rfl, h⟩

set_option maxRecDepth 100000 in
/-- C18 at the store of `TestWriteAndRead` after its first write, for the key
that was written and for a key that was not. -/
theorem C18_read_only_witness :
    storeAfterName.Read testKey = Except.ok (testValue, storeAfterName) ∧
    storeAfterName.Read (bytesOf "other") = Except.ok ([], storeAfterName) ∧
    (storeAfterName.f = storeAfterName.f ∧ storeAfterName.indexf = storeAfterName.indexf ∧
      storeAfterName.byteSize = storeAfterName.byteSize ∧
      storeAfterName.Read testKey = Except.ok (testValue, storeAfterName)) :=
  ⟨by decide, by decide,
    C18_read_only storeAfterName storeAfterName testKey testValue (by decide)⟩

set_option maxRecDepth 100000 in
/-- C19 as stated fails for an entry whose range is longer than the largest
buffer that `make` allocates, and for a range that the runtime has not got
the memory for.  The index file
`{"a":{"Location":0,"Max":9223372036854775807}}` loads as an entry with
`Location <= Max`, and `Read("a")` panics in `make`, whatever memory there
is.  The index file `{"a":{"Location":0,"Max":140737488355328}}` loads as an
entry with `Location <= Max` and a range of `2^47` bytes, and `Read("a")` ends
the process when the runtime has not got the memory. -/
theorem C19_read_no_fault_counterexample :
    ((DB.mk []
        (bytesOf "\x7b\"a\":\x7b\"Location\":0,\"Max\":9223372036854775807\x7d\x7d") 0).getIndexes64 =
      Except.ok (HashTable.map [(bytesOf "a", ⟨0, 9223372036854775807⟩)]) ∧
    ((HashTable.map [(bytesOf "a", ⟨0, 9223372036854775807⟩)]).get (bytesOf "a")).Location ≤
      ((HashTable.map [(bytesOf "a", ⟨0, 9223372036854775807⟩)]).get (bytesOf "a")).Max ∧
    (DB.mk []
        (bytesOf "\x7b\"a\":\x7b\"Location\":0,\"Max\":9223372036854775807\x7d\x7d") 0).Read64
      AllocOutcome.granted (bytesOf "a") = Except.error Fault.panic) ∧
    ((DB.mk []
        (bytesOf "\x7b\"a\":\x7b\"Location\":0,\"Max\":140737488355328\x7d\x7d") 0).getIndexes64 =
      Except.ok (HashTable.map [(bytesOf "a", ⟨0, 140737488355328⟩)]) ∧
    ((HashTable.map [(bytesOf "a", ⟨0, 140737488355328⟩)]).get (bytesOf "a")).Location ≤
      ((HashTable.map [(bytesOf "a", ⟨0, 140737488355328⟩)]).get (bytesOf "a")).Max ∧
    (DB.mk []
        (bytesOf "\x7b\"a\":\x7b\"Location\":0,\"Max\":140737488355328\x7d\x7d") 0).Read64
      AllocOutcome.outOfMemory (bytesOf "a") = Except.error Fault.fatal) := by
  decide

/-- C19, amended (`Read` does not fault on a well-formed entry).  In every
store, for a key whose entry in the index (the zero entry, when the key has
none) has `Location <= Max` and a range of at most `maxAlloc` bytes, the
largest buffer that `make` allocates, `Read(key)` returns a string when the
runtime has the memory for it: the size of the buffer is in the range of
`make`, and the split gives at least one segment. -/
theorem C19_read_no_fault (hf : DB) (key : Bytes) (t : HashTable)
    (ht : hf.getIndexes64 = Except.ok t)
    (hle : (t.get key).Location ≤ (t.get key).Max)
    (hfit : (t.get key).Max - (t.get key).Location ≤ (maxAlloc : Int)) :
    ∃ s, hf.Read64 AllocOutcome.granted key = Except.ok (s, hf) := by
  rw [getIndexes64_eq] at ht
  injection ht with ht
  have hm : (maxAlloc : Int) = 281474976710656 := rfl
  have hw : wrapInt ((t.get key).Max - (t.get key).Location) =
      (t.get key).Max - (t.get key).Location := by
    apply wrapInt_eq
    unfold inInt64
    omega
  unfold DB.Read64
  rw [getIndexes64_eq, ht]
  simp only
  rw [hw, if_neg (by omega)]
  cases hs : (split delim (readAt hf.f ((t.get key).Max - (t.get key).Location).toNat
      (t.get key).Location)).getLast? with
  | none =>
    rw [List.getLast?_eq_none_iff] at hs
    exact absurd hs (split_ne_nil _ _)
  | some s => exact ⟨s, rfl⟩

set_option maxRecDepth 100000 in
/-- C19, amended, for a range that lies past the end of the log (the entry
from 3 to 6 over a log of 3 bytes) and for a key with no entry. -/
theorem C19_read_no_fault_witness :
    (DB.mk (bytesOf "k:v")
        (bytesOf "\x7b\"k\":\x7b\"Location\":3,\"Max\":6\x7d\x7d") 6).getIndexes64 =
      Except.ok (HashTable.map [(bytesOf "k", ⟨3, 6⟩)]) ∧
    (DB.mk (bytesOf "k:v") (bytesOf "\x7b\"k\":\x7b\"Location\":3,\"Max\":6\x7d\x7d") 6).Read64
      AllocOutcome.granted (bytesOf "k") = Except.ok ([0, 0, 0],
        DB.mk (bytesOf "k:v") (bytesOf "\x7b\"k\":\x7b\"Location\":3,\"Max\":6\x7d\x7d") 6) ∧
    (∃ s, (DB.mk (bytesOf "k:v")
        (bytesOf "\x7b\"k\":\x7b\"Location\":3,\"Max\":6\x7d\x7d") 6).Read64
      AllocOutcome.granted (bytesOf "k") = Except.ok (s,
        DB.mk (bytesOf "k:v") (bytesOf "\x7b\"k\":\x7b\"Location\":3,\"Max\":6\x7d\x7d") 6)) ∧
    ∃ s, (DB.mk (bytesOf "k:v")
        (bytesOf "\x7b\"k\":\x7b\"Location\":3,\"Max\":6\x7d\x7d") 6).Read64
      AllocOutcome.granted (bytesOf "absent") = Except.ok (s,
        DB.mk (bytesOf "k:v") (bytesOf "\x7b\"k\":\x7b\"Location\":3,\"Max\":6\x7d\x7d") 6) :=
  ⟨by decide, by decide,
    C19_read_no_fault _ (bytesOf "k") (HashTable.map [(bytesOf "k", ⟨3, 6⟩)])
      (by decide) (by decide) (by decide),
    C19_read_no_fault _ (bytesOf "absent") (HashTable.map [(bytesOf "k", ⟨3, 6⟩)])
      (by decide) (by decide) (by decide)⟩

set_option maxRecDepth 100000 in
/-- An integer in the index file that is outside the range of `int` is not
stored.  The index file
`{"a":{"Location":9223372036854775807,"Max":9223372036854775813}}` loads as
the entry with `Max` 0, and `Read("a")` panics in `make` on the negative
size. -/
theorem read_literal_out_of_range :
    (DB.mk [] (bytesOf
        "\x7b\"a\":\x7b\"Location\":9223372036854775807,\"Max\":9223372036854775813\x7d\x7d")
        0).getIndexes64 =
      Except.ok (HashTable.map [(bytesOf "a", ⟨9223372036854775807, 0⟩)]) ∧
    (DB.mk [] (bytesOf
        "\x7b\"a\":\x7b\"Location\":9223372036854775807,\"Max\":9223372036854775813\x7d\x7d")
        0).Read64 AllocOutcome.granted (bytesOf "a") = Except.error Fault.panic := by
  decide

set_option maxRecDepth 100000 in
/-- C20 as stated fails for a key that is not valid UTF-8.  On the empty
store `Write("\xff:k", "v")`, with a key that contains `:`, returns `true`;
the index file has an entry for the key `"\ufffd:k"` and none for the key
that was written, and the `Read("\xff:k")` that follows returns the empty
string, not `"v"`. -/
theorem C20_delimiter_in_key_counterexample :
    emptyDB.byteSize = (emptyDB.f.length : Int) ∧ delim ∉ bytesOf "v" ∧
      emptyDB.Write AppendOutcome.written [0xFF, 0x3A, 0x6B] (bytesOf "v") =
        Except.ok (true, DB.mk [0xFF, 0x3A, 0x6B, 0x3A, 0x76]
          (bytesOf "\x7b\"\\ufffd:k\":\x7b\"Location\":0,\"Max\":5\x7d\x7d") 5) ∧
      (DB.mk [0xFF, 0x3A, 0x6B, 0x3A, 0x76]
          (bytesOf "\x7b\"\\ufffd:k\":\x7b\"Location\":0,\"Max\":5\x7d\x7d") 5).Read
          [0xFF, 0x3A, 0x6B] =
        Except.ok ([], DB.mk [0xFF, 0x3A, 0x6B, 0x3A, 0x76]
          (bytesOf "\x7b\"\\ufffd:k\":\x7b\"Location\":0,\"Max\":5\x7d\x7d") 5) ∧
      ([] : Bytes) ≠ bytesOf "v" := by
  decide

/-- C20, amended (a delimiter in the key does not change what is read back).
In a store whose cached length is the length of the log, for every key that is
valid UTF-8, also one with `:` in it and the empty key, and every value (their
record is a Go string, of at most `maxAlloc` bytes), when `Write(key, value)`
returns `true` the `Read(key)` that follows returns the last segment of
`value` between delimiters, which depends on `value` alone and is `value` when
`value` has no `:`. -/
theorem C20_delimiter_in_key (hf hf1 : DB) (out : AppendOutcome) (key value : Bytes)
    (hsize : hf.byteSize = (hf.f.length : Int)) (hkey : validUTF8 key = true)
    (hfit : key.length + 1 + value.length ≤ maxAlloc)
    (hw : hf.Write out key value = Except.ok (true, hf1)) :
    ∃ s, (split delim value).getLast? = some s ∧ hf1.Read key = Except.ok (s, hf1) ∧
      (delim ∉ value → s = value) := by
  obtain ⟨_, t, ht, h1⟩ := Write_true hf hf1 out key value hw
  subst h1
  have hrec : (split delim (record key value)).getLast? = (split delim value).getLast? := by
    unfold record
    rw [List.append_assoc]
    exact getLast?_split_append delim key value
  cases hs : (split delim value).getLast? with
  | none =>
    rw [List.getLast?_eq_none_iff] at hs
    exact absurd hs (split_ne_nil _ _)
  | some s =>
    refine ⟨s, rfl, ?_, ?_⟩
    · rw [Read_after_write hf t key value ht hkey hsize (by rw [record_length]; exact hfit),
        hrec, hs]
    · intro hv
      rw [split_of_not_mem delim value hv] at hs
      have h2 : [value].getLast? = some value := rfl
      rw [h2] at hs
      injection hs with hs
      exact hs.symm

set_option maxRecDepth 100000 in
/-- C20, amended, on the empty store: for the key `"a:b"` and for the empty
key, the value `"v"` that was written is read back. -/
theorem C20_delimiter_in_key_witness :
    emptyDB.byteSize = (emptyDB.f.length : Int) ∧ validUTF8 (bytesOf "a:b") = true ∧
    (bytesOf "a:b").length + 1 + (bytesOf "v").length ≤ maxAlloc ∧
    emptyDB.Write AppendOutcome.written (bytesOf "a:b") (bytesOf "v") =
      Except.ok (true, DB.mk (bytesOf "a:b:v") (marshalObject [(bytesOf "a:b", ⟨0, 5⟩)]) 5) ∧
    (DB.mk (bytesOf "a:b:v") (marshalObject [(bytesOf "a:b", ⟨0, 5⟩)]) 5).Read (bytesOf "a:b") =
      Except.ok (bytesOf "v", DB.mk (bytesOf "a:b:v") (marshalObject [(bytesOf "a:b", ⟨0, 5⟩)]) 5) ∧
    (DB.mk (bytesOf ":v") (marshalObject [([], ⟨0, 2⟩)]) 2).Read [] =
      Except.ok (bytesOf "v", DB.mk (bytesOf ":v") (marshalObject [([], ⟨0, 2⟩)]) 2) ∧
    ∃ s, (split delim (bytesOf "v")).getLast? = some s ∧
      (DB.mk (bytesOf "a:b:v") (marshalObject [(bytesOf "a:b", ⟨0, 5⟩)]) 5).Read (bytesOf "a:b") =
        Except.ok (s, DB.mk (bytesOf "a:b:v") (marshalObject [(bytesOf "a:b", ⟨0, 5⟩)]) 5) ∧
      (delim ∉ bytesOf "v" → s = bytesOf "v") :=
  ⟨by decide, by decide, by decide, by decide, by decide, by decide,
    C20_delimiter_in_key emptyDB _ AppendOutcome.written (bytesOf "a:b") (bytesOf "v")
      (by decide) (by decide) (by decide) (by decide)⟩
end keydb
